import Mathlib

/-!
LibPrioQueue: a shallow embedding of `prioqueue.c`

The C source implements a priority queue of opaque handles (`void *`) on a
binary heap stored in a resizable array whose slot 0 is unused.  This file
translates the C functions of `src/prioqueue.c` into Lean definitions and
proves properties of them.

Modelling conventions.

* A handle is a value of a type `α` with a distinguished inhabitant `NULL`
  (the `default` of `Inhabited α`).
* `long` values (`n`, `cap`, the loop indices) are mathematical integers;
  the arithmetic the code performs on them (`n+2`, `2*i`, `cap*2`, `cap/2`)
  stays far from the limits of `long` for any array that fits in memory.
* The heap array is a list whose length is the number of allocated slots.
  Every array read and write is checked: an index outside the allocation
  is the fault `Fault.outOfBounds`.
* A failed `assert` is the fault `Fault.assertFailed`.
* The two `while` loops are given a fuel argument; a loop that is still
  running when its fuel is used up is the fault `Fault.outOfFuel`.  The
  public operations pass `n` as fuel, which is shown to be enough.
* Allocation of a positive number of slots is assumed to succeed.
* The functions above the client programs pass the state along and yield no
  state when they fault.  What a faulting call leaves in memory is the
  subject of the in-place execution `Exec`: there `swap`, `realloc_heap`,
  `siftdown`, `prioqueue_delete` and `prioqueue_peek` are translated
  statement by statement, every statement acts on the one engine, and after
  a fault the engine is the one the faulting statement found.  The in-place
  translations are shown to agree with the functional ones.
-/

set_option linter.unusedSectionVars false

namespace PrioQueueC

/-- Outcomes of the C program other than a normal return. -/
inductive Fault where
  | assertFailed
  | outOfBounds
  | outOfFuel
  deriving DecidableEq, Repr

/-- Modelled from the spec: the header `prioqueue.h` that declares
`enum prioqueue_order` is not among the sources.  A C enumeration is an
integer; the code only tests `order == PQMax`. -/
abbrev prioqueue_order := Int

/-- Modelled from the spec: enumerator `PQMin` of the missing header
(minimum first); `tests.c` passes the values 0 and 1. -/
def PQMin : prioqueue_order := 0

/-- Modelled from the spec: enumerator `PQMax` of the missing header
(maximum first). -/
def PQMax : prioqueue_order := 1

/-- The two static functions whose address `prioqueue_new` can store in the
field `__cmp`. -/
inductive InternalCmp where
  | is_less_than
  | is_greater_than
  deriving DecidableEq, Repr

/-- The C `struct` behind `PrioQueue`: the heap array, the number `n` of
stored handles, the allocated capacity `cap`, the client comparator `cmp`
and the bound internal predicate `__cmp`. -/
structure PrioQueue (α : Type) where
  heap : List α
  n : Int
  cap : Int
  cmp : α → α → Int
  __cmp : InternalCmp

/-- A piece of the C code run on the engine in place: its outcome, and the
engine as the code leaves it. -/
def Exec (α β : Type) : Type :=
  PrioQueue α → Except Fault β × PrioQueue α

/-- Return a value; the engine stays as it is. -/
def Exec.ret {α β : Type} (b : β) : Exec α β :=
  fun pq => (.ok b, pq)

/-- Sequencing of C statements: the second runs on the engine the first
leaves; a fault ends the execution there, and what was written before it
stays written. -/
def Exec.seq {α β γ : Type} (m : Exec α β) (f : β → Exec α γ) : Exec α γ :=
  fun pq =>
    match m pq with
    | (.ok b, pq1) => f b pq1
    | (.error e, pq1) => (.error e, pq1)

/-- C statements in sequence are written in `do` blocks. -/
instance Exec.monad {α : Type} : Monad (Exec α) where
  pure := Exec.ret
  bind := Exec.seq

section Embedding

variable {α : Type} [Inhabited α]

/-- The null pointer. -/
def NULL : α := default

/-- Read `pq->heap[i]`. -/
def heapGet (pq : PrioQueue α) (i : Int) : Except Fault α :=
  if 0 ≤ i then
    match pq.heap[i.toNat]? with
    | some x => .ok x
    | none => .error .outOfBounds
  else .error .outOfBounds

/-- Write `pq->heap[i] = v`. -/
def heapSet (pq : PrioQueue α) (i : Int) (v : α) : Except Fault (PrioQueue α) :=
  if 0 ≤ i ∧ i.toNat < pq.heap.length then
    .ok { pq with heap := pq.heap.set i.toNat v }
  else .error .outOfBounds

/-- C `swap`: exchange the slots `i` and `j` of the heap array. -/
def swap (pq : PrioQueue α) (i j : Int) : Except Fault (PrioQueue α) := do
  let tmp ← heapGet pq i
  let vj ← heapGet pq j
  let pq1 ← heapSet pq i vj
  heapSet pq1 j tmp

/-- C `is_less_than`: `pq->cmp(x, y) < 0`. -/
def is_less_than (pq : PrioQueue α) (x y : α) : Bool :=
  decide (pq.cmp x y < 0)

/-- C `is_greater_than`: `pq->cmp(x, y) > 0`. -/
def is_greater_than (pq : PrioQueue α) (x y : α) : Bool :=
  decide (pq.cmp x y > 0)

/-- The indirect call `pq->__cmp(pq, x, y)`. -/
def call__cmp (pq : PrioQueue α) (x y : α) : Bool :=
  match pq.__cmp with
  | .is_less_than => is_less_than pq x y
  | .is_greater_than => is_greater_than pq x y

/-- C `prioqueue_new`.  The macro `PRIOQUEUE_INITIAL_CAPACITY` of the
missing header is the first argument; an absent comparator (a null function
pointer) is `none`.  `calloc` zero-fills the array. -/
def prioqueue_new (PRIOQUEUE_INITIAL_CAPACITY : Int) (cmp : Option (α → α → Int))
    (order : prioqueue_order) : Except Fault (PrioQueue α) :=
  match cmp with
  | none => .error .assertFailed
  | some f =>
    heapSet
      { heap := List.replicate PRIOQUEUE_INITIAL_CAPACITY.toNat NULL
        n := 0
        cap := PRIOQUEUE_INITIAL_CAPACITY
        cmp := f
        __cmp := if order = PQMax then .is_greater_than else .is_less_than }
      0 NULL

/-- C `realloc_heap`: resize the array to `new_capacity` slots, keeping the
common initial segment.  New slots are unspecified in C and `NULL` here.  A
request for no slots or a negative number of them makes `realloc` return
null, so the `assert` fails. -/
def realloc_heap (pq : PrioQueue α) (new_capacity : Int) : Except Fault (PrioQueue α) :=
  if 0 < new_capacity then
    .ok { pq with
          heap := pq.heap.take new_capacity.toNat
                    ++ List.replicate (new_capacity.toNat - pq.heap.length) NULL
          cap := new_capacity }
  else .error .assertFailed

/-- C `siftup`, with fuel for the `while` loop. -/
def siftup : Nat → PrioQueue α → Int → Except Fault (PrioQueue α)
  | 0, pq, i => if i > 1 then .error .outOfFuel else .ok pq
  | fuel + 1, pq, i =>
    if i > 1 then do
      let x ← heapGet pq (Int.tdiv i 2)
      let y ← heapGet pq i
      if call__cmp pq x y then .ok pq
      else do
        let pq1 ← swap pq (Int.tdiv i 2) i
        siftup fuel pq1 (Int.tdiv i 2)
    else .ok pq

/-- C `prioqueue_insert`. -/
def prioqueue_insert (pq : PrioQueue α) (elem : α) : Except Fault (PrioQueue α) := do
  let pq1 ← (if pq.n + 2 = pq.cap then realloc_heap pq (pq.cap * 2) else pure pq)
  let pq2 := { pq1 with n := pq1.n + 1 }
  let pq3 ← heapSet pq2 pq2.n elem
  siftup pq3.n.toNat pq3 pq3.n

/-- The child selection at the head of the loop body of `siftdown`:
`j = 2*i; if (j < n && !__cmp(heap[j], heap[j+1])) j++`. -/
def siftdown_child (pq : PrioQueue α) (i : Int) : Except Fault Int :=
  if 2 * i < pq.n then do
    let a ← heapGet pq (2 * i)
    let b ← heapGet pq (2 * i + 1)
    if !call__cmp pq a b then .ok (2 * i + 1) else .ok (2 * i)
  else .ok (2 * i)

/-- C `siftdown`, with fuel for the `while` loop. -/
def siftdown : Nat → PrioQueue α → Int → Except Fault (PrioQueue α)
  | 0, pq, i => if 2 * i ≤ pq.n then .error .outOfFuel else .ok pq
  | fuel + 1, pq, i =>
    if 2 * i ≤ pq.n then do
      let j ← siftdown_child pq i
      let x ← heapGet pq i
      let y ← heapGet pq j
      if call__cmp pq x y then .ok pq
      else do
        let pq1 ← swap pq i j
        siftdown fuel pq1 j
    else .ok pq

/-- C `prioqueue_delete`: the returned handle and the new state. -/
def prioqueue_delete (pq : PrioQueue α) : Except Fault (α × PrioQueue α) :=
  if pq.n > 0 then do
    let elem ← heapGet pq 1
    let pq1 ← swap pq 1 pq.n
    let pq2 := { pq1 with n := pq1.n - 1 }
    let pq3 ← heapSet pq2 (pq2.n + 1) NULL
    let pq4 ← siftdown pq3.n.toNat pq3 1
    let pq5 ← (if pq4.n + 1 < Int.tdiv pq4.cap 2 then realloc_heap pq4 (Int.tdiv pq4.cap 2)
               else pure pq4)
    .ok (elem, pq5)
  else .error .assertFailed

/-- C `prioqueue_peek`: the returned handle, and the state it leaves. -/
def prioqueue_peek (pq : PrioQueue α) : Except Fault (α × PrioQueue α) :=
  if pq.n > 0 then do
    let elem ← heapGet pq 1
    .ok (elem, pq)
  else .error .assertFailed

/-- C `prioqueue_is_empty`: the `int` value of `pq->n == 0`. -/
def prioqueue_is_empty (pq : PrioQueue α) : Int :=
  if pq.n = 0 then 1 else 0

/-- C `prioqueue_size`. -/
def prioqueue_size (pq : PrioQueue α) : Int :=
  pq.n

/-! ## In-place execution -/

/-- The engine at this point of the execution, for reading its fields. -/
def engine : Exec α (PrioQueue α) :=
  fun pq => (.ok pq, pq)

/-- C `assert(c)`: nothing is written; the execution ends when `c` is false. -/
def assert (c : PrioQueue α → Bool) : Exec α Unit :=
  fun pq => if c pq then (.ok (), pq) else (.error .assertFailed, pq)

/-- The expression `pq->heap[i]` in place. -/
def read_heap (i : Int) : Exec α α :=
  fun pq => (heapGet pq i, pq)

/-- The statement `pq->heap[i] = v` in place. -/
def write_heap (i : Int) (v : α) : Exec α Unit :=
  fun pq =>
    match heapSet pq i v with
    | .ok pq1 => (.ok (), pq1)
    | .error e => (.error e, pq)

/-- The statement `pq->n = k` in place. -/
def write_n (k : Int) : Exec α Unit :=
  fun pq => (.ok (), { pq with n := k })

/-- C `swap` in place. -/
def swap_exec (i j : Int) : Exec α Unit := do
  let tmp ← read_heap i
  let vj ← read_heap j
  write_heap i vj
  write_heap j tmp

/-- C `realloc_heap` in place: the fields are assigned after the `assert`. -/
def realloc_heap_exec (new_capacity : Int) : Exec α Unit :=
  fun pq =>
    match realloc_heap pq new_capacity with
    | .ok pq1 => (.ok (), pq1)
    | .error e => (.error e, pq)

/-- The child selection of `siftdown` in place; it only reads. -/
def siftdown_child_exec (i : Int) : Exec α Int :=
  fun pq => (siftdown_child pq i, pq)

/-- C `siftdown` in place, with fuel for the `while` loop. -/
def siftdown_exec : Nat → Int → Exec α Unit
  | 0, i => do
    let pq ← engine
    if 2 * i ≤ pq.n then (fun q => (.error .outOfFuel, q)) else pure ()
  | fuel + 1, i => do
    let pq ← engine
    if 2 * i ≤ pq.n then do
      let j ← siftdown_child_exec i
      let x ← read_heap i
      let y ← read_heap j
      if call__cmp pq x y then pure ()
      else do
        swap_exec i j
        siftdown_exec fuel j
    else pure ()

/-- C `prioqueue_delete` in place, statement by statement.  The argument
`pq->n--` of the call of `swap` is evaluated, and `n` decremented, before
`swap` runs. -/
def prioqueue_delete_exec : Exec α α := do
  assert (fun pq => decide (pq.n > 0))
  let elem ← read_heap 1
  let pq ← engine
  write_n (pq.n - 1)
  swap_exec 1 pq.n
  write_heap (pq.n - 1 + 1) NULL
  siftdown_exec (pq.n - 1).toNat 1
  let pq4 ← engine
  if pq4.n + 1 < Int.tdiv pq4.cap 2 then realloc_heap_exec (Int.tdiv pq4.cap 2) else pure ()
  pure elem

/-- C `prioqueue_peek` in place. -/
def prioqueue_peek_exec : Exec α α := do
  assert (fun pq => decide (pq.n > 0))
  read_heap 1

/-! ## Client programs -/

/-- A call of the public interface. -/
inductive Op (α : Type) where
  | insert (e : α)
  | delete
  | peek

/-- One call: the handle it returns, if it returns one, and the state it leaves. -/
def step (pq : PrioQueue α) : Op α → Except Fault (Option α × PrioQueue α)
  | .insert e => do
    let pq1 ← prioqueue_insert pq e
    .ok (none, pq1)
  | .delete => do
    let r ← prioqueue_delete pq
    .ok (some r.1, r.2)
  | .peek => do
    let r ← prioqueue_peek pq
    .ok (some r.1, r.2)

/-- A sequence of calls, performed in order until one of them faults: the
returned handles and the final state. -/
def run (pq : PrioQueue α) : List (Op α) → Except Fault (List (Option α) × PrioQueue α)
  | [] => .ok ([], pq)
  | op :: ops => do
    let r ← step pq op
    let rs ← run r.2 ops
    .ok (r.1 :: rs.1, rs.2)

/-- The number of `prioqueue_insert` calls in a sequence. -/
def inserts : List (Op α) → Int
  | [] => 0
  | .insert _ :: ops => inserts ops + 1
  | _ :: ops => inserts ops

/-- The number of `prioqueue_delete` calls in a sequence. -/
def deletes : List (Op α) → Int
  | [] => 0
  | .delete :: ops => deletes ops + 1
  | _ :: ops => deletes ops

/-- The insertion loop of `test` in `tests.c`: insert the handles in order. -/
def insert_all (pq : PrioQueue α) : List α → Except Fault (PrioQueue α)
  | [] => .ok pq
  | e :: es => do
    let pq1 ← prioqueue_insert pq e
    insert_all pq1 es

/-- Call `prioqueue_delete` until `prioqueue_is_empty`, with fuel for the
loop: the handles in the order returned, and the final state. -/
def extract_all : Nat → PrioQueue α → Except Fault (List α × PrioQueue α)
  | 0, pq => if prioqueue_is_empty pq ≠ 0 then .ok ([], pq) else .error .outOfFuel
  | fuel + 1, pq =>
    if prioqueue_is_empty pq ≠ 0 then .ok ([], pq)
    else do
      let r ← prioqueue_delete pq
      let rs ← extract_all fuel r.2
      .ok (r.1 :: rs.1, rs.2)

/-- The scenario of `test` in `tests.c`: create an engine, insert the handles
in order, then extract until the engine is empty.  The result is the list of
extracted handles. -/
def fill_then_drain (PRIOQUEUE_INITIAL_CAPACITY : Int) (cmp : α → α → Int)
    (order : prioqueue_order) (xs : List α) : Except Fault (List α) := do
  let pq ← prioqueue_new PRIOQUEUE_INITIAL_CAPACITY (some cmp) order
  let pq1 ← insert_all pq xs
  let r ← extract_all pq1.n.toNat pq1
  .ok r.1

/-- A comparator on integer priorities after `cmp` of `tests.c`, which
returns the difference of the priorities of its arguments. -/
def prio_cmp (x y : Int) : Int := x - y

/-- A sequence of calls, as `run`, recording after every call the handle it
returned and the state it left. -/
def trace (pq : PrioQueue α) : List (Op α) → Except Fault (List (Option α × PrioQueue α))
  | [] => .ok []
  | op :: ops => do
    let r ← step pq op
    let rs ← trace r.2 ops
    .ok (r :: rs)

/-- What is visible of one recorded call: the returned handle, the heap array,
the count and the capacity. -/
def observe (r : Option α × PrioQueue α) : Option α × List α × Int × Int :=
  (r.1, r.2.heap, r.2.n, r.2.cap)

/-- A sequence of calls, as `run`, counting the calls that change the
capacity: the count and the final state.  A call of `realloc_heap` changes the
capacity, and each public call makes at most one. -/
def realloc_count (pq : PrioQueue α) : List (Op α) → Except Fault (Nat × PrioQueue α)
  | [] => .ok (0, pq)
  | op :: ops => do
    let r ← step pq op
    let rs ← realloc_count r.2 ops
    .ok ((if r.2.cap = pq.cap then 0 else 1) + rs.1, rs.2)

/-- For each handle of the list, insert it and delete at once. -/
def alternate : List α → List (Op α)
  | [] => []
  | e :: es => .insert e :: .delete :: alternate es

/-- Insert the handles in order, then delete as many times. -/
def fill_drain_ops (xs : List α) : List (Op α) :=
  xs.map Op.insert ++ List.replicate xs.length Op.delete

/-- A comparator on pairs of a key and a priority, after `KV` and `cmp` of
`tests.c`: the difference of the priorities; the key plays no part. -/
def kv_cmp (x y : Int × Int) : Int := x.2 - y.2

/-! ## Specification vocabulary -/

/-- A comparator is a consistent total preorder: the sign of `cmp y x` is the
opposite of the sign of `cmp x y`, and `cmp · · ≤ 0` is transitive. -/
structure TotalPreorder (cmp : α → α → Int) : Prop where
  sign_swap : ∀ x y, cmp x y < 0 ↔ 0 < cmp y x
  trans_le : ∀ x y z, cmp x y ≤ 0 → cmp y z ≤ 0 → cmp x z ≤ 0

/-- Handle `x` is not worse-ranked than `y` under the mode bound in `pq`:
`cmp x y ≤ 0` for the minimum order, `cmp x y ≥ 0` for the maximum order. -/
def ranked (pq : PrioQueue α) (x y : α) : Prop :=
  match pq.__cmp with
  | .is_less_than => pq.cmp x y ≤ 0
  | .is_greater_than => 0 ≤ pq.cmp x y

/-- The heap property of the comment at the head of `prioqueue.c`: every
index `i` with `2 ≤ i ≤ n` holds a handle that its parent `i/2` is not
worse-ranked than.  Both slots must be readable. -/
def heap_inv (pq : PrioQueue α) : Prop :=
  ∀ i : Int, 2 ≤ i → i ≤ pq.n →
    ∃ x y, heapGet pq (Int.tdiv i 2) = .ok x ∧ heapGet pq i = .ok y ∧ ranked pq x y

/-- The representation invariant of an allocated engine: the count is not
negative, `cap` is the number of allocated slots, and besides the unused
slot 0 and the `n` stored handles one more slot is free. -/
def Valid (pq : PrioQueue α) : Prop :=
  0 ≤ pq.n ∧ (pq.heap.length : Int) = pq.cap ∧ pq.n + 2 ≤ pq.cap

/-- The stored handles `heap[1..n]`, in array order. -/
def live (pq : PrioQueue α) : List α :=
  (pq.heap.drop 1).take pq.n.toNat

end Embedding

/-! ## Auxiliary definitions used in the proofs -/

section Aux

variable {α : Type} [Inhabited α]

/-- Slot `k` of the array, `NULL` outside the allocation. -/
def slot (pq : PrioQueue α) (k : Nat) : α :=
  pq.heap.getD k NULL

/-- Exchange of two positions of a list. -/
def swapL (l : List α) (a b : Nat) : List α :=
  (l.set a (l.getD b NULL)).set b (l.getD a NULL)

/-- The state after exchanging two slots. -/
def swapQ (pq : PrioQueue α) (a b : Nat) : PrioQueue α :=
  { pq with heap := swapL pq.heap a b }

/-- The heap property on natural indices over `slot`. -/
def HeapOK (pq : PrioQueue α) : Prop :=
  ∀ k : Nat, 2 ≤ k → (k : Int) ≤ pq.n → ranked pq (slot pq (k / 2)) (slot pq k)

/-- The child that `siftdown` compares with slot `i`. -/
def childOf (pq : PrioQueue α) (i : Nat) : Nat :=
  if 2 * (i : Int) < pq.n ∧ call__cmp pq (slot pq (2 * i)) (slot pq (2 * i + 1)) = false
  then 2 * i + 1 else 2 * i

/-- Loop invariant of `siftup` at index `i`: the heap property holds at every
index other than `i`, and the children of `i` are ranked after the parent of `i`. -/
def UpInv (pq : PrioQueue α) (i : Nat) : Prop :=
  (∀ k : Nat, 2 ≤ k → (k : Int) ≤ pq.n → k ≠ i → ranked pq (slot pq (k / 2)) (slot pq k)) ∧
  (∀ k : Nat, 2 ≤ k → (k : Int) ≤ pq.n → k / 2 = i → 2 ≤ i →
    ranked pq (slot pq (i / 2)) (slot pq k))

/-- Loop invariant of `siftdown` at index `i`: the heap property holds at every
index whose parent is not `i`, and the children of `i` are ranked after the
parent of `i`. -/
def DownInv (pq : PrioQueue α) (i : Nat) : Prop :=
  (∀ k : Nat, 2 ≤ k → (k : Int) ≤ pq.n → k / 2 ≠ i → ranked pq (slot pq (k / 2)) (slot pq k)) ∧
  (∀ k : Nat, 2 ≤ k → (k : Int) ≤ pq.n → k / 2 = i → 2 ≤ i →
    ranked pq (slot pq (i / 2)) (slot pq k))

/-- What the sift loops leave alone: the count, the capacity, the comparator,
the bound predicate and the allocation size; the stored handles are permuted. -/
def Frame (pq pq1 : PrioQueue α) : Prop :=
  pq1.n = pq.n ∧ pq1.cap = pq.cap ∧ pq1.cmp = pq.cmp ∧ pq1.__cmp = pq.__cmp ∧
    pq1.heap.length = pq.heap.length ∧ (live pq1).Perm (live pq)

/-- The array after `realloc` to `c` slots. -/
def resizeL (l : List α) (c : Nat) : List α :=
  l.take c ++ List.replicate (c - l.length) NULL

/-- The state of `prioqueue_insert` after the optional growth. -/
def growQ (pq : PrioQueue α) : PrioQueue α :=
  if pq.n + 2 = pq.cap then { pq with heap := resizeL pq.heap (pq.cap * 2).toNat, cap := pq.cap * 2 }
  else pq

/-- The state of `prioqueue_insert` just before `siftup`. -/
def appendQ (pq : PrioQueue α) (e : α) : PrioQueue α :=
  { growQ pq with heap := (growQ pq).heap.set (pq.n + 1).toNat e, n := pq.n + 1 }

/-- The state of `prioqueue_delete` just before `siftdown`. -/
def removeQ (pq : PrioQueue α) : PrioQueue α :=
  { pq with heap := (swapL pq.heap 1 pq.n.toNat).set pq.n.toNat NULL, n := pq.n - 1 }

/-- The state of `prioqueue_delete` after the optional shrinking. -/
def shrinkQ (pq : PrioQueue α) : PrioQueue α :=
  if pq.n + 1 < Int.tdiv pq.cap 2 then
    { pq with heap := resizeL pq.heap (Int.tdiv pq.cap 2).toNat, cap := Int.tdiv pq.cap 2 }
  else pq

/-- The state that `prioqueue_new` returns. -/
def newQ (C : Int) (cmp : α → α → Int) (order : prioqueue_order) : PrioQueue α :=
  { heap := List.replicate C.toNat NULL
    n := 0
    cap := C
    cmp := cmp
    __cmp := if order = PQMax then .is_greater_than else .is_less_than }

/-- An engine created with a single slot: it is empty and no call succeeds on it. -/
def Stuck (pq : PrioQueue α) : Prop :=
  pq.n = 0 ∧ pq.heap.length = 1 ∧ pq.cap = 1

/-- A concrete engine in minimum order holding the priorities 10, 30, 20 in
an array of eight slots; used to instantiate the theorems. -/
def sample_queue : PrioQueue Int :=
  { heap := [0, 10, 30, 20, 0, 0, 0, 0]
    n := 3
    cap := 8
    cmp := prio_cmp
    __cmp := .is_less_than }

/-- The state with its comparator and its bound predicate replaced. -/
def retag (cmp1 : α → α → Int) (m : InternalCmp) (pq : PrioQueue α) : PrioQueue α :=
  { pq with cmp := cmp1, __cmp := m }

/-- A recorded call with the comparator and the bound predicate of its state
replaced. -/
def retagged (cmp1 : α → α → Int) (m : InternalCmp) (r : Option α × PrioQueue α) :
    Option α × PrioQueue α :=
  (r.1, retag cmp1 m r.2)

end Aux

/-! ## Basic facts about the array operations -/

section Basic

variable {α : Type} [Inhabited α]

theorem ok_bind {ε β γ : Type} (a : β) (f : β → Except ε γ) :
    (Except.ok a >>= f) = f a := rfl

theorem error_bind {ε β γ : Type} (e : ε) (f : β → Except ε γ) :
    ((Except.error e : Except ε β) >>= f) = Except.error e := rfl

theorem tdiv_two_cast (i : Nat) : Int.tdiv (i : Int) 2 = ((i / 2 : Nat) : Int) := by
  rw [Int.tdiv_eq_ediv (by omega) (by omega)]; norm_cast

theorem heapGet_ok (pq : PrioQueue α) (k : Nat) (h : k < pq.heap.length) :
    heapGet pq (k : Int) = .ok (slot pq k) := by
  simp [heapGet, slot, List.getD_eq_getElem?_getD, List.getElem?_eq_getElem h]

theorem heapGet_oob (pq : PrioQueue α) (k : Nat) (h : pq.heap.length ≤ k) :
    heapGet pq (k : Int) = .error .outOfBounds := by
  simp [heapGet, List.getElem?_eq_none h]

theorem heapSet_ok (pq : PrioQueue α) (k : Nat) (v : α) (h : k < pq.heap.length) :
    heapSet pq (k : Int) v = .ok { pq with heap := pq.heap.set k v } := by
  simp [heapSet, h]

theorem swap_ok (pq : PrioQueue α) (a b : Nat) (ha : a < pq.heap.length)
    (hb : b < pq.heap.length) : swap pq (a : Int) (b : Int) = .ok (swapQ pq a b) := by
  simp [swap, heapGet_ok pq a ha, heapGet_ok pq b hb, ok_bind, heapSet_ok pq a _ ha]
  rw [heapSet_ok _ b _ (by simpa using hb)]
  rfl

@[simp] theorem length_swapL (l : List α) (a b : Nat) : (swapL l a b).length = l.length := by
  simp [swapL]

theorem getD_swapL (l : List α) (a b k : Nat) (ha : a < l.length) (hb : b < l.length) :
    (swapL l a b).getD k NULL =
      if k = b then l.getD a NULL else if k = a then l.getD b NULL else l.getD k NULL := by
  simp only [swapL, List.getD_eq_getElem?_getD, List.getElem?_set, List.length_set]
  by_cases h1 : k = b
  · subst h1; simp [hb]
  · by_cases h2 : k = a
    · subst h2
      have h3 : ¬ b = k := fun h => h1 h.symm
      simp [ha, h1, h3]
    · simp [h1, h2, Ne.symm h1, Ne.symm h2]

@[simp] theorem swapQ_n (pq : PrioQueue α) (a b : Nat) : (swapQ pq a b).n = pq.n := rfl
@[simp] theorem swapQ_cap (pq : PrioQueue α) (a b : Nat) : (swapQ pq a b).cap = pq.cap := rfl
@[simp] theorem swapQ_cmp (pq : PrioQueue α) (a b : Nat) : (swapQ pq a b).cmp = pq.cmp := rfl
@[simp] theorem swapQ_icmp (pq : PrioQueue α) (a b : Nat) :
    (swapQ pq a b).__cmp = pq.__cmp := rfl
@[simp] theorem swapQ_length (pq : PrioQueue α) (a b : Nat) :
    (swapQ pq a b).heap.length = pq.heap.length := by simp [swapQ]

theorem slot_swapQ (pq : PrioQueue α) (a b k : Nat) (ha : a < pq.heap.length)
    (hb : b < pq.heap.length) :
    slot (swapQ pq a b) k =
      if k = b then slot pq a else if k = a then slot pq b else slot pq k := by
  simp only [slot, swapQ]; exact getD_swapL _ a b k ha hb

@[simp] theorem ranked_swapQ (pq : PrioQueue α) (a b : Nat) (x y : α) :
    ranked (swapQ pq a b) x y = ranked pq x y := rfl

@[simp] theorem call_swapQ (pq : PrioQueue α) (a b : Nat) (x y : α) :
    call__cmp (swapQ pq a b) x y = call__cmp pq x y := rfl

end Basic

/-! ## The comparator -/

section Order

variable {α : Type} [Inhabited α]

theorem TotalPreorder.ge_iff {cmp : α → α → Int} (hc : TotalPreorder cmp) (x y : α) :
    0 ≤ cmp x y ↔ cmp y x ≤ 0 := by
  have h1 := hc.sign_swap x y
  have h2 := hc.sign_swap y x
  omega

theorem TotalPreorder.refl_zero {cmp : α → α → Int} (hc : TotalPreorder cmp) (x : α) :
    cmp x x = 0 := by
  have h1 := hc.sign_swap x x
  omega

theorem ranked_of_call (pq : PrioQueue α) (x y : α) (h : call__cmp pq x y = true) :
    ranked pq x y := by
  unfold call__cmp at h
  unfold ranked
  cases hm : pq.__cmp <;> simp only [hm, is_less_than, is_greater_than, decide_eq_true_eq] at h ⊢
  · omega
  · omega

theorem ranked_of_not_call (pq : PrioQueue α) (hc : TotalPreorder pq.cmp) (x y : α)
    (h : call__cmp pq x y = false) : ranked pq y x := by
  unfold call__cmp at h
  unfold ranked
  have h1 := hc.sign_swap x y
  have h2 := hc.sign_swap y x
  cases hm : pq.__cmp <;>
    simp only [hm, is_less_than, is_greater_than, decide_eq_false_iff_not] at h ⊢
  · omega
  · omega

theorem ranked_trans (pq : PrioQueue α) (hc : TotalPreorder pq.cmp) {x y z : α}
    (h1 : ranked pq x y) (h2 : ranked pq y z) : ranked pq x z := by
  unfold ranked at *
  cases hm : pq.__cmp <;> simp only [hm] at h1 h2 ⊢
  · exact hc.trans_le x y z h1 h2
  · rw [hc.ge_iff] at h1 h2 ⊢
    exact hc.trans_le z y x h2 h1

theorem ranked_refl (pq : PrioQueue α) (hc : TotalPreorder pq.cmp) (x : α) :
    ranked pq x x := by
  unfold ranked
  have := hc.refl_zero x
  cases hm : pq.__cmp <;> simp only [hm] <;> omega

end Order

/-! ## One iteration of each loop -/

section Steps

variable {α : Type} [Inhabited α]

theorem siftup_stop (fuel : Nat) (pq : PrioQueue α) (i : Int) (h : i ≤ 1) :
    siftup fuel pq i = .ok pq := by
  cases fuel <;> simp [siftup, h]

theorem siftup_step (fuel : Nat) (pq : PrioQueue α) (i : Nat) (h1 : 1 < i)
    (hb : i < pq.heap.length) :
    siftup (fuel + 1) pq (i : Int) =
      if call__cmp pq (slot pq (i / 2)) (slot pq i) then .ok pq
      else siftup fuel (swapQ pq (i / 2) i) ((i / 2 : Nat) : Int) := by
  have hp : i / 2 < pq.heap.length := by omega
  have h1i : (1 : Int) < (i : Int) := by omega
  simp only [siftup, h1i, gt_iff_lt, if_true, tdiv_two_cast, heapGet_ok pq _ hp,
    heapGet_ok pq _ hb, ok_bind, swap_ok pq _ _ hp hb]

theorem siftdown_stop (fuel : Nat) (pq : PrioQueue α) (i : Int) (h : pq.n < 2 * i) :
    siftdown fuel pq i = .ok pq := by
  have h2 : ¬ (2 * i ≤ pq.n) := by omega
  cases fuel <;> simp [siftdown, h2]

theorem siftdown_child_ok (pq : PrioQueue α) (i : Nat) (hn : pq.n < pq.heap.length) :
    siftdown_child pq (i : Int) = .ok ((childOf pq i : Nat) : Int) := by
  unfold siftdown_child childOf
  have e1 : (2 : Int) * (i : Int) = ((2 * i : Nat) : Int) := by push_cast; ring
  have e2 : (2 : Int) * (i : Int) + 1 = ((2 * i + 1 : Nat) : Int) := by push_cast; ring
  by_cases h2 : 2 * (i : Int) < pq.n
  · have hb1 : 2 * i < pq.heap.length := by omega
    have hb2 : 2 * i + 1 < pq.heap.length := by omega
    simp only [h2, if_true, true_and]
    rw [e2, e1, heapGet_ok pq _ hb1, heapGet_ok pq _ hb2]
    simp only [ok_bind]
    cases call__cmp pq (slot pq (2 * i)) (slot pq (2 * i + 1)) <;> simp
  · simp only [h2, if_false, false_and]
    rw [e1]

theorem siftdown_step (fuel : Nat) (pq : PrioQueue α) (i : Nat) (hn : pq.n < pq.heap.length)
    (h : 2 * (i : Int) ≤ pq.n) :
    siftdown (fuel + 1) pq (i : Int) =
      if call__cmp pq (slot pq i) (slot pq (childOf pq i)) then .ok pq
      else siftdown fuel (swapQ pq i (childOf pq i)) ((childOf pq i : Nat) : Int) := by
  have hj : childOf pq i < pq.heap.length := by
    unfold childOf; split <;> omega
  have hi : i < pq.heap.length := by omega
  simp only [siftdown, h, if_true, siftdown_child_ok pq i hn, heapGet_ok pq _ hi,
    heapGet_ok pq _ hj, ok_bind, swap_ok pq _ _ hi hj]

end Steps

/-! ## Loop invariants of the two sift loops -/

section Sift

variable {α : Type} [Inhabited α]

theorem upinv_swap (pq : PrioQueue α) (hc : TotalPreorder pq.cmp) (i : Nat) (h2 : 2 ≤ i)
    (hin : (i : Int) ≤ pq.n) (hn : pq.n < pq.heap.length) (hinv : UpInv pq i)
    (hr : ranked pq (slot pq i) (slot pq (i / 2))) : UpInv (swapQ pq (i / 2) i) (i / 2) := by
  obtain ⟨h1, hg⟩ := hinv
  have hb : i < pq.heap.length := by omega
  have hp : i / 2 < pq.heap.length := by omega
  constructor
  · intro k hk2 hkn hne
    simp only [swapQ_n] at hkn
    rw [ranked_swapQ, slot_swapQ pq _ _ _ hp hb, slot_swapQ pq _ _ _ hp hb]
    by_cases hki : k = i
    · subst hki
      have e1 : ¬ (k / 2 = k) := by omega
      simp only [e1, if_false, if_true]
      exact hr
    · simp only [hki, hne, if_false]
      by_cases hc1 : k / 2 = i
      · simp only [hc1, if_true]
        exact hg k hk2 hkn hc1 h2
      · by_cases hc2 : k / 2 = i / 2
        · have e0 : ¬ (i / 2 = i) := by omega
          simp only [hc2, e0, if_false, if_true]
          have := h1 k hk2 hkn hki
          rw [hc2] at this
          exact ranked_trans pq hc hr this
        · simp only [hc1, hc2, if_false]
          exact h1 k hk2 hkn hki
  · intro k hk2 hkn hk hi2
    simp only [swapQ_n] at hkn
    rw [ranked_swapQ, slot_swapQ pq _ _ _ hp hb, slot_swapQ pq _ _ _ hp hb]
    have e1 : ¬ (i / 2 / 2 = i) := by omega
    have e2 : ¬ (i / 2 / 2 = i / 2) := by omega
    have e3 : ¬ (k = i / 2) := by omega
    have hpar := h1 (i / 2) hi2 (by omega) (by omega)
    simp only [e1, e2, e3, if_false]
    by_cases hki : k = i
    · simp only [hki, if_true]
      exact hpar
    · simp only [hki, if_false]
      have := h1 k hk2 hkn hki
      rw [hk] at this
      exact ranked_trans pq hc hpar this

theorem siftup_heapOK (fuel : Nat) : ∀ (pq : PrioQueue α) (i : Nat) (pq1 : PrioQueue α),
    TotalPreorder pq.cmp → (i : Int) ≤ pq.n → pq.n < pq.heap.length → UpInv pq i →
    siftup fuel pq (i : Int) = .ok pq1 → HeapOK pq1 := by
  induction fuel with
  | zero =>
    intro pq i pq1 _ _ _ hinv h
    by_cases h1 : 1 < i
    · have : (i : Int) > 1 := by omega
      simp [siftup, this] at h
    · rw [siftup_stop _ _ _ (by omega)] at h
      cases h
      intro k hk2 hkn
      exact hinv.1 k hk2 hkn (by omega)
  | succ fuel ih =>
    intro pq i pq1 hc hin hn hinv h
    by_cases h1 : 1 < i
    · rw [siftup_step fuel pq i h1 (by omega)] at h
      cases hcall : call__cmp pq (slot pq (i / 2)) (slot pq i)
      · simp only [hcall] at h
        have hr := ranked_of_not_call pq hc _ _ hcall
        exact ih (swapQ pq (i / 2) i) (i / 2) pq1 hc (by simp; omega) (by simpa using hn)
          (upinv_swap pq hc i (by omega) hin hn hinv hr) h
      · simp only [hcall, if_true] at h
        cases h
        intro k hk2 hkn
        by_cases hki : k = i
        · subst hki; exact ranked_of_call pq _ _ hcall
        · exact hinv.1 k hk2 hkn hki
    · rw [siftup_stop _ _ _ (by omega)] at h
      cases h
      intro k hk2 hkn
      exact hinv.1 k hk2 hkn (by omega)

theorem childOf_cases (pq : PrioQueue α) (i : Nat) :
    (childOf pq i = 2 * i ∧
      (2 * (i : Int) < pq.n → call__cmp pq (slot pq (2 * i)) (slot pq (2 * i + 1)) = true)) ∨
    (childOf pq i = 2 * i + 1 ∧ 2 * (i : Int) < pq.n ∧
      call__cmp pq (slot pq (2 * i)) (slot pq (2 * i + 1)) = false) := by
  unfold childOf
  by_cases h : 2 * (i : Int) < pq.n ∧ call__cmp pq (slot pq (2 * i)) (slot pq (2 * i + 1)) = false
  · right; exact ⟨if_pos h, h.1, h.2⟩
  · left
    refine ⟨if_neg h, ?_⟩
    intro h2
    cases hcall : call__cmp pq (slot pq (2 * i)) (slot pq (2 * i + 1))
    · exact absurd ⟨h2, hcall⟩ h
    · rfl

theorem childOf_best (pq : PrioQueue α) (hc : TotalPreorder pq.cmp) (i k : Nat)
    (hk : k / 2 = i) (hk2 : 2 ≤ k) (hkn : (k : Int) ≤ pq.n) :
    ranked pq (slot pq (childOf pq i)) (slot pq k) := by
  have hk' : k = 2 * i ∨ k = 2 * i + 1 := by omega
  rcases childOf_cases pq i with ⟨e, h⟩ | ⟨e, h1, h2⟩
  · rw [e]
    rcases hk' with rfl | rfl
    · exact ranked_refl pq hc _
    · exact ranked_of_call pq _ _ (h (by push_cast at hkn; omega))
  · rw [e]
    rcases hk' with rfl | rfl
    · exact ranked_of_not_call pq hc _ _ h2
    · exact ranked_refl pq hc _

theorem childOf_bounds (pq : PrioQueue α) (i : Nat) (h : 2 * (i : Int) ≤ pq.n) :
    (childOf pq i : Int) ≤ pq.n ∧ childOf pq i / 2 = i ∧ 2 * i ≤ childOf pq i := by
  rcases childOf_cases pq i with ⟨e, _⟩ | ⟨e, h1, _⟩ <;> rw [e] <;> refine ⟨?_, ?_, ?_⟩ <;>
    omega

theorem downinv_swap (pq : PrioQueue α) (hc : TotalPreorder pq.cmp) (i : Nat) (h1 : 1 ≤ i)
    (hin : 2 * (i : Int) ≤ pq.n) (hn : pq.n < pq.heap.length) (hinv : DownInv pq i)
    (hr : ranked pq (slot pq (childOf pq i)) (slot pq i)) :
    DownInv (swapQ pq i (childOf pq i)) (childOf pq i) := by
  obtain ⟨hd, hg⟩ := hinv
  obtain ⟨hjn, hj2, hji⟩ := childOf_bounds pq i hin
  have hbest := childOf_best pq hc i
  generalize childOf pq i = j at *
  have hi : i < pq.heap.length := by omega
  have hj : j < pq.heap.length := by omega
  constructor
  · intro k hk2 hkn hne
    simp only [swapQ_n] at hkn
    rw [ranked_swapQ, slot_swapQ pq _ _ _ hi hj, slot_swapQ pq _ _ _ hi hj]
    simp only [hne, if_false]
    by_cases hkj : k = j
    · subst hkj
      simp only [hj2, if_true]
      exact hr
    · simp only [hkj, if_false]
      by_cases hki : k = i
      · subst hki
        have e1 : ¬ (k / 2 = k) := by omega
        simp only [e1, if_false, if_true]
        exact hg j (by omega) hjn hj2 (by omega)
      · simp only [hki, if_false]
        by_cases hc1 : k / 2 = i
        · simp only [hc1, if_true]
          exact hbest k hc1 hk2 hkn
        · simp only [hc1, if_false]
          exact hd k hk2 hkn hc1
  · intro k hk2 hkn hk _
    simp only [swapQ_n] at hkn
    rw [ranked_swapQ, slot_swapQ pq _ _ _ hi hj, slot_swapQ pq _ _ _ hi hj]
    have e1 : ¬ (j / 2 = j) := by omega
    have e2 : ¬ (k = j) := by omega
    have e3 : ¬ (k = i) := by omega
    have e4 : ¬ (i = j) := by omega
    have := hd k hk2 hkn (by omega)
    rw [hk] at this
    simp only [e1, e2, e3, e4, hk, hj2, if_false, if_true]
    exact this

theorem siftdown_heapOK (fuel : Nat) : ∀ (pq : PrioQueue α) (i : Nat) (pq1 : PrioQueue α),
    TotalPreorder pq.cmp → 1 ≤ i → pq.n < pq.heap.length → DownInv pq i →
    siftdown fuel pq (i : Int) = .ok pq1 → HeapOK pq1 := by
  induction fuel with
  | zero =>
    intro pq i pq1 _ _ _ hinv h
    by_cases h1 : 2 * (i : Int) ≤ pq.n
    · simp [siftdown, h1] at h
    · rw [siftdown_stop _ _ _ (by omega)] at h
      cases h
      intro k hk2 hkn
      exact hinv.1 k hk2 hkn (by omega)
  | succ fuel ih =>
    intro pq i pq1 hc hi1 hn hinv h
    by_cases h1 : 2 * (i : Int) ≤ pq.n
    · rw [siftdown_step fuel pq i hn h1] at h
      obtain ⟨hjn, hj2, hji⟩ := childOf_bounds pq i h1
      cases hcall : call__cmp pq (slot pq i) (slot pq (childOf pq i))
      · simp only [hcall] at h
        have hr := ranked_of_not_call pq hc _ _ hcall
        exact ih (swapQ pq i (childOf pq i)) (childOf pq i) pq1 hc (by omega)
          (by simpa using hn) (downinv_swap pq hc i hi1 h1 hn hinv hr) h
      · simp only [hcall, if_true] at h
        cases h
        intro k hk2 hkn
        by_cases hki : k / 2 = i
        · have := ranked_of_call pq _ _ hcall
          rw [hki]
          exact ranked_trans pq hc this (childOf_best pq hc i k hki hk2 hkn)
        · exact hinv.1 k hk2 hkn hki
    · rw [siftdown_stop _ _ _ (by omega)] at h
      cases h
      intro k hk2 hkn
      exact hinv.1 k hk2 hkn (by omega)

end Sift

/-! ## The sift loops return, and only permute the stored handles -/

section Frames

variable {α : Type} [Inhabited α]

theorem Frame.refl (pq : PrioQueue α) : Frame pq pq :=
  ⟨rfl, rfl, rfl, rfl, rfl, List.Perm.refl _⟩

theorem Frame.trans {p q r : PrioQueue α} (h1 : Frame p q) (h2 : Frame q r) : Frame p r :=
  ⟨h2.1.trans h1.1, h2.2.1.trans h1.2.1, h2.2.2.1.trans h1.2.2.1,
    h2.2.2.2.1.trans h1.2.2.2.1, h2.2.2.2.2.1.trans h1.2.2.2.2.1,
    h2.2.2.2.2.2.trans h1.2.2.2.2.2⟩

theorem ext_getD (l1 l2 : List α) (hl : l1.length = l2.length)
    (h : ∀ k, k < l1.length → l1.getD k NULL = l2.getD k NULL) : l1 = l2 := by
  apply List.ext_getElem hl
  intro k h1 h2
  have := h k h1
  rwa [List.getD_eq_getElem _ _ h1, List.getD_eq_getElem _ _ h2] at this

theorem length_live (pq : PrioQueue α) (hn : pq.n < pq.heap.length) :
    (live pq).length = pq.n.toNat := by
  simp only [live, List.length_take, List.length_drop]
  omega

theorem getD_live (pq : PrioQueue α) (k : Nat) (hk : k < pq.n.toNat) :
    (live pq).getD k NULL = slot pq (k + 1) := by
  simp only [live, slot, List.getD_eq_getElem?_getD, List.getElem?_take, hk, if_true,
    List.getElem?_drop]
  rw [Nat.add_comm]

theorem swapL_head_perm (a : α) : ∀ (t : List α) (j : Nat), j < t.length →
    (t.getD j NULL :: t.set j a).Perm (a :: t) := by
  intro t
  induction t with
  | nil => intro j hj; simp at hj
  | cons b t ih =>
    intro j hj
    cases j with
    | zero => simpa using List.Perm.swap a b t
    | succ j =>
      have hj2 : j < t.length := by simpa using hj
      have h1 := ih j hj2
      simp only [List.getD_cons_succ, List.set_cons_succ]
      exact (List.Perm.swap b (t.getD j NULL) (t.set j a)).trans
        ((List.Perm.cons b h1).trans (List.Perm.swap a b t))

theorem swapL_perm : ∀ (l : List α) (a b : Nat), a < l.length → b < l.length →
    (swapL l a b).Perm l := by
  intro l
  induction l with
  | nil => intro a b ha; simp at ha
  | cons x t ih =>
    intro a b ha hb
    cases a with
    | zero =>
      cases b with
      | zero => simp [swapL]
      | succ b =>
        have hb2 : b < t.length := by simpa using hb
        simpa [swapL] using swapL_head_perm x t b hb2
    | succ a =>
      have ha2 : a < t.length := by simpa using ha
      cases b with
      | zero =>
        have := swapL_head_perm x t a ha2
        simpa [swapL] using this
      | succ b =>
        have hb2 : b < t.length := by simpa using hb
        have := ih a b ha2 hb2
        simpa [swapL] using this

theorem live_swapQ (pq : PrioQueue α) (a b : Nat) (ha1 : 1 ≤ a) (hb1 : 1 ≤ b)
    (han : (a : Int) ≤ pq.n) (hbn : (b : Int) ≤ pq.n) (hn : pq.n < pq.heap.length) :
    live (swapQ pq a b) = swapL (live pq) (a - 1) (b - 1) := by
  have hl := length_live pq hn
  have hl2 : (live (swapQ pq a b)).length = pq.n.toNat := by
    rw [length_live _ (by simpa using hn)]; rfl
  apply ext_getD
  · rw [hl2, length_swapL, hl]
  · intro k hk
    rw [hl2] at hk
    rw [getD_live _ _ (by simpa using hk), slot_swapQ pq _ _ _ (by omega) (by omega),
      getD_swapL _ _ _ _ (by omega) (by omega), getD_live pq _ (by omega),
      getD_live pq _ (by omega), getD_live pq _ hk]
    have ea : a - 1 + 1 = a := by omega
    have eb : b - 1 + 1 = b := by omega
    rw [ea, eb]
    by_cases h1 : k + 1 = b
    · have : k = b - 1 := by omega
      rw [if_pos h1, if_pos this]
    · have h1' : ¬ (k = b - 1) := by omega
      by_cases h2 : k + 1 = a
      · have : k = a - 1 := by omega
        rw [if_neg h1, if_neg h1', if_pos h2, if_pos this]
      · have h2' : ¬ (k = a - 1) := by omega
        rw [if_neg h1, if_neg h1', if_neg h2, if_neg h2']

theorem frame_swapQ (pq : PrioQueue α) (a b : Nat) (ha1 : 1 ≤ a) (hb1 : 1 ≤ b)
    (han : (a : Int) ≤ pq.n) (hbn : (b : Int) ≤ pq.n) (hn : pq.n < pq.heap.length) :
    Frame pq (swapQ pq a b) := by
  refine ⟨rfl, rfl, rfl, rfl, by simp, ?_⟩
  rw [live_swapQ pq a b ha1 hb1 han hbn hn]
  have hl := length_live pq hn
  exact swapL_perm _ _ _ (by omega) (by omega)

theorem siftup_frame (fuel : Nat) : ∀ (pq : PrioQueue α) (i : Nat),
    i ≤ fuel + 1 → 1 ≤ i → (i : Int) ≤ pq.n → pq.n < pq.heap.length →
    ∃ pq1, siftup fuel pq (i : Int) = .ok pq1 ∧ Frame pq pq1 := by
  induction fuel with
  | zero =>
    intro pq i hf _ _ _
    exact ⟨pq, siftup_stop _ _ _ (by omega), Frame.refl pq⟩
  | succ fuel ih =>
    intro pq i hf hi1 hin hn
    by_cases h1 : 1 < i
    · rw [siftup_step fuel pq i h1 (by omega)]
      cases hcall : call__cmp pq (slot pq (i / 2)) (slot pq i)
      · have hfr := frame_swapQ pq (i / 2) i (by omega) hi1 (by omega) hin hn
        obtain ⟨pq1, h2, h3⟩ := ih (swapQ pq (i / 2) i) (i / 2) (by omega) (by omega)
          (by simp; omega) (by simpa using hn)
        exact ⟨pq1, by simpa using h2, hfr.trans h3⟩
      · exact ⟨pq, by simp, Frame.refl pq⟩
    · exact ⟨pq, siftup_stop _ _ _ (by omega), Frame.refl pq⟩

theorem siftdown_frame (fuel : Nat) : ∀ (pq : PrioQueue α) (i : Nat),
    pq.n.toNat ≤ fuel + i → 1 ≤ i → pq.n < pq.heap.length →
    ∃ pq1, siftdown fuel pq (i : Int) = .ok pq1 ∧ Frame pq pq1 := by
  induction fuel with
  | zero =>
    intro pq i hf hi1 _
    exact ⟨pq, siftdown_stop _ _ _ (by omega), Frame.refl pq⟩
  | succ fuel ih =>
    intro pq i hf hi1 hn
    by_cases h1 : 2 * (i : Int) ≤ pq.n
    · rw [siftdown_step fuel pq i hn h1]
      obtain ⟨hjn, hj2, hji⟩ := childOf_bounds pq i h1
      cases hcall : call__cmp pq (slot pq i) (slot pq (childOf pq i))
      · have hfr := frame_swapQ pq i (childOf pq i) hi1 (by omega) (by omega) hjn hn
        obtain ⟨pq1, h2, h3⟩ := ih (swapQ pq i (childOf pq i)) (childOf pq i)
          (by simp; omega) (by omega) (by simpa using hn)
        exact ⟨pq1, by simpa using h2, hfr.trans h3⟩
      · exact ⟨pq, by simp, Frame.refl pq⟩
    · exact ⟨pq, siftdown_stop _ _ _ (by omega), Frame.refl pq⟩

end Frames

/-! ## The two public mutators, step by step -/

section Ops

variable {α : Type} [Inhabited α]

@[simp] theorem length_resizeL (l : List α) (c : Nat) : (resizeL l c).length = c := by
  simp only [resizeL, List.length_append, List.length_take, List.length_replicate]
  omega

theorem getD_resizeL (l : List α) (c k : Nat) (hk : k < c) :
    (resizeL l c).getD k NULL = l.getD k NULL := by
  simp only [resizeL, List.getD_eq_getElem?_getD, List.getElem?_append, List.length_take,
    List.getElem?_take, List.getElem?_replicate]
  by_cases h : k < l.length
  · have : k < min c l.length := by omega
    simp [this, hk]
  · have : ¬ (k < min c l.length) := by omega
    simp only [this, if_false]
    rw [List.getElem?_eq_none (by omega : l.length ≤ k)]
    split <;> rfl

theorem realloc_heap_ok (pq : PrioQueue α) (c : Int) (hc : 0 < c) :
    realloc_heap pq c = .ok { pq with heap := resizeL pq.heap c.toNat, cap := c } := by
  simp [realloc_heap, hc, resizeL]

@[simp] theorem growQ_n (pq : PrioQueue α) : (growQ pq).n = pq.n := by
  unfold growQ; split <;> rfl
@[simp] theorem growQ_cmp (pq : PrioQueue α) : (growQ pq).cmp = pq.cmp := by
  unfold growQ; split <;> rfl
@[simp] theorem growQ_icmp (pq : PrioQueue α) : (growQ pq).__cmp = pq.__cmp := by
  unfold growQ; split <;> rfl
theorem growQ_cap (pq : PrioQueue α) :
    (growQ pq).cap = if pq.n + 2 = pq.cap then pq.cap * 2 else pq.cap := by
  unfold growQ; split <;> rfl

theorem growQ_valid (pq : PrioQueue α) (hv : Valid pq) :
    ((growQ pq).heap.length : Int) = (growQ pq).cap ∧ pq.n + 3 ≤ (growQ pq).cap := by
  obtain ⟨h0, hl, hc⟩ := hv
  unfold growQ
  split
  · simp only [length_resizeL]; omega
  · exact ⟨hl, by omega⟩

theorem slot_growQ (pq : PrioQueue α) (hv : Valid pq) (k : Nat) :
    slot (growQ pq) k = slot pq k := by
  obtain ⟨h0, hl, hc⟩ := hv
  unfold growQ
  split
  · simp only [slot]
    by_cases hk : k < (pq.cap * 2).toNat
    · exact getD_resizeL _ _ _ hk
    · rw [List.getD_eq_default _ _ (by simp; omega), List.getD_eq_default _ _ (by omega)]
  · rfl

@[simp] theorem appendQ_n (pq : PrioQueue α) (e : α) : (appendQ pq e).n = pq.n + 1 := rfl
@[simp] theorem appendQ_cmp (pq : PrioQueue α) (e : α) : (appendQ pq e).cmp = pq.cmp := by
  simp [appendQ]
@[simp] theorem appendQ_icmp (pq : PrioQueue α) (e : α) :
    (appendQ pq e).__cmp = pq.__cmp := by
  simp [appendQ]
theorem appendQ_cap (pq : PrioQueue α) (e : α) :
    (appendQ pq e).cap = if pq.n + 2 = pq.cap then pq.cap * 2 else pq.cap := by
  simp [appendQ, growQ_cap]

theorem appendQ_valid (pq : PrioQueue α) (hv : Valid pq) (e : α) : Valid (appendQ pq e) := by
  obtain ⟨h1, h2⟩ := growQ_valid pq hv
  refine ⟨?_, ?_, ?_⟩
  · have := hv.1; simp; omega
  · simpa [appendQ] using h1
  · simp only [appendQ]; omega

theorem slot_appendQ (pq : PrioQueue α) (hv : Valid pq) (e : α) (k : Nat) :
    slot (appendQ pq e) k = if k = (pq.n + 1).toNat then e else slot pq k := by
  obtain ⟨h1, h2⟩ := growQ_valid pq hv
  have h0 := hv.1
  rw [← slot_growQ pq hv k]
  simp only [slot, appendQ, List.getD_eq_getElem?_getD, List.getElem?_set]
  by_cases hk : k = (pq.n + 1).toNat
  · subst hk
    have : (pq.n + 1).toNat < (growQ pq).heap.length := by omega
    simp [this]
  · have : ¬ ((pq.n + 1).toNat = k) := fun h => hk h.symm
    simp [hk, this]

theorem live_appendQ (pq : PrioQueue α) (hv : Valid pq) (e : α) :
    live (appendQ pq e) = live pq ++ [e] := by
  have hv2 := appendQ_valid pq hv e
  obtain ⟨h0, hl, hc⟩ := hv
  have hn : pq.n < pq.heap.length := by omega
  have hn2 : (appendQ pq e).n < (appendQ pq e).heap.length := by
    obtain ⟨_, b, c⟩ := hv2; omega
  have e1 : (appendQ pq e).n.toNat = pq.n.toNat + 1 := by simp; omega
  apply ext_getD
  · rw [length_live _ hn2, List.length_append, length_live _ hn, e1]; rfl
  · intro k hk
    rw [length_live _ hn2, e1] at hk
    rw [getD_live _ _ (by omega), slot_appendQ pq ⟨h0, hl, hc⟩]
    by_cases h : k < pq.n.toNat
    · rw [List.getD_append _ _ _ _ (by rw [length_live _ hn]; exact h), getD_live _ _ h,
        if_neg (by omega)]
    · rw [List.getD_append_right _ _ _ _ (by rw [length_live _ hn]; omega), length_live _ hn,
        if_pos (by omega)]
      have : k - pq.n.toNat = 0 := by omega
      rw [this]; rfl

theorem grow_eq (pq : PrioQueue α) (hv : Valid pq) :
    (if pq.n + 2 = pq.cap then realloc_heap pq (pq.cap * 2) else pure pq)
      = Except.ok (growQ pq) := by
  obtain ⟨h0, hl, hc⟩ := hv
  unfold growQ
  split
  · exact realloc_heap_ok pq _ (by omega)
  · rfl

theorem insert_eq (pq : PrioQueue α) (hv : Valid pq) (e : α) :
    prioqueue_insert pq e
      = siftup (pq.n + 1).toNat (appendQ pq e) (((pq.n + 1).toNat : Nat) : Int) := by
  obtain ⟨h1, h2⟩ := growQ_valid pq hv
  have h0 := hv.1
  have hcast : (((pq.n + 1).toNat : Nat) : Int) = pq.n + 1 := by omega
  have hset : heapSet { growQ pq with n := (growQ pq).n + 1 } ((growQ pq).n + 1) e
      = .ok (appendQ pq e) := by
    rw [growQ_n, ← hcast, heapSet_ok _ _ _ (by simp; omega)]
    simp [appendQ, hcast]
  unfold prioqueue_insert
  rw [grow_eq pq hv, ok_bind]
  simp only []
  rw [hset, ok_bind, hcast]
  rfl

theorem heapGet_ok_int (pq : PrioQueue α) (i : Int) (h0 : 0 ≤ i) (h : i.toNat < pq.heap.length) :
    heapGet pq i = .ok (slot pq i.toNat) := by
  obtain ⟨k, rfl⟩ := Int.eq_ofNat_of_zero_le h0
  exact heapGet_ok pq k (by simpa using h)

theorem heapSet_ok_int (pq : PrioQueue α) (i : Int) (v : α) (h0 : 0 ≤ i)
    (h : i.toNat < pq.heap.length) :
    heapSet pq i v = .ok { pq with heap := pq.heap.set i.toNat v } := by
  obtain ⟨k, rfl⟩ := Int.eq_ofNat_of_zero_le h0
  exact heapSet_ok pq k v (by simpa using h)

theorem swap_ok_int (pq : PrioQueue α) (i j : Int) (hi0 : 0 ≤ i) (hj0 : 0 ≤ j)
    (hi : i.toNat < pq.heap.length) (hj : j.toNat < pq.heap.length) :
    swap pq i j = .ok (swapQ pq i.toNat j.toNat) := by
  obtain ⟨a, rfl⟩ := Int.eq_ofNat_of_zero_le hi0
  obtain ⟨b, rfl⟩ := Int.eq_ofNat_of_zero_le hj0
  exact swap_ok pq a b (by simpa using hi) (by simpa using hj)

@[simp] theorem removeQ_n (pq : PrioQueue α) : (removeQ pq).n = pq.n - 1 := rfl
@[simp] theorem removeQ_cap (pq : PrioQueue α) : (removeQ pq).cap = pq.cap := rfl
@[simp] theorem removeQ_cmp (pq : PrioQueue α) : (removeQ pq).cmp = pq.cmp := rfl
@[simp] theorem removeQ_icmp (pq : PrioQueue α) : (removeQ pq).__cmp = pq.__cmp := rfl
@[simp] theorem removeQ_length (pq : PrioQueue α) :
    (removeQ pq).heap.length = pq.heap.length := by simp [removeQ]

theorem slot_removeQ (pq : PrioQueue α) (h0 : 0 < pq.n) (hn : pq.n < pq.heap.length) (k : Nat) :
    slot (removeQ pq) k =
      if k = pq.n.toNat then NULL else if k = 1 then slot pq pq.n.toNat else slot pq k := by
  have h1 : 1 < pq.heap.length := by omega
  have h2 : pq.n.toNat < pq.heap.length := by omega
  simp only [slot, removeQ, List.getD_eq_getElem?_getD, List.getElem?_set, length_swapL]
  by_cases hk : k = pq.n.toNat
  · subst hk; simp [h2]
  · have hk' : ¬ (pq.n.toNat = k) := fun h => hk h.symm
    rw [if_neg hk', if_neg hk, ← List.getD_eq_getElem?_getD, getD_swapL _ _ _ _ h1 h2, if_neg hk]
    simp only [List.getD_eq_getElem?_getD]

@[simp] theorem shrinkQ_n (pq : PrioQueue α) : (shrinkQ pq).n = pq.n := by
  unfold shrinkQ; split <;> rfl
@[simp] theorem shrinkQ_cmp (pq : PrioQueue α) : (shrinkQ pq).cmp = pq.cmp := by
  unfold shrinkQ; split <;> rfl
@[simp] theorem shrinkQ_icmp (pq : PrioQueue α) : (shrinkQ pq).__cmp = pq.__cmp := by
  unfold shrinkQ; split <;> rfl
theorem shrinkQ_cap (pq : PrioQueue α) :
    (shrinkQ pq).cap = if pq.n + 1 < Int.tdiv pq.cap 2 then Int.tdiv pq.cap 2 else pq.cap := by
  unfold shrinkQ; split <;> rfl

theorem shrink_eq (pq : PrioQueue α) (h0 : 0 ≤ pq.n) :
    (if pq.n + 1 < Int.tdiv pq.cap 2 then realloc_heap pq (Int.tdiv pq.cap 2) else pure pq)
      = Except.ok (shrinkQ pq) := by
  unfold shrinkQ
  split
  · exact realloc_heap_ok pq _ (by omega)
  · rfl

theorem slot_shrinkQ (pq : PrioQueue α) (h0 : 0 ≤ pq.n) (k : Nat) (hk : (k : Int) ≤ pq.n + 1) :
    slot (shrinkQ pq) k = slot pq k := by
  unfold shrinkQ
  split
  · exact getD_resizeL _ _ _ (by omega)
  · rfl

theorem shrinkQ_valid (pq : PrioQueue α) (hv : Valid pq) : Valid (shrinkQ pq) := by
  obtain ⟨h0, hl, hc⟩ := hv
  unfold shrinkQ
  split
  · refine ⟨h0, ?_, ?_⟩
    · simp only [length_resizeL]; omega
    · simp only; omega
  · exact ⟨h0, hl, hc⟩

theorem live_shrinkQ (pq : PrioQueue α) (hv : Valid pq) : live (shrinkQ pq) = live pq := by
  have hv2 := shrinkQ_valid pq hv
  obtain ⟨h0, hl, hc⟩ := hv
  obtain ⟨_, hl2, hc2⟩ := hv2
  have hn : pq.n < pq.heap.length := by omega
  have hn2 : (shrinkQ pq).n < (shrinkQ pq).heap.length := by omega
  apply ext_getD
  · rw [length_live _ hn2, length_live _ hn, shrinkQ_n]
  · intro k hk
    rw [length_live _ hn2, shrinkQ_n] at hk
    rw [getD_live _ _ (by simpa using hk), getD_live _ _ hk, slot_shrinkQ pq h0 _ (by omega)]

theorem removeQ_valid (pq : PrioQueue α) (hv : Valid pq) (h0 : 0 < pq.n) : Valid (removeQ pq) := by
  obtain ⟨_, hl, hc⟩ := hv
  refine ⟨?_, ?_, ?_⟩
  · simp; omega
  · simpa using hl
  · simp; omega

theorem live_removeQ (pq : PrioQueue α) (h0 : 0 < pq.n) (hn : pq.n < pq.heap.length) :
    (slot pq 1 :: live (removeQ pq)).Perm (live pq) := by
  have hs := frame_swapQ pq 1 pq.n.toNat (le_refl _) (by omega) (by omega) (by omega) hn
  have hp : (live (swapQ pq 1 pq.n.toNat)).Perm (live pq) := hs.2.2.2.2.2
  have e : live (swapQ pq 1 pq.n.toNat) = live (removeQ pq) ++ [slot pq 1] := by
    have hn1 : (swapQ pq 1 pq.n.toNat).n < (swapQ pq 1 pq.n.toNat).heap.length := by simpa using hn
    have hn2 : (removeQ pq).n < (removeQ pq).heap.length := by simp; omega
    have e2 : (removeQ pq).n.toNat = pq.n.toNat - 1 := by simp only [removeQ_n]; omega
    apply ext_getD
    · rw [length_live _ hn1, List.length_append, length_live _ hn2, e2]
      simp only [swapQ_n, List.length_singleton]; omega
    · intro k hk
      rw [length_live _ hn1] at hk
      simp only [swapQ_n] at hk
      rw [getD_live _ _ (by simpa using hk), slot_swapQ pq _ _ _ (by omega) (by omega)]
      by_cases h : k < pq.n.toNat - 1
      · have c1 : ¬ (k + 1 = pq.n.toNat) := by omega
        rw [List.getD_append _ _ _ _ (by rw [length_live _ hn2, e2]; exact h),
          getD_live _ _ (by rw [e2]; exact h), slot_removeQ pq h0 hn]
        simp only [if_neg c1]
      · have c1 : k + 1 = pq.n.toNat := by omega
        rw [List.getD_append_right _ _ _ _ (by rw [length_live _ hn2, e2]; omega),
          length_live _ hn2, e2, if_pos c1]
        have : k - (pq.n.toNat - 1) = 0 := by omega
        rw [this]; rfl
  rw [e] at hp
  exact (List.perm_append_singleton _ _).symm.trans hp

theorem delete_ok (pq : PrioQueue α) (h0 : 0 < pq.n) (hn : pq.n < pq.heap.length) :
    ∃ pq4, siftdown (pq.n - 1).toNat (removeQ pq) 1 = .ok pq4 ∧ Frame (removeQ pq) pq4 ∧
      prioqueue_delete pq = .ok (slot pq 1, shrinkQ pq4) := by
  have hn2 : (removeQ pq).n < (removeQ pq).heap.length := by simp; omega
  obtain ⟨pq4, h4, hf⟩ := siftdown_frame (pq.n - 1).toNat (removeQ pq) 1 (by simp) (le_refl _) hn2
  have h4' : siftdown (pq.n - 1).toNat (removeQ pq) 1 = .ok pq4 := by simpa using h4
  refine ⟨pq4, h4', hf, ?_⟩
  have hget : heapGet pq 1 = .ok (slot pq 1) :=
    heapGet_ok_int pq 1 (by omega) (by simp; omega)
  have hswap : swap pq 1 pq.n = .ok (swapQ pq 1 pq.n.toNat) :=
    swap_ok_int pq 1 pq.n (by omega) (by omega) (by simp; omega) (by omega)
  have hset : heapSet { swapQ pq 1 pq.n.toNat with n := (swapQ pq 1 pq.n.toNat).n - 1 }
      ((swapQ pq 1 pq.n.toNat).n - 1 + 1) NULL = .ok (removeQ pq) := by
    rw [heapSet_ok_int _ _ _ (by simp; omega) (by simp; omega)]
    simp [removeQ, swapQ]
  have hshrink := shrink_eq pq4 (by rw [hf.1]; simp; omega)
  unfold prioqueue_delete
  rw [if_pos h0, hget, ok_bind, hswap, ok_bind]
  simp only []
  rw [hset, ok_bind]
  simp only [removeQ_n]
  rw [h4', ok_bind, hshrink, ok_bind]

end Ops

/-! ## What one call of `prioqueue_insert` or `prioqueue_delete` does -/

section Public

variable {α : Type} [Inhabited α]

theorem ranked_congr (pq pq1 : PrioQueue α) (h1 : pq1.cmp = pq.cmp) (h2 : pq1.__cmp = pq.__cmp)
    (x y : α) : ranked pq1 x y = ranked pq x y := by
  unfold ranked; rw [h1, h2]

theorem heapOK_congr (pq pq1 : PrioQueue α) (hn : pq1.n = pq.n) (h1 : pq1.cmp = pq.cmp)
    (h2 : pq1.__cmp = pq.__cmp)
    (hs : ∀ k : Nat, 1 ≤ k → (k : Int) ≤ pq.n → slot pq1 k = slot pq k) (h : HeapOK pq) :
    HeapOK pq1 := by
  intro k hk2 hkn
  rw [hn] at hkn
  rw [ranked_congr pq pq1 h1 h2, hs k (by omega) hkn, hs (k / 2) (by omega) (by omega)]
  exact h k hk2 hkn

theorem heap_inv_of_heapOK (pq : PrioQueue α) (hn : pq.n < pq.heap.length) (h : HeapOK pq) :
    heap_inv pq := by
  intro i hi2 hin
  obtain ⟨k, rfl⟩ := Int.eq_ofNat_of_zero_le (by omega : (0 : Int) ≤ i)
  refine ⟨slot pq (k / 2), slot pq k, ?_, ?_, h k (by omega) hin⟩
  · rw [tdiv_two_cast]; exact heapGet_ok pq _ (by omega)
  · exact heapGet_ok pq _ (by omega)

theorem heapGet_eq_slot (pq : PrioQueue α) (k : Nat) (x : α) (h : heapGet pq (k : Int) = .ok x) :
    x = slot pq k := by
  by_cases hk : k < pq.heap.length
  · rw [heapGet_ok pq k hk] at h; cases h; rfl
  · rw [heapGet_oob pq k (by omega)] at h; cases h

theorem heapOK_of_heap_inv (pq : PrioQueue α) (h : heap_inv pq) : HeapOK pq := by
  intro k hk2 hkn
  obtain ⟨x, y, hx, hy, hr⟩ := h (k : Int) (by omega) hkn
  rw [tdiv_two_cast] at hx
  rw [← heapGet_eq_slot pq _ x hx, ← heapGet_eq_slot pq _ y hy]
  exact hr

theorem valid_of_frame (pq pq1 : PrioQueue α) (hv : Valid pq) (hf : Frame pq pq1) : Valid pq1 := by
  obtain ⟨h0, hl, hc⟩ := hv
  obtain ⟨a1, a2, _, _, a5, _⟩ := hf
  exact ⟨by rw [a1]; exact h0, by rw [a5, a2]; exact hl, by rw [a1, a2]; exact hc⟩

theorem upinv_appendQ (pq : PrioQueue α) (hv : Valid pq) (e : α) (h : HeapOK pq) :
    UpInv (appendQ pq e) (pq.n + 1).toNat := by
  have h0 := hv.1
  constructor
  · intro k hk2 hkn hne
    simp only [appendQ_n] at hkn
    rw [ranked_congr pq _ (appendQ_cmp pq e) (appendQ_icmp pq e), slot_appendQ pq hv,
      slot_appendQ pq hv, if_neg hne, if_neg (by omega)]
    exact h k hk2 (by omega)
  · intro k hk2 hkn hk _
    simp only [appendQ_n] at hkn
    omega

theorem insert_post (pq : PrioQueue α) (hv : Valid pq) (e : α) :
    ∃ pq1, prioqueue_insert pq e = .ok pq1 ∧ Valid pq1 ∧ pq1.n = pq.n + 1 ∧
      pq1.cap = (if pq.n + 2 = pq.cap then pq.cap * 2 else pq.cap) ∧
      pq1.cmp = pq.cmp ∧ pq1.__cmp = pq.__cmp ∧ (live pq1).Perm (live pq ++ [e]) ∧
      (TotalPreorder pq.cmp → HeapOK pq → HeapOK pq1) := by
  have hv2 := appendQ_valid pq hv e
  have h0 := hv.1
  have hn2 : (appendQ pq e).n < (appendQ pq e).heap.length := by
    obtain ⟨_, b, c⟩ := hv2; omega
  have hcast : (((pq.n + 1).toNat : Nat) : Int) = (appendQ pq e).n := by simp; omega
  obtain ⟨pq1, h1, hf⟩ := siftup_frame (pq.n + 1).toNat (appendQ pq e) (pq.n + 1).toNat
    (by omega) (by omega) (by rw [hcast]) hn2
  refine ⟨pq1, by rw [insert_eq pq hv e]; exact h1, valid_of_frame _ _ hv2 hf, ?_, ?_, ?_, ?_, ?_, ?_⟩
  · rw [hf.1]; rfl
  · rw [hf.2.1, appendQ_cap]
  · rw [hf.2.2.1, appendQ_cmp]
  · rw [hf.2.2.2.1, appendQ_icmp]
  · rw [← live_appendQ pq hv e]; exact hf.2.2.2.2.2
  · intro hc hok
    exact siftup_heapOK _ (appendQ pq e) _ pq1 (by rw [appendQ_cmp]; exact hc) (by rw [hcast])
      hn2 (upinv_appendQ pq hv e hok) h1

theorem downinv_removeQ (pq : PrioQueue α) (h0 : 0 < pq.n) (hn : pq.n < pq.heap.length)
    (h : HeapOK pq) : DownInv (removeQ pq) 1 := by
  constructor
  · intro k hk2 hkn hne
    simp only [removeQ_n] at hkn
    rw [ranked_congr pq _ (removeQ_cmp pq) (removeQ_icmp pq), slot_removeQ pq h0 hn,
      slot_removeQ pq h0 hn, if_neg (by omega), if_neg (by omega), if_neg (by omega),
      if_neg (by omega)]
    exact h k hk2 (by omega)
  · intro k _ _ _ h2
    omega

theorem delete_post (pq : PrioQueue α) (hv : Valid pq) (h0 : 0 < pq.n) :
    ∃ pq1, prioqueue_delete pq = .ok (slot pq 1, pq1) ∧ Valid pq1 ∧ pq1.n = pq.n - 1 ∧
      pq1.cap = (if pq.n < Int.tdiv pq.cap 2 then Int.tdiv pq.cap 2 else pq.cap) ∧
      pq1.cmp = pq.cmp ∧ pq1.__cmp = pq.__cmp ∧ (slot pq 1 :: live pq1).Perm (live pq) ∧
      (TotalPreorder pq.cmp → HeapOK pq → HeapOK pq1) := by
  have hn : pq.n < pq.heap.length := by obtain ⟨_, b, c⟩ := hv; omega
  obtain ⟨pq4, h4, hf, hd⟩ := delete_ok pq h0 hn
  have hv4 : Valid pq4 := valid_of_frame _ _ (removeQ_valid pq hv h0) hf
  have hn4 : pq4.n = pq.n - 1 := by rw [hf.1]; rfl
  refine ⟨shrinkQ pq4, hd, shrinkQ_valid pq4 hv4, ?_, ?_, ?_, ?_, ?_, ?_⟩
  · rw [shrinkQ_n, hn4]
  · rw [shrinkQ_cap, hn4, hf.2.1, removeQ_cap]
    simp only [Int.sub_add_cancel]
  · rw [shrinkQ_cmp, hf.2.2.1, removeQ_cmp]
  · rw [shrinkQ_icmp, hf.2.2.2.1, removeQ_icmp]
  · rw [live_shrinkQ pq4 hv4]
    exact (List.Perm.cons _ hf.2.2.2.2.2).trans (live_removeQ pq h0 hn)
  · intro hc hok
    have h5 : HeapOK pq4 := siftdown_heapOK _ (removeQ pq) 1 pq4 (by rw [removeQ_cmp]; exact hc)
      (le_refl _) (by simp; omega) (downinv_removeQ pq h0 hn hok) (by simpa using h4)
    exact heapOK_congr pq4 _ (shrinkQ_n pq4) (shrinkQ_cmp pq4) (shrinkQ_icmp pq4)
      (fun k _ hk => slot_shrinkQ pq4 hv4.1 k (by omega)) h5

theorem root_best (pq : PrioQueue α) (hc : TotalPreorder pq.cmp) (h : HeapOK pq) :
    ∀ k : Nat, 1 ≤ k → (k : Int) ≤ pq.n → ranked pq (slot pq 1) (slot pq k) := by
  intro k
  induction k using Nat.strong_induction_on with
  | _ k ih =>
    intro hk1 hkn
    by_cases hk : k = 1
    · subst hk; exact ranked_refl pq hc _
    · have h1 := ih (k / 2) (by omega) (by omega) (by omega)
      exact ranked_trans pq hc h1 (h k (by omega) hkn)

theorem mem_live (pq : PrioQueue α) (hn : pq.n < pq.heap.length) (x : α) (hx : x ∈ live pq) :
    ∃ k : Nat, 1 ≤ k ∧ (k : Int) ≤ pq.n ∧ slot pq k = x := by
  obtain ⟨i, hi, rfl⟩ := List.getElem_of_mem hx
  have hl := length_live pq hn
  refine ⟨i + 1, by omega, by omega, ?_⟩
  rw [← getD_live pq i (by omega), List.getD_eq_getElem _ _ hi]

end Public

/-! ## Creation, and sequences of calls -/

section Runs

variable {α : Type} [Inhabited α]

theorem new_eq (C : Int) (cmp : α → α → Int) (order : prioqueue_order) :
    prioqueue_new C (some cmp) order
      = if 1 ≤ C then .ok (newQ C cmp order) else .error .outOfBounds := by
  unfold prioqueue_new heapSet
  by_cases h : 1 ≤ C
  · have h2 : 0 < C.toNat := by omega
    simp only [h, if_true, List.length_replicate, Int.toNat_zero, h2, le_refl, and_self]
    congr 1
    unfold newQ
    congr 1
    cases hk : C.toNat with
    | zero => omega
    | succ k => rfl
  · have h2 : ¬ (0 < C.toNat) := by omega
    simp [h, h2]

theorem newQ_valid (C : Int) (cmp : α → α → Int) (order : prioqueue_order) (h : 2 ≤ C) :
    Valid (newQ C cmp order) := by
  refine ⟨le_refl _, ?_, ?_⟩
  · simp only [newQ, List.length_replicate]; omega
  · simp only [newQ]; omega

theorem newQ_stuck (C : Int) (cmp : α → α → Int) (order : prioqueue_order) (h : C = 1) :
    Stuck (newQ C cmp order) := by
  subst h
  exact ⟨rfl, by simp [newQ], rfl⟩

theorem newQ_heapOK (C : Int) (cmp : α → α → Int) (order : prioqueue_order) :
    HeapOK (newQ C cmp order) := by
  intro k hk2 hkn
  simp only [newQ] at hkn
  omega

theorem live_newQ (C : Int) (cmp : α → α → Int) (order : prioqueue_order) :
    live (newQ C cmp order) = [] := by
  simp [live, newQ]

theorem stuck_insert (pq : PrioQueue α) (hs : Stuck pq) (e : α) :
    prioqueue_insert pq e = .error .outOfBounds := by
  obtain ⟨h1, h2, h3⟩ := hs
  unfold prioqueue_insert
  have : ¬ (pq.n + 2 = pq.cap) := by omega
  rw [if_neg this]
  show (Except.ok pq >>= _) = _
  rw [ok_bind]
  simp only []
  unfold heapSet
  simp only [h1, h2]
  rfl

theorem stuck_delete (pq : PrioQueue α) (hs : pq.n = 0) :
    prioqueue_delete pq = .error .assertFailed := by
  unfold prioqueue_delete
  rw [if_neg (by omega)]

theorem stuck_peek (pq : PrioQueue α) (hs : pq.n = 0) :
    prioqueue_peek pq = .error .assertFailed := by
  unfold prioqueue_peek
  rw [if_neg (by omega)]

theorem peek_ok (pq : PrioQueue α) (h0 : 0 < pq.n) (h1 : 1 < pq.heap.length) :
    prioqueue_peek pq = .ok (slot pq 1, pq) := by
  unfold prioqueue_peek
  rw [if_pos h0, heapGet_ok_int pq 1 (by omega) (by simpa using h1), ok_bind]
  rfl

theorem peek_inv (pq pq1 : PrioQueue α) (e : α) (h : prioqueue_peek pq = .ok (e, pq1)) :
    pq1 = pq := by
  unfold prioqueue_peek at h
  by_cases h0 : pq.n > 0
  · rw [if_pos h0] at h
    cases hg : heapGet pq 1 with
    | error f => rw [hg, error_bind] at h; cases h
    | ok x => rw [hg, ok_bind] at h; cases h; rfl
  · rw [if_neg h0] at h; cases h

theorem step_cases (pq : PrioQueue α) (op : Op α) (r : Option α × PrioQueue α)
    (h : step pq op = .ok r) :
    (∃ e, op = .insert e ∧ prioqueue_insert pq e = .ok r.2) ∨
    (∃ e, op = .delete ∧ prioqueue_delete pq = .ok (e, r.2)) ∨
    (op = .peek ∧ r.2 = pq) := by
  cases op with
  | insert e =>
    left
    refine ⟨e, rfl, ?_⟩
    simp only [step] at h
    cases hi : prioqueue_insert pq e with
    | error f => rw [hi, error_bind] at h; cases h
    | ok x => rw [hi, ok_bind] at h; cases h; rfl
  | delete =>
    right; left
    simp only [step] at h
    cases hi : prioqueue_delete pq with
    | error f => rw [hi, error_bind] at h; cases h
    | ok x => rw [hi, ok_bind] at h; cases h; exact ⟨x.1, rfl, rfl⟩
  | peek =>
    right; right
    simp only [step] at h
    cases hi : prioqueue_peek pq with
    | error f => rw [hi, error_bind] at h; cases h
    | ok x =>
      rw [hi, ok_bind] at h; cases h
      exact ⟨rfl, peek_inv pq x.2 x.1 hi⟩

theorem run_cons (pq : PrioQueue α) (op : Op α) (ops : List (Op α))
    (r : List (Option α) × PrioQueue α) (h : run pq (op :: ops) = .ok r) :
    ∃ r1 r2, step pq op = .ok r1 ∧ run r1.2 ops = .ok r2 ∧ r.2 = r2.2 := by
  unfold run at h
  cases h1 : step pq op with
  | error f => rw [h1, error_bind] at h; cases h
  | ok r1 =>
    rw [h1, ok_bind] at h
    cases h2 : run r1.2 ops with
    | error f => rw [h2, error_bind] at h; cases h
    | ok r2 =>
      rw [h2, ok_bind] at h; cases h
      exact ⟨r1, r2, rfl, h2, rfl⟩

theorem step_insert_ok (pq pq1 : PrioQueue α) (e : α) (h : prioqueue_insert pq e = .ok pq1) :
    step pq (.insert e) = .ok (none, pq1) := by
  simp only [step]; rw [h, ok_bind]

theorem step_delete_ok (pq pq1 : PrioQueue α) (e : α) (h : prioqueue_delete pq = .ok (e, pq1)) :
    step pq .delete = .ok (some e, pq1) := by
  simp only [step]; rw [h, ok_bind]

theorem run_cons_ok (pq : PrioQueue α) (op : Op α) (ops : List (Op α))
    (r1 : Option α × PrioQueue α) (rs : List (Option α) × PrioQueue α)
    (h1 : step pq op = .ok r1) (h2 : run r1.2 ops = .ok rs) :
    run pq (op :: ops) = .ok (r1.1 :: rs.1, rs.2) := by
  unfold run; rw [h1, ok_bind, h2, ok_bind]

theorem run_invariant (P : PrioQueue α → List (Op α) → Prop)
    (hins : ∀ pq e pq1 done, P pq done → prioqueue_insert pq e = .ok pq1 →
      P pq1 (done ++ [.insert e]))
    (hdel : ∀ pq e pq1 done, P pq done → prioqueue_delete pq = .ok (e, pq1) →
      P pq1 (done ++ [.delete]))
    (hpeek : ∀ pq done, P pq done → P pq (done ++ [.peek])) :
    ∀ (ops : List (Op α)) (pq : PrioQueue α) (done : List (Op α))
      (r : List (Option α) × PrioQueue α),
      P pq done → run pq ops = .ok r → P r.2 (done ++ ops) := by
  intro ops
  induction ops with
  | nil =>
    intro pq done r hp h
    unfold run at h; cases h
    simpa using hp
  | cons op ops ih =>
    intro pq done r hp h
    obtain ⟨r1, r2, h1, h2, h3⟩ := run_cons pq op ops r h
    rw [h3]
    have hstep : P r1.2 (done ++ [op]) := by
      rcases step_cases pq op r1 h1 with ⟨e, rfl, hi⟩ | ⟨e, rfl, hd⟩ | ⟨rfl, hq⟩
      · exact hins pq e _ done hp hi
      · exact hdel pq e _ done hp hd
      · rw [hq]; exact hpeek pq done hp
    have := ih r1.2 (done ++ [op]) r2 hstep h2
    simpa using this

end Runs

/-! ## Filling an engine and draining it -/

section Drain

variable {α : Type} [Inhabited α]

theorem insert_all_post : ∀ (xs : List α) (pq : PrioQueue α), Valid pq →
    ∃ pq1, insert_all pq xs = .ok pq1 ∧ Valid pq1 ∧ pq1.n = pq.n + xs.length ∧
      pq1.cmp = pq.cmp ∧ pq1.__cmp = pq.__cmp ∧ (live pq1).Perm (live pq ++ xs) ∧
      (TotalPreorder pq.cmp → HeapOK pq → HeapOK pq1) := by
  intro xs
  induction xs with
  | nil =>
    intro pq hv
    exact ⟨pq, rfl, hv, by simp, rfl, rfl, by simp, fun _ h => h⟩
  | cons e es ih =>
    intro pq hv
    obtain ⟨pq1, h1, hv1, hn1, _, hc1, hi1, hp1, hk1⟩ := insert_post pq hv e
    obtain ⟨pq2, h2, hv2, hn2, hc2, hi2, hp2, hk2⟩ := ih pq1 hv1
    refine ⟨pq2, ?_, hv2, ?_, hc2.trans hc1, hi2.trans hi1, ?_, ?_⟩
    · unfold insert_all; rw [h1, ok_bind]; exact h2
    · rw [hn2, hn1, List.length_cons]; push_cast; ring
    · refine hp2.trans ?_
      have := List.Perm.append_right es hp1
      simpa using this
    · intro hc hok
      exact hk2 (by rw [hc1]; exact hc) (hk1 hc hok)

theorem is_empty_ne_zero (pq : PrioQueue α) : prioqueue_is_empty pq ≠ 0 ↔ pq.n = 0 := by
  unfold prioqueue_is_empty
  split <;> simp [*]

theorem live_nil_of_zero (pq : PrioQueue α) (h : pq.n = 0) : live pq = [] := by
  simp [live, h]

theorem ranked_of_root (pq : PrioQueue α) (hc : TotalPreorder pq.cmp) (hv : Valid pq)
    (h : HeapOK pq) (x : α) (hx : x ∈ live pq) : ranked pq (slot pq 1) x := by
  obtain ⟨k, hk1, hkn, rfl⟩ := mem_live pq (by obtain ⟨_, b, c⟩ := hv; omega) x hx
  exact root_best pq hc h k hk1 hkn

theorem extract_all_post (fuel : Nat) : ∀ (pq : PrioQueue α), Valid pq → pq.n.toNat ≤ fuel →
    ∃ out pq1, extract_all fuel pq = .ok (out, pq1) ∧ out.Perm (live pq) ∧ pq1.n = 0 ∧
      Valid pq1 ∧ (TotalPreorder pq.cmp → HeapOK pq → out.Pairwise (ranked pq)) := by
  induction fuel with
  | zero =>
    intro pq hv hf
    have h0 : pq.n = 0 := by have := hv.1; omega
    refine ⟨[], pq, ?_, ?_, h0, hv, fun _ _ => List.Pairwise.nil⟩
    · unfold extract_all; rw [if_pos ((is_empty_ne_zero pq).2 h0)]
    · rw [live_nil_of_zero pq h0]
  | succ fuel ih =>
    intro pq hv hf
    by_cases h0 : pq.n = 0
    · refine ⟨[], pq, ?_, ?_, h0, hv, fun _ _ => List.Pairwise.nil⟩
      · unfold extract_all; rw [if_pos ((is_empty_ne_zero pq).2 h0)]
      · rw [live_nil_of_zero pq h0]
    · have hpos : 0 < pq.n := by have := hv.1; omega
      obtain ⟨pq1, h1, hv1, hn1, _, hc1, hi1, hp1, hk1⟩ := delete_post pq hv hpos
      obtain ⟨out, pq2, h2, hp2, hn2, hv2, hs2⟩ := ih pq1 hv1 (by omega)
      refine ⟨slot pq 1 :: out, pq2, ?_, ?_, hn2, hv2, ?_⟩
      · unfold extract_all
        rw [if_neg (fun h => h0 ((is_empty_ne_zero pq).1 h)), h1, ok_bind]
        simp only []
        rw [h2, ok_bind]
      · exact (List.Perm.cons _ hp2).trans hp1
      · intro hc hok
        have hs := hs2 (by rw [hc1]; exact hc) (hk1 hc hok)
        have hr : ranked pq1 = ranked pq := by
          funext x y; exact ranked_congr pq pq1 hc1 hi1 x y
        rw [hr] at hs
        refine List.Pairwise.cons ?_ hs
        intro x hx
        apply ranked_of_root pq hc hv hok
        exact hp1.subset (List.mem_cons_of_mem _ (hp2.subset hx))

theorem fill_then_drain_post (C : Int) (hC : 2 ≤ C) (cmp : α → α → Int)
    (order : prioqueue_order) (xs : List α) :
    ∃ out, fill_then_drain C cmp order xs = .ok out ∧ out.Perm xs ∧
      (TotalPreorder cmp → out.Pairwise (ranked (newQ C cmp order))) := by
  have hv0 := newQ_valid C cmp order hC
  obtain ⟨pq1, h1, hv1, _, hc1, hi1, hp1, hk1⟩ := insert_all_post xs (newQ C cmp order) hv0
  obtain ⟨out, pq2, h2, hp2, _, _, hs2⟩ := extract_all_post pq1.n.toNat pq1 hv1 (le_refl _)
  refine ⟨out, ?_, ?_, ?_⟩
  · unfold fill_then_drain
    rw [new_eq, if_pos (by omega), ok_bind, h1, ok_bind, h2, ok_bind]
  · refine hp2.trans ?_
    rw [live_newQ] at hp1
    simpa using hp1
  · intro hc
    have hr : ranked pq1 = ranked (newQ C cmp order) := by
      funext x y; exact ranked_congr _ pq1 hc1 hi1 x y
    rw [← hr]
    exact hs2 (by rw [hc1]; exact hc) (hk1 hc (newQ_heapOK C cmp order))

theorem ranked_newQ_min (C : Int) (cmp : α → α → Int) (order : prioqueue_order)
    (h : order ≠ PQMax) (x y : α) : ranked (newQ C cmp order) x y ↔ cmp x y ≤ 0 := by
  simp [ranked, newQ, h]

theorem ranked_newQ_max (C : Int) (cmp : α → α → Int) (x y : α) :
    ranked (newQ C cmp PQMax) x y ↔ 0 ≤ cmp x y := by
  simp [ranked, newQ]

/-- A list sorted without ties has no other sorted arrangement. -/
theorem sorted_perm_unique (cmp : α → α → Int) (hc : TotalPreorder cmp) :
    ∀ (l2 l1 : List α), l1.Perm l2 → l1.Pairwise (fun x y => cmp x y ≤ 0) →
      l2.Pairwise (fun x y => cmp x y < 0) → l1 = l2 := by
  intro l2
  induction l2 with
  | nil => intro l1 hp _ _; exact hp.eq_nil
  | cons b t2 ih =>
    intro l1 hp h1 h2
    cases l1 with
    | nil => exact absurd hp.symm.eq_nil (by simp)
    | cons a t1 =>
      have hab : a = b := by
        by_contra hne
        have ha : a ∈ t2 := by
          have := hp.subset (List.mem_cons_self a t1)
          rcases List.mem_cons.1 this with h | h
          · exact absurd h hne
          · exact h
        have hb : b ∈ t1 := by
          have := hp.symm.subset (List.mem_cons_self b t2)
          rcases List.mem_cons.1 this with h | h
          · exact absurd h.symm hne
          · exact h
        have c1 := (List.pairwise_cons.1 h2).1 a ha
        have c2 := (List.pairwise_cons.1 h1).1 b hb
        have := (hc.sign_swap b a).1 c1
        omega
      subst hab
      rw [ih t1 (List.Perm.cons_inv hp) (List.pairwise_cons.1 h1).2 (List.pairwise_cons.1 h2).2]

end Drain

/-! ## States reachable from a fresh engine -/

section Reach

variable {α : Type} [Inhabited α]

theorem inserts_append (l : List (Op α)) (op : Op α) :
    inserts (l ++ [op]) = inserts l + inserts [op] := by
  induction l with
  | nil => simp [inserts]
  | cons a t ih =>
    cases a with
    | insert e =>
      show inserts (t ++ [op]) + 1 = inserts t + 1 + inserts [op]
      rw [ih]; ring
    | delete => exact ih
    | peek => exact ih

theorem deletes_append (l : List (Op α)) (op : Op α) :
    deletes (l ++ [op]) = deletes l + deletes [op] := by
  induction l with
  | nil => simp [deletes]
  | cons a t ih =>
    cases a with
    | insert e => exact ih
    | delete =>
      show deletes (t ++ [op]) + 1 = deletes t + 1 + deletes [op]
      rw [ih]; ring
    | peek => exact ih

theorem run_post (pq : PrioQueue α) (hv : Valid pq ∨ Stuck pq) (ops : List (Op α))
    (r : List (Option α) × PrioQueue α) (h : run pq ops = .ok r) :
    (Valid r.2 ∨ Stuck r.2) ∧ r.2.cmp = pq.cmp ∧ r.2.__cmp = pq.__cmp ∧
      r.2.n = pq.n + inserts ops - deletes ops ∧
      (TotalPreorder pq.cmp → HeapOK pq → HeapOK r.2) := by
  have key := run_invariant
    (fun (q : PrioQueue α) (done : List (Op α)) =>
      (Valid q ∨ Stuck q) ∧ q.cmp = pq.cmp ∧ q.__cmp = pq.__cmp ∧
        q.n = pq.n + inserts done - deletes done ∧
        (TotalPreorder pq.cmp → HeapOK pq → HeapOK q))
    ?_ ?_ ?_ ops pq [] r ⟨hv, rfl, rfl, by simp [inserts, deletes], fun _ h => h⟩ h
  · simpa using key
  · intro q e q1 done ⟨hq, hc, hi, hn, hk⟩ hins
    rcases hq with hq | hq
    · obtain ⟨q2, h2, hv2, hn2, _, hc2, hi2, _, hk2⟩ := insert_post q hq e
      rw [hins] at h2
      cases h2
      refine ⟨Or.inl hv2, hc2.trans hc, hi2.trans hi, ?_, ?_⟩
      · rw [hn2, hn, inserts_append, deletes_append]; simp only [inserts, deletes]; ring
      · intro hc0 hok; exact hk2 (by rw [hc]; exact hc0) (hk hc0 hok)
    · rw [stuck_insert q hq e] at hins; cases hins
  · intro q e q1 done ⟨hq, hc, hi, hn, hk⟩ hdel
    have hpos : 0 < q.n := by
      by_contra hneg
      have h0 : q.n = 0 := by
        rcases hq with hq | hq
        · have := hq.1; omega
        · exact hq.1
      rw [stuck_delete q h0] at hdel; cases hdel
    rcases hq with hq | hq
    · obtain ⟨q2, h2, hv2, hn2, _, hc2, hi2, _, hk2⟩ := delete_post q hq hpos
      rw [hdel] at h2
      cases h2
      refine ⟨Or.inl hv2, hc2.trans hc, hi2.trans hi, ?_, ?_⟩
      · rw [hn2, hn, inserts_append, deletes_append]; simp only [inserts, deletes]; ring
      · intro hc0 hok; exact hk2 (by rw [hc]; exact hc0) (hk hc0 hok)
    · have := hq.1; omega
  · intro q done ⟨hq, hc, hi, hn, hk⟩
    refine ⟨hq, hc, hi, ?_, hk⟩
    rw [hn, inserts_append, deletes_append]; simp only [inserts, deletes]; ring

theorem run_valid (pq : PrioQueue α) (hv : Valid pq) (ops : List (Op α))
    (r : List (Option α) × PrioQueue α) (h : run pq ops = .ok r) : Valid r.2 := by
  refine run_invariant (fun (q : PrioQueue α) (_ : List (Op α)) => Valid q)
    ?_ ?_ ?_ ops pq [] r hv h
  · intro q e q1 _ hq hins
    obtain ⟨q2, h2, hv2, _⟩ := insert_post q hq e
    rw [hins] at h2; cases h2; exact hv2
  · intro q e q1 _ hq hdel
    by_cases hpos : 0 < q.n
    · obtain ⟨q2, h2, hv2, _⟩ := delete_post q hq hpos
      rw [hdel] at h2; cases h2; exact hv2
    · rw [stuck_delete q (by have := hq.1; omega)] at hdel; cases hdel
  · intro q _ hq; exact hq

theorem new_post (C : Int) (cmp : α → α → Int) (order : prioqueue_order) (pq0 : PrioQueue α)
    (h : prioqueue_new C (some cmp) order = .ok pq0) :
    pq0 = newQ C cmp order ∧ 1 ≤ C ∧ (Valid pq0 ∨ Stuck pq0) := by
  rw [new_eq] at h
  by_cases hC : 1 ≤ C
  · rw [if_pos hC] at h
    cases h
    refine ⟨rfl, hC, ?_⟩
    by_cases h2 : 2 ≤ C
    · exact Or.inl (newQ_valid C cmp order h2)
    · exact Or.inr (newQ_stuck C cmp order (by omega))
  · rw [if_neg hC] at h; cases h

theorem heap_inv_of_stuck (pq : PrioQueue α) (h : pq.n = 0) : heap_inv pq := by
  intro i h2 hn
  omega

theorem heap_inv_of_good (pq : PrioQueue α) (hv : Valid pq ∨ Stuck pq) (h : HeapOK pq) :
    heap_inv pq := by
  rcases hv with hv | hv
  · exact heap_inv_of_heapOK pq (by obtain ⟨_, b, c⟩ := hv; omega) h
  · exact heap_inv_of_stuck pq hv.1

end Reach

/-! ## Termination in every state -/

section Total

variable {α : Type} [Inhabited α]

theorem heapGet_fault (pq : PrioQueue α) (i : Int) (f : Fault) (h : heapGet pq i = .error f) :
    f = .outOfBounds := by
  unfold heapGet at h
  split at h
  · split at h
    · cases h
    · cases h; rfl
  · cases h; rfl

theorem heapSet_cases (pq : PrioQueue α) (i : Int) (v : α) :
    heapSet pq i v = .error .outOfBounds ∨
      heapSet pq i v = .ok { pq with heap := pq.heap.set i.toNat v } := by
  unfold heapSet
  split
  · right; rfl
  · left; rfl

theorem swap_cases (pq : PrioQueue α) (i j : Int) :
    swap pq i j = .error .outOfBounds ∨
      ∃ pq1, swap pq i j = .ok pq1 ∧ pq1.n = pq.n ∧ pq1.cap = pq.cap ∧ pq1.cmp = pq.cmp ∧
        pq1.__cmp = pq.__cmp := by
  unfold swap
  cases h1 : heapGet pq i with
  | error f => left; rw [heapGet_fault pq i f h1]; rfl
  | ok a =>
    cases h2 : heapGet pq j with
    | error f => left; rw [heapGet_fault pq j f h2]; rfl
    | ok b =>
      simp only [ok_bind]
      rcases heapSet_cases pq i b with h3 | h3
      · left; rw [h3]; rfl
      · rw [h3, ok_bind]
        rcases heapSet_cases { pq with heap := pq.heap.set i.toNat b } j a with h4 | h4
        · left; exact h4
        · right; exact ⟨_, h4, rfl, rfl, rfl, rfl⟩

theorem siftdown_child_cases (pq : PrioQueue α) (i : Int) :
    siftdown_child pq i = .error .outOfBounds ∨ siftdown_child pq i = .ok (2 * i) ∨
      siftdown_child pq i = .ok (2 * i + 1) := by
  unfold siftdown_child
  split
  · cases h1 : heapGet pq (2 * i) with
    | error f => left; rw [heapGet_fault pq _ f h1]; rfl
    | ok a =>
      cases h2 : heapGet pq (2 * i + 1) with
      | error f => left; rw [heapGet_fault pq _ f h2]; rfl
      | ok b =>
        simp only [ok_bind]
        split
        · right; right; rfl
        · right; left; rfl
  · right; left; rfl

/-- The loop of `siftup` makes at most `i - 1` iterations, in any state and for
any comparator. -/
theorem siftup_terminates (fuel : Nat) : ∀ (pq : PrioQueue α) (i : Int),
    i ≤ (fuel : Int) + 1 → siftup fuel pq i ≠ .error .outOfFuel := by
  induction fuel with
  | zero =>
    intro pq i hi
    rw [siftup_stop _ _ _ (by omega)]
    exact fun h => by cases h
  | succ fuel ih =>
    intro pq i hi
    by_cases h1 : i > 1
    · simp only [siftup, h1, if_true]
      cases hx : heapGet pq (Int.tdiv i 2) with
      | error f => rw [heapGet_fault pq _ f hx]; exact fun h => by cases h
      | ok x =>
        cases hy : heapGet pq i with
        | error f => rw [heapGet_fault pq _ f hy]; exact fun h => by cases h
        | ok y =>
          simp only [ok_bind]
          split
          · exact fun h => by cases h
          · rcases swap_cases pq (Int.tdiv i 2) i with hs | ⟨pq1, hs, _⟩
            · rw [hs]; exact fun h => by cases h
            · rw [hs, ok_bind]
              apply ih
              rw [Int.tdiv_eq_ediv (by omega) (by omega)]
              omega
    · rw [siftup_stop _ _ _ (by omega)]
      exact fun h => by cases h

/-- The loop of `siftdown` started at an index `i ≥ 1` makes at most `n - i`
iterations, in any state and for any comparator. -/
theorem siftdown_terminates (fuel : Nat) : ∀ (pq : PrioQueue α) (i : Int),
    1 ≤ i → pq.n ≤ (fuel : Int) + i → siftdown fuel pq i ≠ .error .outOfFuel := by
  induction fuel with
  | zero =>
    intro pq i hi hf
    rw [siftdown_stop _ _ _ (by omega)]
    exact fun h => by cases h
  | succ fuel ih =>
    intro pq i hi hf
    by_cases h1 : 2 * i ≤ pq.n
    · simp only [siftdown, h1, if_true]
      have key : ∀ j : Int, (j = 2 * i ∨ j = 2 * i + 1) →
          (do
            let x ← heapGet pq i
            let y ← heapGet pq j
            if call__cmp pq x y = true then Except.ok pq
            else do
              let pq1 ← swap pq i j
              siftdown fuel pq1 j) ≠ Except.error Fault.outOfFuel := by
        intro j hj
        cases hx : heapGet pq i with
        | error f => rw [heapGet_fault pq _ f hx]; exact fun h => by cases h
        | ok x =>
          cases hy : heapGet pq j with
          | error f => rw [heapGet_fault pq _ f hy]; exact fun h => by cases h
          | ok y =>
            simp only [ok_bind]
            split
            · exact fun h => by cases h
            · rcases swap_cases pq i j with hs | ⟨pq1, hs, hn, _⟩
              · rw [hs]; exact fun h => by cases h
              · rw [hs, ok_bind]
                apply ih pq1 j (by omega)
                rw [hn]; push_cast at hf; omega
      rcases siftdown_child_cases pq i with hc | hc | hc
      · rw [hc]; exact fun h => by cases h
      · rw [hc, ok_bind]; exact key _ (Or.inl rfl)
      · rw [hc, ok_bind]; exact key _ (Or.inr rfl)
    · rw [siftdown_stop _ _ _ (by omega)]
      exact fun h => by cases h

theorem realloc_heap_cases (pq : PrioQueue α) (c : Int) :
    realloc_heap pq c = .error .assertFailed ∨
      ∃ pq1, realloc_heap pq c = .ok pq1 ∧ pq1.n = pq.n := by
  unfold realloc_heap
  split
  · right; exact ⟨_, rfl, rfl⟩
  · left; rfl

theorem insert_terminates (pq : PrioQueue α) (e : α) :
    prioqueue_insert pq e ≠ .error .outOfFuel := by
  unfold prioqueue_insert
  have key : ∀ pq1 : PrioQueue α,
      (heapSet { pq1 with n := pq1.n + 1 } (pq1.n + 1) e >>= fun pq3 =>
        siftup pq3.n.toNat pq3 pq3.n) ≠ Except.error Fault.outOfFuel := by
    intro pq1
    rcases heapSet_cases { pq1 with n := pq1.n + 1 } (pq1.n + 1) e with h | h
    · rw [h]; exact fun h => by cases h
    · rw [h, ok_bind]
      exact siftup_terminates _ _ _ (by omega)
  split
  · rcases realloc_heap_cases pq (pq.cap * 2) with h | ⟨pq1, h, _⟩
    · rw [h]; exact fun h => by cases h
    · rw [h, ok_bind]; exact key pq1
  · exact key pq

theorem delete_terminates (pq : PrioQueue α) :
    prioqueue_delete pq ≠ .error .outOfFuel := by
  unfold prioqueue_delete
  split
  · cases h1 : heapGet pq 1 with
    | error f => rw [heapGet_fault pq _ f h1]; exact fun h => by cases h
    | ok x =>
      rw [ok_bind]
      rcases swap_cases pq 1 pq.n with h2 | ⟨pq1, h2, _⟩
      · rw [h2]; exact fun h => by cases h
      · rw [h2, ok_bind]
        simp only []
        rcases heapSet_cases { pq1 with n := pq1.n - 1 } (pq1.n - 1 + 1) NULL with h3 | h3
        · rw [h3]; exact fun h => by cases h
        · rw [h3, ok_bind]
          cases h4 : siftdown (pq1.n - 1).toNat
              { pq1 with heap := pq1.heap.set (pq1.n - 1 + 1).toNat NULL, n := pq1.n - 1 } 1 with
          | error f =>
            have := siftdown_terminates (pq1.n - 1).toNat
              { pq1 with heap := pq1.heap.set (pq1.n - 1 + 1).toNat NULL, n := pq1.n - 1 } 1
              (le_refl _) (by simp only; omega)
            rw [h4] at this
            intro h
            rw [error_bind] at h
            cases h
            exact this rfl
          | ok pq4 =>
            rw [ok_bind]
            split
            · rcases realloc_heap_cases pq4 (Int.tdiv pq4.cap 2) with h5 | ⟨pq5, h5, _⟩
              · rw [h5]; exact fun h => by cases h
              · rw [h5, ok_bind]; exact fun h => by cases h
            · exact fun h => by cases h
  · exact fun h => by cases h

theorem siftdown_zero_loops (fuel : Nat) :
    siftdown fuel (newQ 4 prio_cmp PQMin) 0 = .error .outOfFuel := by
  induction fuel with
  | zero => rfl
  | succ fuel ih =>
    have : siftdown (fuel + 1) (newQ 4 prio_cmp PQMin) 0
        = siftdown fuel (newQ 4 prio_cmp PQMin) 0 := rfl
    rw [this, ih]

end Total

/-! ## Replacing the comparator and the bound predicate -/

section Retag

variable {α : Type} [Inhabited α]

theorem call_congr (pq pq1 : PrioQueue α) (h1 : pq1.cmp = pq.cmp) (h2 : pq1.__cmp = pq.__cmp)
    (x y : α) : call__cmp pq1 x y = call__cmp pq x y := by
  unfold call__cmp is_less_than is_greater_than
  rw [h1, h2]

theorem call_retag_step (cmp1 : α → α → Int) (m : InternalCmp) (pq pq1 : PrioQueue α)
    (h1 : pq1.cmp = pq.cmp) (h2 : pq1.__cmp = pq.__cmp)
    (hp : ∀ x y, call__cmp (retag cmp1 m pq) x y = call__cmp pq x y) :
    ∀ x y, call__cmp (retag cmp1 m pq1) x y = call__cmp pq1 x y := by
  intro x y
  rw [call_congr pq pq1 h1 h2, ← hp x y]
  exact call_congr _ _ rfl rfl x y

theorem heapSet_retag (cmp1 : α → α → Int) (m : InternalCmp) (pq : PrioQueue α) (i : Int)
    (v : α) : heapSet (retag cmp1 m pq) i v = Except.map (retag cmp1 m) (heapSet pq i v) := by
  unfold heapSet
  by_cases h : 0 ≤ i ∧ i.toNat < pq.heap.length
  · rw [if_pos h, if_pos (by exact h)]; rfl
  · rw [if_neg h, if_neg (by exact h)]; rfl

theorem realloc_retag (cmp1 : α → α → Int) (m : InternalCmp) (pq : PrioQueue α) (c : Int) :
    realloc_heap (retag cmp1 m pq) c = Except.map (retag cmp1 m) (realloc_heap pq c) := by
  unfold realloc_heap
  by_cases h : 0 < c
  · rw [if_pos h, if_pos h]; rfl
  · rw [if_neg h, if_neg h]; rfl

theorem swap_retag (cmp1 : α → α → Int) (m : InternalCmp) (pq : PrioQueue α) (i j : Int) :
    swap (retag cmp1 m pq) i j = Except.map (retag cmp1 m) (swap pq i j) := by
  unfold swap
  have e1 : heapGet (retag cmp1 m pq) i = heapGet pq i := rfl
  have e2 : heapGet (retag cmp1 m pq) j = heapGet pq j := rfl
  rw [e1, e2]
  cases heapGet pq i with
  | error f => rfl
  | ok a =>
    cases heapGet pq j with
    | error f => rfl
    | ok b =>
      simp only [ok_bind]
      rw [heapSet_retag]
      cases h3 : heapSet pq i b with
      | error f => rfl
      | ok pq1 =>
        show heapSet (retag cmp1 m pq1) j a = Except.map (retag cmp1 m) (heapSet pq1 j a)
        exact heapSet_retag cmp1 m pq1 j a

theorem swap_fields (pq pq1 : PrioQueue α) (i j : Int) (h : swap pq i j = .ok pq1) :
    pq1.n = pq.n ∧ pq1.cap = pq.cap ∧ pq1.cmp = pq.cmp ∧ pq1.__cmp = pq.__cmp := by
  rcases swap_cases pq i j with h1 | ⟨q, h1, h2⟩
  · rw [h1] at h; cases h
  · rw [h1] at h; cases h; exact h2

theorem siftup_retag (cmp1 : α → α → Int) (m : InternalCmp) (fuel : Nat) :
    ∀ (pq : PrioQueue α) (i : Int),
      (∀ x y, call__cmp (retag cmp1 m pq) x y = call__cmp pq x y) →
      siftup fuel (retag cmp1 m pq) i = Except.map (retag cmp1 m) (siftup fuel pq i) := by
  induction fuel with
  | zero =>
    intro pq i _
    simp only [siftup]
    split <;> rfl
  | succ fuel ih =>
    intro pq i hp
    simp only [siftup]
    split
    · have e1 : heapGet (retag cmp1 m pq) (Int.tdiv i 2) = heapGet pq (Int.tdiv i 2) := rfl
      have e2 : heapGet (retag cmp1 m pq) i = heapGet pq i := rfl
      rw [e1, e2]
      cases heapGet pq (Int.tdiv i 2) with
      | error f => rfl
      | ok x =>
        cases heapGet pq i with
        | error f => rfl
        | ok y =>
          simp only [ok_bind]
          rw [hp x y]
          split
          · rfl
          · rw [swap_retag]
            cases hs : swap pq (Int.tdiv i 2) i with
            | error f => rfl
            | ok pq1 =>
              obtain ⟨_, _, hc, hm⟩ := swap_fields pq pq1 _ _ hs
              show siftup fuel (retag cmp1 m pq1) (Int.tdiv i 2) = _
              rw [ih pq1 _ (call_retag_step cmp1 m pq pq1 hc hm hp)]
              rfl
    · rfl

theorem siftdown_child_retag (cmp1 : α → α → Int) (m : InternalCmp) (pq : PrioQueue α) (i : Int)
    (hp : ∀ x y, call__cmp (retag cmp1 m pq) x y = call__cmp pq x y) :
    siftdown_child (retag cmp1 m pq) i = siftdown_child pq i := by
  unfold siftdown_child
  have e0 : (retag cmp1 m pq).n = pq.n := rfl
  have e1 : heapGet (retag cmp1 m pq) (2 * i) = heapGet pq (2 * i) := rfl
  have e2 : heapGet (retag cmp1 m pq) (2 * i + 1) = heapGet pq (2 * i + 1) := rfl
  rw [e0, e1, e2]
  split
  · cases heapGet pq (2 * i) with
    | error f => rfl
    | ok a =>
      cases heapGet pq (2 * i + 1) with
      | error f => rfl
      | ok b => simp only [ok_bind]; rw [hp a b]
  · rfl

theorem siftdown_retag (cmp1 : α → α → Int) (m : InternalCmp) (fuel : Nat) :
    ∀ (pq : PrioQueue α) (i : Int),
      (∀ x y, call__cmp (retag cmp1 m pq) x y = call__cmp pq x y) →
      siftdown fuel (retag cmp1 m pq) i = Except.map (retag cmp1 m) (siftdown fuel pq i) := by
  induction fuel with
  | zero =>
    intro pq i _
    simp only [siftdown]
    have e0 : (retag cmp1 m pq).n = pq.n := rfl
    rw [e0]
    split <;> rfl
  | succ fuel ih =>
    intro pq i hp
    simp only [siftdown]
    have e0 : (retag cmp1 m pq).n = pq.n := rfl
    rw [e0, siftdown_child_retag cmp1 m pq i hp]
    split
    · cases siftdown_child pq i with
      | error f => rfl
      | ok j =>
        simp only [ok_bind]
        have e1 : heapGet (retag cmp1 m pq) i = heapGet pq i := rfl
        have e2 : heapGet (retag cmp1 m pq) j = heapGet pq j := rfl
        rw [e1, e2]
        cases heapGet pq i with
        | error f => rfl
        | ok x =>
          cases heapGet pq j with
          | error f => rfl
          | ok y =>
            simp only [ok_bind]
            rw [hp x y]
            split
            · rfl
            · rw [swap_retag]
              cases hs : swap pq i j with
              | error f => rfl
              | ok pq1 =>
                obtain ⟨_, _, hc, hm⟩ := swap_fields pq pq1 _ _ hs
                show siftdown fuel (retag cmp1 m pq1) j = _
                rw [ih pq1 _ (call_retag_step cmp1 m pq pq1 hc hm hp)]
                rfl
    · rfl

theorem siftup_fields (fuel : Nat) : ∀ (pq : PrioQueue α) (i : Int) (pq1 : PrioQueue α),
    siftup fuel pq i = .ok pq1 →
    pq1.n = pq.n ∧ pq1.cap = pq.cap ∧ pq1.cmp = pq.cmp ∧ pq1.__cmp = pq.__cmp := by
  induction fuel with
  | zero =>
    intro pq i pq1 h
    simp only [siftup] at h
    split at h
    · cases h
    · cases h; exact ⟨rfl, rfl, rfl, rfl⟩
  | succ fuel ih =>
    intro pq i pq1 h
    simp only [siftup] at h
    split at h
    · cases hx : heapGet pq (Int.tdiv i 2) with
      | error f => rw [hx, error_bind] at h; cases h
      | ok x =>
        cases hy : heapGet pq i with
        | error f => rw [hx, ok_bind, hy, error_bind] at h; cases h
        | ok y =>
          rw [hx, ok_bind, hy, ok_bind] at h
          split at h
          · cases h; exact ⟨rfl, rfl, rfl, rfl⟩
          · cases hs : swap pq (Int.tdiv i 2) i with
            | error f => rw [hs, error_bind] at h; cases h
            | ok q =>
              rw [hs, ok_bind] at h
              obtain ⟨a1, a2, a3, a4⟩ := swap_fields pq q _ _ hs
              obtain ⟨b1, b2, b3, b4⟩ := ih q _ pq1 h
              exact ⟨b1.trans a1, b2.trans a2, b3.trans a3, b4.trans a4⟩
    · cases h; exact ⟨rfl, rfl, rfl, rfl⟩

theorem siftdown_fields (fuel : Nat) : ∀ (pq : PrioQueue α) (i : Int) (pq1 : PrioQueue α),
    siftdown fuel pq i = .ok pq1 →
    pq1.n = pq.n ∧ pq1.cap = pq.cap ∧ pq1.cmp = pq.cmp ∧ pq1.__cmp = pq.__cmp := by
  induction fuel with
  | zero =>
    intro pq i pq1 h
    simp only [siftdown] at h
    split at h
    · cases h
    · cases h; exact ⟨rfl, rfl, rfl, rfl⟩
  | succ fuel ih =>
    intro pq i pq1 h
    simp only [siftdown] at h
    split at h
    · cases hj : siftdown_child pq i with
      | error f => rw [hj, error_bind] at h; cases h
      | ok j =>
        rw [hj, ok_bind] at h
        cases hx : heapGet pq i with
        | error f => rw [hx, error_bind] at h; cases h
        | ok x =>
          cases hy : heapGet pq j with
          | error f => rw [hx, ok_bind, hy, error_bind] at h; cases h
          | ok y =>
            rw [hx, ok_bind, hy, ok_bind] at h
            split at h
            · cases h; exact ⟨rfl, rfl, rfl, rfl⟩
            · cases hs : swap pq i j with
              | error f => rw [hs, error_bind] at h; cases h
              | ok q =>
                rw [hs, ok_bind] at h
                obtain ⟨a1, a2, a3, a4⟩ := swap_fields pq q _ _ hs
                obtain ⟨b1, b2, b3, b4⟩ := ih q _ pq1 h
                exact ⟨b1.trans a1, b2.trans a2, b3.trans a3, b4.trans a4⟩
    · cases h; exact ⟨rfl, rfl, rfl, rfl⟩

theorem heapSet_fields (pq pq1 : PrioQueue α) (i : Int) (v : α) (h : heapSet pq i v = .ok pq1) :
    pq1.n = pq.n ∧ pq1.cap = pq.cap ∧ pq1.cmp = pq.cmp ∧ pq1.__cmp = pq.__cmp := by
  rcases heapSet_cases pq i v with h1 | h1
  · rw [h1] at h; cases h
  · rw [h1] at h; cases h; exact ⟨rfl, rfl, rfl, rfl⟩

theorem realloc_fields (pq pq1 : PrioQueue α) (c : Int) (h : realloc_heap pq c = .ok pq1) :
    pq1.n = pq.n ∧ pq1.cap = c ∧ pq1.cmp = pq.cmp ∧ pq1.__cmp = pq.__cmp := by
  unfold realloc_heap at h
  split at h
  · cases h; exact ⟨rfl, rfl, rfl, rfl⟩
  · cases h

theorem insert_tail_retag (cmp1 : α → α → Int) (m : InternalCmp) (pq1 : PrioQueue α) (e : α)
    (hp : ∀ x y, call__cmp (retag cmp1 m pq1) x y = call__cmp pq1 x y) :
    (heapSet { retag cmp1 m pq1 with n := pq1.n + 1 } (pq1.n + 1) e >>= fun pq3 =>
        siftup pq3.n.toNat pq3 pq3.n)
      = Except.map (retag cmp1 m)
          (heapSet { pq1 with n := pq1.n + 1 } (pq1.n + 1) e >>= fun pq3 =>
            siftup pq3.n.toNat pq3 pq3.n) := by
  have e1 : ({ retag cmp1 m pq1 with n := pq1.n + 1 } : PrioQueue α)
      = retag cmp1 m { pq1 with n := pq1.n + 1 } := rfl
  rw [e1, heapSet_retag]
  cases hs : heapSet { pq1 with n := pq1.n + 1 } (pq1.n + 1) e with
  | error f => rfl
  | ok pq3 =>
    obtain ⟨_, _, hc, hm⟩ := heapSet_fields _ pq3 _ _ hs
    show siftup pq3.n.toNat (retag cmp1 m pq3) pq3.n = _
    rw [siftup_retag cmp1 m _ pq3 _ (call_retag_step cmp1 m pq1 pq3 hc hm hp)]
    rfl

theorem insert_retag (cmp1 : α → α → Int) (m : InternalCmp) (pq : PrioQueue α) (e : α)
    (hp : ∀ x y, call__cmp (retag cmp1 m pq) x y = call__cmp pq x y) :
    prioqueue_insert (retag cmp1 m pq) e
      = Except.map (retag cmp1 m) (prioqueue_insert pq e) := by
  unfold prioqueue_insert
  have e0 : (retag cmp1 m pq).n = pq.n := rfl
  have e1 : (retag cmp1 m pq).cap = pq.cap := rfl
  rw [e0, e1]
  by_cases hg : pq.n + 2 = pq.cap
  · rw [if_pos hg, if_pos hg, realloc_retag]
    cases hr : realloc_heap pq (pq.cap * 2) with
    | error f => rfl
    | ok pq1 =>
      obtain ⟨_, _, hc, hm⟩ := realloc_fields pq pq1 _ hr
      exact insert_tail_retag cmp1 m pq1 e (call_retag_step cmp1 m pq pq1 hc hm hp)
  · rw [if_neg hg, if_neg hg]
    exact insert_tail_retag cmp1 m pq e hp

theorem insert_fields (pq pq1 : PrioQueue α) (e : α) (h : prioqueue_insert pq e = .ok pq1) :
    pq1.n = pq.n + 1 ∧ pq1.cmp = pq.cmp ∧ pq1.__cmp = pq.__cmp := by
  have tail : ∀ q : PrioQueue α,
      (heapSet { q with n := q.n + 1 } (q.n + 1) e >>= fun pq3 =>
        siftup pq3.n.toNat pq3 pq3.n) = Except.ok pq1 →
      pq1.n = q.n + 1 ∧ pq1.cmp = q.cmp ∧ pq1.__cmp = q.__cmp := by
    intro q hq
    cases hs : heapSet { q with n := q.n + 1 } (q.n + 1) e with
    | error f => rw [hs, error_bind] at hq; cases hq
    | ok pq3 =>
      rw [hs, ok_bind] at hq
      obtain ⟨a1, _, a3, a4⟩ := heapSet_fields _ pq3 _ _ hs
      obtain ⟨b1, _, b3, b4⟩ := siftup_fields _ pq3 _ pq1 hq
      exact ⟨b1.trans a1, b3.trans a3, b4.trans a4⟩
  unfold prioqueue_insert at h
  by_cases hg : pq.n + 2 = pq.cap
  · rw [if_pos hg] at h
    cases hr : realloc_heap pq (pq.cap * 2) with
    | error f => rw [hr, error_bind] at h; cases h
    | ok q =>
      rw [hr, ok_bind] at h
      obtain ⟨a1, _, a3, a4⟩ := realloc_fields pq q _ hr
      obtain ⟨b1, b3, b4⟩ := tail q h
      exact ⟨by rw [b1, a1], b3.trans a3, b4.trans a4⟩
  · rw [if_neg hg] at h
    exact tail pq h

theorem shrink_tail_retag (cmp1 : α → α → Int) (m : InternalCmp) (pq4 : PrioQueue α)
    (elem : α) :
    ((if pq4.n + 1 < Int.tdiv pq4.cap 2 then
          realloc_heap (retag cmp1 m pq4) (Int.tdiv pq4.cap 2)
        else pure (retag cmp1 m pq4)) >>= fun pq5 => Except.ok (elem, pq5))
      = Except.map (fun r => (r.1, retag cmp1 m r.2))
          ((if pq4.n + 1 < Int.tdiv pq4.cap 2 then realloc_heap pq4 (Int.tdiv pq4.cap 2)
            else pure pq4) >>= fun pq5 => Except.ok (elem, pq5)) := by
  by_cases hs : pq4.n + 1 < Int.tdiv pq4.cap 2
  · rw [if_pos hs, if_pos hs, realloc_retag]
    cases realloc_heap pq4 (Int.tdiv pq4.cap 2) with
    | error f => rfl
    | ok pq5 => rfl
  · rw [if_neg hs, if_neg hs]
    rfl

theorem delete_tail_retag (cmp1 : α → α → Int) (m : InternalCmp) (pq1 : PrioQueue α)
    (elem : α) (hp : ∀ x y, call__cmp (retag cmp1 m pq1) x y = call__cmp pq1 x y) :
    (heapSet (retag cmp1 m { pq1 with n := pq1.n - 1 }) (pq1.n - 1 + 1) NULL >>= fun pq3 =>
      siftdown pq3.n.toNat pq3 1 >>= fun pq4 =>
      (if pq4.n + 1 < Int.tdiv pq4.cap 2 then realloc_heap pq4 (Int.tdiv pq4.cap 2)
        else pure pq4) >>= fun pq5 => Except.ok (elem, pq5))
      = Except.map (fun r => (r.1, retag cmp1 m r.2))
        (heapSet { pq1 with n := pq1.n - 1 } (pq1.n - 1 + 1) NULL >>= fun pq3 =>
          siftdown pq3.n.toNat pq3 1 >>= fun pq4 =>
          (if pq4.n + 1 < Int.tdiv pq4.cap 2 then realloc_heap pq4 (Int.tdiv pq4.cap 2)
            else pure pq4) >>= fun pq5 => Except.ok (elem, pq5)) := by
  rw [heapSet_retag]
  cases hs3 : heapSet { pq1 with n := pq1.n - 1 } (pq1.n - 1 + 1) NULL with
  | error f => rfl
  | ok pq3 =>
    obtain ⟨_, _, hc3, hm3⟩ := heapSet_fields _ pq3 _ _ hs3
    have hp3 : ∀ x y, call__cmp (retag cmp1 m pq3) x y = call__cmp pq3 x y :=
      call_retag_step cmp1 m pq1 pq3 hc3 hm3 hp
    show (siftdown pq3.n.toNat (retag cmp1 m pq3) 1 >>= _) = _
    rw [siftdown_retag cmp1 m _ pq3 1 hp3, ok_bind]
    cases siftdown pq3.n.toNat pq3 1 with
    | error f => rfl
    | ok pq4 => exact shrink_tail_retag cmp1 m pq4 elem

theorem delete_retag (cmp1 : α → α → Int) (m : InternalCmp) (pq : PrioQueue α)
    (hp : ∀ x y, call__cmp (retag cmp1 m pq) x y = call__cmp pq x y) :
    prioqueue_delete (retag cmp1 m pq)
      = Except.map (fun r => (r.1, retag cmp1 m r.2)) (prioqueue_delete pq) := by
  unfold prioqueue_delete
  have e0 : (retag cmp1 m pq).n = pq.n := rfl
  have e1 : heapGet (retag cmp1 m pq) 1 = heapGet pq 1 := rfl
  rw [e0, e1]
  by_cases h0 : pq.n > 0
  · rw [if_pos h0, if_pos h0]
    cases heapGet pq 1 with
    | error f => rfl
    | ok elem =>
      rw [ok_bind, ok_bind, swap_retag]
      cases hs : swap pq 1 pq.n with
      | error f => rfl
      | ok pq1 =>
        obtain ⟨_, _, hc1, hm1⟩ := swap_fields pq pq1 _ _ hs
        exact delete_tail_retag cmp1 m pq1 elem (call_retag_step cmp1 m pq pq1 hc1 hm1 hp)
  · rw [if_neg h0, if_neg h0]
    rfl

theorem delete_fields (pq pq1 : PrioQueue α) (e : α) (h : prioqueue_delete pq = .ok (e, pq1)) :
    pq1.n = pq.n - 1 ∧ pq1.cmp = pq.cmp ∧ pq1.__cmp = pq.__cmp := by
  unfold prioqueue_delete at h
  by_cases h0 : pq.n > 0
  · rw [if_pos h0] at h
    cases hg : heapGet pq 1 with
    | error f => rw [hg, error_bind] at h; cases h
    | ok elem =>
      rw [hg, ok_bind] at h
      cases hs : swap pq 1 pq.n with
      | error f => rw [hs, error_bind] at h; cases h
      | ok q1 =>
        rw [hs, ok_bind] at h
        obtain ⟨a1, _, a3, a4⟩ := swap_fields pq q1 _ _ hs
        cases hs3 : heapSet { q1 with n := q1.n - 1 } (q1.n - 1 + 1) NULL with
        | error f =>
          have h2 := h
          simp only [] at h2
          rw [hs3, error_bind] at h2; cases h2
        | ok q3 =>
          have h2 := h
          simp only [] at h2
          rw [hs3, ok_bind] at h2
          obtain ⟨b1, _, b3, b4⟩ := heapSet_fields _ q3 _ _ hs3
          cases hs4 : siftdown q3.n.toNat q3 1 with
          | error f => rw [hs4, error_bind] at h2; cases h2
          | ok q4 =>
            rw [hs4, ok_bind] at h2
            obtain ⟨c1, _, c3, c4⟩ := siftdown_fields _ q3 _ q4 hs4
            have hq4 : q4.n = pq.n - 1 ∧ q4.cmp = pq.cmp ∧ q4.__cmp = pq.__cmp :=
              ⟨by rw [c1, b1, a1], (c3.trans b3).trans a3, (c4.trans b4).trans a4⟩
            by_cases hsh : q4.n + 1 < Int.tdiv q4.cap 2
            · rw [if_pos hsh] at h2
              cases hr : realloc_heap q4 (Int.tdiv q4.cap 2) with
              | error f => rw [hr, error_bind] at h2; cases h2
              | ok q5 =>
                rw [hr, ok_bind] at h2
                cases h2
                obtain ⟨d1, _, d3, d4⟩ := realloc_fields q4 pq1 _ hr
                exact ⟨d1.trans hq4.1, d3.trans hq4.2.1, d4.trans hq4.2.2⟩
            · rw [if_neg hsh] at h2
              cases h2
              exact hq4
  · rw [if_neg h0] at h; cases h

theorem peek_retag (cmp1 : α → α → Int) (m : InternalCmp) (pq : PrioQueue α) :
    prioqueue_peek (retag cmp1 m pq)
      = Except.map (fun r => (r.1, retag cmp1 m r.2)) (prioqueue_peek pq) := by
  unfold prioqueue_peek
  have e0 : (retag cmp1 m pq).n = pq.n := rfl
  have e1 : heapGet (retag cmp1 m pq) 1 = heapGet pq 1 := rfl
  rw [e0, e1]
  by_cases h0 : pq.n > 0
  · rw [if_pos h0, if_pos h0]
    cases heapGet pq 1 with
    | error f => rfl
    | ok elem => rfl
  · rw [if_neg h0, if_neg h0]
    rfl

theorem step_retag (cmp1 : α → α → Int) (m : InternalCmp) (pq : PrioQueue α) (op : Op α)
    (hp : ∀ x y, call__cmp (retag cmp1 m pq) x y = call__cmp pq x y) :
    step (retag cmp1 m pq) op = Except.map (retagged cmp1 m) (step pq op) := by
  cases op with
  | insert e =>
    simp only [step]
    rw [insert_retag cmp1 m pq e hp]
    cases prioqueue_insert pq e with
    | error f => rfl
    | ok q => rfl
  | delete =>
    simp only [step]
    rw [delete_retag cmp1 m pq hp]
    cases prioqueue_delete pq with
    | error f => rfl
    | ok q => rfl
  | peek =>
    simp only [step]
    rw [peek_retag cmp1 m pq]
    cases prioqueue_peek pq with
    | error f => rfl
    | ok q => rfl

theorem step_fields (pq : PrioQueue α) (op : Op α) (r : Option α × PrioQueue α)
    (h : step pq op = .ok r) : r.2.cmp = pq.cmp ∧ r.2.__cmp = pq.__cmp := by
  rcases step_cases pq op r h with ⟨e, _, hi⟩ | ⟨e, _, hd⟩ | ⟨_, hq⟩
  · exact (insert_fields pq r.2 e hi).2
  · exact (delete_fields pq r.2 e hd).2
  · rw [hq]; exact ⟨rfl, rfl⟩

theorem trace_retag (cmp1 : α → α → Int) (m : InternalCmp) :
    ∀ (ops : List (Op α)) (pq : PrioQueue α),
      (∀ x y, call__cmp (retag cmp1 m pq) x y = call__cmp pq x y) →
      trace (retag cmp1 m pq) ops
        = Except.map (List.map (retagged cmp1 m)) (trace pq ops) := by
  intro ops
  induction ops with
  | nil => intro pq _; rfl
  | cons op ops ih =>
    intro pq hp
    simp only [trace]
    rw [step_retag cmp1 m pq op hp]
    cases hs : step pq op with
    | error f => rfl
    | ok r =>
      obtain ⟨hc, hm⟩ := step_fields pq op r hs
      show (trace (retag cmp1 m r.2) ops >>= _) = _
      rw [ih r.2 (call_retag_step cmp1 m pq r.2 hc hm hp), ok_bind]
      cases trace r.2 ops with
      | error f => rfl
      | ok rs => rfl

theorem observe_retagged (cmp1 : α → α → Int) (m : InternalCmp) (r : Option α × PrioQueue α) :
    observe (retagged cmp1 m r) = observe r := rfl

theorem call_flip (cmp : α → α → Int) (pq : PrioQueue α) (hc : pq.cmp = cmp)
    (hm : pq.__cmp = .is_greater_than) (x y : α) :
    call__cmp (retag (fun a b => - cmp a b) .is_less_than pq) x y = call__cmp pq x y := by
  unfold call__cmp
  rw [hm]
  simp only [retag, is_less_than, is_greater_than, hc]
  by_cases h : cmp x y > 0
  · rw [decide_eq_true h, decide_eq_true (by omega)]
  · rw [decide_eq_false h, decide_eq_false (by omega)]

end Retag

/-! ## Counting the reallocations -/

section Counting

variable {α : Type} [Inhabited α]

theorem realloc_count_cons_ok (pq : PrioQueue α) (op : Op α) (ops : List (Op α))
    (r : Option α × PrioQueue α) (rs : Nat × PrioQueue α)
    (h1 : step pq op = .ok r) (h2 : realloc_count r.2 ops = .ok rs) :
    realloc_count pq (op :: ops) = .ok ((if r.2.cap = pq.cap then 0 else 1) + rs.1, rs.2) := by
  unfold realloc_count; rw [h1, ok_bind, h2, ok_bind]

theorem realloc_count_append : ∀ (a : List (Op α)) (pq : PrioQueue α) (b : List (Op α))
    (ra rb : Nat × PrioQueue α), realloc_count pq a = .ok ra → realloc_count ra.2 b = .ok rb →
    realloc_count pq (a ++ b) = .ok (ra.1 + rb.1, rb.2) := by
  intro a
  induction a with
  | nil =>
    intro pq b ra rb h1 h2
    simp only [realloc_count] at h1
    cases h1
    simpa using h2
  | cons op a ih =>
    intro pq b ra rb h1 h2
    simp only [realloc_count] at h1
    cases hs : step pq op with
    | error f => rw [hs, error_bind] at h1; cases h1
    | ok r =>
      rw [hs, ok_bind] at h1
      cases hr : realloc_count r.2 a with
      | error f => rw [hr, error_bind] at h1; cases h1
      | ok rs =>
        rw [hr, ok_bind] at h1
        cases h1
        have := ih r.2 b rs rb hr h2
        rw [List.cons_append, realloc_count_cons_ok pq op (a ++ b) r _ hs this]
        simp only [Nat.add_assoc]

theorem fill_count : ∀ (xs : List α) (pq : PrioQueue α), Valid pq →
    ∃ g q, realloc_count pq (xs.map Op.insert) = .ok (g, q) ∧ Valid q ∧
      q.n = pq.n + xs.length ∧ q.cap = pq.cap * 2 ^ g ∧ (g = 0 ∨ q.cap ≤ 2 * (q.n + 1)) := by
  intro xs
  induction xs with
  | nil =>
    intro pq hv
    exact ⟨0, pq, rfl, hv, by simp, by simp, Or.inl rfl⟩
  | cons e es ih =>
    intro pq hv
    obtain ⟨pq1, h1, hv1, hn1, hcap1, _⟩ := insert_post pq hv e
    obtain ⟨g, q, hq, hvq, hnq, hcq, hgq⟩ := ih pq1 hv1
    have hstep := step_insert_ok pq pq1 e h1
    have hcount := realloc_count_cons_ok pq (.insert e) (es.map Op.insert) _ _ hstep hq
    have hcappos : 2 ≤ pq.cap := by obtain ⟨a, _, c⟩ := hv; omega
    have hlen : ((e :: es).length : Int) = (es.length : Int) + 1 := by simp
    by_cases hg : pq.n + 2 = pq.cap
    · rw [if_pos hg] at hcap1
      have hne : ¬ (pq1.cap = pq.cap) := by omega
      refine ⟨1 + g, q, ?_, hvq, ?_, ?_, ?_⟩
      · rw [List.map_cons, hcount]
        simp only [if_neg hne]
      · rw [hnq, hn1, hlen]; ring
      · rw [hcq, hcap1, pow_add]; ring
      · right
        rcases hgq with hg0 | hle
        · rw [hg0] at hcq
          rw [hcq, hcap1, hnq, hn1]
          have : (0 : Int) ≤ (es.length : Int) := Int.ofNat_nonneg _
          simp only [pow_zero, mul_one]
          omega
        · exact hle
    · rw [if_neg hg] at hcap1
      refine ⟨g, q, ?_, hvq, ?_, ?_, ?_⟩
      · rw [List.map_cons, hcount]
        simp only [if_pos hcap1, Nat.zero_add]
      · rw [hnq, hn1, hlen]; ring
      · rw [hcq, hcap1]
      · exact hgq

theorem drain_count (k : Nat) : ∀ (pq : PrioQueue α), Valid pq → (k : Int) ≤ pq.n →
    ∃ s q, realloc_count pq (List.replicate k Op.delete) = .ok (s, q) ∧ Valid q ∧
      q.n = pq.n - k ∧ q.cap * 2 ^ s ≤ pq.cap := by
  induction k with
  | zero =>
    intro pq hv _
    exact ⟨0, pq, rfl, hv, by simp, by simp⟩
  | succ k ih =>
    intro pq hv hk
    have hpos : 0 < pq.n := by push_cast at hk; omega
    obtain ⟨pq1, h1, hv1, hn1, hcap1, _⟩ := delete_post pq hv hpos
    obtain ⟨s, q, hq, hvq, hnq, hcq⟩ := ih pq1 hv1 (by push_cast at hk; omega)
    have hstep := step_delete_ok pq pq1 _ h1
    have hcount := realloc_count_cons_ok pq .delete (List.replicate k Op.delete) _ _ hstep hq
    have hcappos : 2 ≤ pq.cap := by obtain ⟨a, _, c⟩ := hv; omega
    have hdiv : Int.tdiv pq.cap 2 = pq.cap / 2 := Int.tdiv_eq_ediv (by omega) (by omega)
    rw [hdiv] at hcap1
    by_cases hc : pq1.cap = pq.cap
    · refine ⟨s, q, ?_, hvq, ?_, ?_⟩
      · rw [List.replicate_succ, hcount]
        simp only [if_pos hc, Nat.zero_add]
      · rw [hnq, hn1]; push_cast; ring
      · rw [← hc]; exact hcq
    · refine ⟨1 + s, q, ?_, hvq, ?_, ?_⟩
      · rw [List.replicate_succ, hcount]
        simp only [if_neg hc]
      · rw [hnq, hn1]; push_cast; ring
      · have h2 : pq1.cap = pq.cap / 2 := by
          by_cases hlt : pq.n < pq.cap / 2
          · rw [if_pos hlt] at hcap1; exact hcap1
          · rw [if_neg hlt] at hcap1; exact absurd hcap1 hc
        have h3 : q.cap * 2 ^ (1 + s) = 2 * (q.cap * 2 ^ s) := by rw [pow_add]; ring
        rw [h3]
        omega

theorem log_bound (C capf cape : Int) (g s N : Nat) (hC : 2 ≤ C) (h1 : capf = C * 2 ^ g)
    (h2 : cape * 2 ^ s ≤ capf) (h3 : 2 ≤ cape) (h4 : g = 0 ∨ capf ≤ 2 * ((N : Int) + 1))
    (hN : 1 ≤ N) : g + s ≤ (2 + Nat.log 2 C.toNat) * (1 + Nat.log 2 N) := by
  have hpg : (0 : Int) < 2 ^ g := by positivity
  have hps : (0 : Int) < 2 ^ s := by positivity
  have hs2 : 2 * (2 : Int) ^ s ≤ capf := by nlinarith
  rcases h4 with hg0 | hle
  · subst hg0
    simp only [pow_zero, mul_one] at h1
    have h5 : (2 : Int) ^ (s + 1) ≤ C := by rw [pow_succ]; rw [h1] at hs2; linarith
    have h6 : 2 ^ (s + 1) ≤ C.toNat := by
      have : ((2 ^ (s + 1) : Nat) : Int) ≤ C := by push_cast; exact h5
      omega
    have h7 := Nat.le_log_of_pow_le (by decide : 1 < 2) h6
    have h8 : Nat.log 2 C.toNat ≤ (2 + Nat.log 2 C.toNat) * (1 + Nat.log 2 N) := by nlinarith
    omega
  · have h5 : (2 : Int) ^ g ≤ (N : Int) + 1 := by
      rw [h1] at hle
      nlinarith
    have h6 : (2 : Int) ^ s ≤ (N : Int) + 1 := by linarith
    have h5n : 2 ^ g ≤ N * 2 := by
      have : ((2 ^ g : Nat) : Int) ≤ (N : Int) + 1 := by push_cast; exact h5
      omega
    have h6n : 2 ^ s ≤ N * 2 := by
      have : ((2 ^ s : Nat) : Int) ≤ (N : Int) + 1 := by push_cast; exact h6
      omega
    have hlog := Nat.log_mul_base (by decide : 1 < 2) (by omega : N ≠ 0)
    have hg := Nat.le_log_of_pow_le (by decide : 1 < 2) h5n
    have hs := Nat.le_log_of_pow_le (by decide : 1 < 2) h6n
    rw [hlog] at hg hs
    have h8 : 2 * (1 + Nat.log 2 N) ≤ (2 + Nat.log 2 C.toNat) * (1 + Nat.log 2 N) := by
      nlinarith
    omega

theorem fill_drain_count (C : Int) (hC : 2 ≤ C) (cmp : α → α → Int)
    (order : prioqueue_order) (xs : List α) (hxs : 1 ≤ xs.length) :
    ∃ k q, realloc_count (newQ C cmp order) (fill_drain_ops xs) = .ok (k, q) ∧ q.n = 0 ∧
      k ≤ (2 + Nat.log 2 C.toNat) * (1 + Nat.log 2 xs.length) := by
  have hv0 := newQ_valid C cmp order hC
  obtain ⟨g, q1, h1, hv1, hn1, hc1, hg1⟩ := fill_count xs (newQ C cmp order) hv0
  have hn1' : q1.n = xs.length := by rw [hn1]; simp [newQ]
  obtain ⟨s, q2, h2, hv2, hn2, hc2⟩ := drain_count xs.length q1 hv1 (by rw [hn1'])
  refine ⟨g + s, q2, realloc_count_append _ _ _ (g, q1) (s, q2) h1 h2, by rw [hn2, hn1']; ring, ?_⟩
  have hcape : 2 ≤ q2.cap := by obtain ⟨a, _, c⟩ := hv2; omega
  have hc1' : q1.cap = C * 2 ^ g := hc1
  rw [hn1'] at hg1
  exact log_bound C q1.cap q2.cap g s xs.length hC hc1' hc2 hcape hg1 hxs

end Counting

/-! ## Thrashing, faults of a run, and ties -/

section Behaviour

variable {α : Type} [Inhabited α]

theorem thrash_round (pq : PrioQueue α) (hv : Valid pq) (hg : pq.n + 2 = pq.cap) (e : α) :
    ∃ pq1 pq2 x, prioqueue_insert pq e = .ok pq1 ∧ pq1.cap = 2 * pq.cap ∧
      prioqueue_delete pq1 = .ok (x, pq2) ∧ pq2.cap = pq.cap ∧ pq2.n = pq.n ∧ Valid pq2 := by
  obtain ⟨pq1, h1, hv1, hn1, hcap1, _⟩ := insert_post pq hv e
  rw [if_pos hg] at hcap1
  have h0 := hv.1
  obtain ⟨pq2, h2, hv2, hn2, hcap2, _⟩ := delete_post pq1 hv1 (by omega)
  have hdiv : Int.tdiv pq1.cap 2 = pq.cap := by
    rw [Int.tdiv_eq_ediv (by omega) (by omega), hcap1]; omega
  rw [hdiv, if_pos (by omega)] at hcap2
  exact ⟨pq1, pq2, _, h1, by rw [hcap1]; ring, h2, hcap2, by rw [hn2, hn1]; ring, hv2⟩

theorem thrash_count : ∀ (es : List α) (pq : PrioQueue α), Valid pq → pq.n + 2 = pq.cap →
    ∃ q, realloc_count pq (alternate es) = .ok (2 * es.length, q) ∧ Valid q ∧
      q.n = pq.n ∧ q.cap = pq.cap := by
  intro es
  induction es with
  | nil => intro pq hv _; exact ⟨pq, rfl, hv, rfl, rfl⟩
  | cons e es ih =>
    intro pq hv hg
    obtain ⟨pq1, pq2, x, h1, hc1, h2, hc2, hn2, hv2⟩ := thrash_round pq hv hg e
    obtain ⟨q, hq, hvq, hnq, hcq⟩ := ih pq2 hv2 (by rw [hn2, hc2]; exact hg)
    have hcappos : 2 ≤ pq.cap := by obtain ⟨a, _, c⟩ := hv; omega
    have s1 := step_insert_ok pq pq1 e h1
    have s2 := step_delete_ok pq1 pq2 x h2
    have c2 := realloc_count_cons_ok pq1 .delete (alternate es) _ _ s2 hq
    have c1 := realloc_count_cons_ok pq (.insert e) (.delete :: alternate es) _ _ s1 c2
    have ne1 : ¬ (pq1.cap = pq.cap) := by omega
    have ne2 : ¬ (pq2.cap = pq1.cap) := by omega
    refine ⟨q, ?_, hvq, hnq.trans hn2, hcq.trans hc2⟩
    show realloc_count pq (.insert e :: .delete :: alternate es) = _
    rw [c1]
    simp only [if_neg ne1, if_neg ne2, List.length_cons]
    congr 2
    omega

theorem run_cons_error (pq : PrioQueue α) (op : Op α) (ops : List (Op α)) (f : Fault)
    (h : step pq op = .error f) : run pq (op :: ops) = .error f := by
  unfold run; rw [h, error_bind]

theorem run_cons_then_error (pq : PrioQueue α) (op : Op α) (ops : List (Op α))
    (r : Option α × PrioQueue α) (f : Fault) (h1 : step pq op = .ok r)
    (h2 : run r.2 ops = .error f) : run pq (op :: ops) = .error f := by
  unfold run; rw [h1, ok_bind, h2, error_bind]

theorem step_outcome (pq : PrioQueue α) (hv : Valid pq) (op : Op α) :
    (∃ r, step pq op = .ok r ∧ Valid r.2) ∨ step pq op = .error .assertFailed := by
  cases op with
  | insert e =>
    obtain ⟨pq1, h1, hv1, _⟩ := insert_post pq hv e
    exact Or.inl ⟨_, step_insert_ok pq pq1 e h1, hv1⟩
  | delete =>
    by_cases h0 : 0 < pq.n
    · obtain ⟨pq1, h1, hv1, _⟩ := delete_post pq hv h0
      exact Or.inl ⟨_, step_delete_ok pq pq1 _ h1, hv1⟩
    · right
      simp only [step]
      rw [stuck_delete pq (by have := hv.1; omega), error_bind]
  | peek =>
    by_cases h0 : 0 < pq.n
    · left
      refine ⟨(some (slot pq 1), pq), ?_, hv⟩
      simp only [step]
      rw [peek_ok pq h0 (by obtain ⟨_, b, c⟩ := hv; omega), ok_bind]
    · right
      simp only [step]
      rw [stuck_peek pq (by have := hv.1; omega), error_bind]

theorem run_outcome : ∀ (ops : List (Op α)) (pq : PrioQueue α), Valid pq →
    (∃ r, run pq ops = .ok r) ∨ run pq ops = .error .assertFailed := by
  intro ops
  induction ops with
  | nil => intro pq _; exact Or.inl ⟨_, rfl⟩
  | cons op ops ih =>
    intro pq hv
    rcases step_outcome pq hv op with ⟨r, hs, hvr⟩ | hs
    · rcases ih r.2 hvr with ⟨rs, hr⟩ | hr
      · exact Or.inl ⟨_, run_cons_ok pq op ops r rs hs hr⟩
      · exact Or.inr (run_cons_then_error pq op ops r _ hs hr)
    · exact Or.inr (run_cons_error pq op ops _ hs)

theorem siftup_keeps_above (fuel : Nat) : ∀ (pq : PrioQueue α) (i : Nat) (pq1 : PrioQueue α),
    (i : Int) ≤ pq.n → pq.n < pq.heap.length → siftup fuel pq (i : Int) = .ok pq1 →
    ∀ k : Nat, i < k → slot pq1 k = slot pq k := by
  induction fuel with
  | zero =>
    intro pq i pq1 _ _ h k _
    by_cases h1 : 1 < i
    · have : (i : Int) > 1 := by omega
      simp [siftup, this] at h
    · rw [siftup_stop _ _ _ (by omega)] at h
      cases h; rfl
  | succ fuel ih =>
    intro pq i pq1 hin hn h k hk
    by_cases h1 : 1 < i
    · rw [siftup_step fuel pq i h1 (by omega)] at h
      cases hcall : call__cmp pq (slot pq (i / 2)) (slot pq i)
      · simp only [hcall] at h
        have := ih (swapQ pq (i / 2) i) (i / 2) pq1 (by simp; omega) (by simpa using hn) h k
          (by omega)
        rw [this, slot_swapQ pq _ _ _ (by omega) (by omega), if_neg (by omega),
          if_neg (by omega)]
      · simp only [hcall, if_true] at h
        cases h; rfl
    · rw [siftup_stop _ _ _ (by omega)] at h
      cases h; rfl

theorem call_false_of_tie (pq : PrioQueue α) (x y : α) (h : pq.cmp x y = 0) :
    call__cmp pq x y = false := by
  unfold call__cmp is_less_than is_greater_than
  cases pq.__cmp <;> simp [h]

theorem insert_tie (pq : PrioQueue α) (hv : Valid pq) (h1 : 1 ≤ pq.n) (e : α)
    (htie : pq.cmp (slot pq ((pq.n + 1).toNat / 2)) e = 0) :
    ∃ pq1, prioqueue_insert pq e = .ok pq1 ∧
      heapGet pq1 (pq.n + 1) = .ok (slot pq ((pq.n + 1).toNat / 2)) := by
  obtain ⟨pq1, hins, hv1, hn1, _⟩ := insert_post pq hv e
  refine ⟨pq1, hins, ?_⟩
  have hva := appendQ_valid pq hv e
  have hna : (appendQ pq e).n < (appendQ pq e).heap.length := by
    obtain ⟨_, b, c⟩ := hva; omega
  have h0 := hv.1
  obtain ⟨f, hf⟩ : ∃ f, (pq.n + 1).toNat = f + 1 := ⟨(pq.n + 1).toNat - 1, by omega⟩
  have hi2 : 1 < (pq.n + 1).toNat := by omega
  have hlen : (pq.n + 1).toNat < (appendQ pq e).heap.length := by
    simp only [appendQ_n] at hna; omega
  have hs := insert_eq pq hv e
  rw [hins] at hs
  have hs2 : siftup (f + 1) (appendQ pq e) (((pq.n + 1).toNat : Nat) : Int) = .ok pq1 := by
    rw [← hf]; exact hs.symm
  rw [siftup_step f (appendQ pq e) _ hi2 hlen] at hs2
  have hsl1 : slot (appendQ pq e) ((pq.n + 1).toNat / 2) = slot pq ((pq.n + 1).toNat / 2) := by
    rw [slot_appendQ pq hv, if_neg (by omega)]
  have hsl2 : slot (appendQ pq e) (pq.n + 1).toNat = e := by
    rw [slot_appendQ pq hv, if_pos rfl]
  have hcall : call__cmp (appendQ pq e) (slot (appendQ pq e) ((pq.n + 1).toNat / 2))
      (slot (appendQ pq e) (pq.n + 1).toNat) = false := by
    rw [hsl1, hsl2]
    apply call_false_of_tie
    rw [appendQ_cmp]; exact htie
  rw [hcall] at hs2
  simp only [Bool.false_eq_true, if_false] at hs2
  have hkeep := siftup_keeps_above f (swapQ (appendQ pq e) ((pq.n + 1).toNat / 2)
    (pq.n + 1).toNat) ((pq.n + 1).toNat / 2) pq1 (by simp; omega) (by simpa using hna) hs2
    (pq.n + 1).toNat (by omega)
  rw [slot_swapQ _ _ _ _ (by omega) hlen, if_pos rfl, hsl1] at hkeep
  have hlen1 : (pq.n + 1).toNat < pq1.heap.length := by
    obtain ⟨_, b, c⟩ := hv1; omega
  have := heapGet_ok_int pq1 (pq.n + 1) (by omega) hlen1
  rw [this, hkeep]

end Behaviour

/-! ## In-place execution agrees with the functional embedding -/

section InPlace

variable {α : Type} [Inhabited α]

theorem exec_bind_apply {β γ : Type} (m : Exec α β) (f : β → Exec α γ) (pq : PrioQueue α) :
    (m >>= f) pq = Exec.seq m f pq := rfl

theorem exec_pure_apply {β : Type} (b : β) (pq : PrioQueue α) :
    (pure b : Exec α β) pq = (.ok b, pq) := rfl

theorem heapSet_after_get (pq pq1 : PrioQueue α) (i : Int) (a v : α)
    (h : heapGet pq i = .ok a) (hl : pq1.heap.length = pq.heap.length) :
    heapSet pq1 i v = .ok { pq1 with heap := pq1.heap.set i.toNat v } := by
  unfold heapGet at h
  unfold heapSet
  split at h
  · rename_i hi
    split at h
    · rename_i x hx
      have := (List.getElem?_eq_some_iff.1 hx).1
      rw [if_pos ⟨hi, by omega⟩]
    · cases h
  · cases h

theorem swap_exec_eq (pq : PrioQueue α) (i j : Int) :
    swap_exec i j pq =
      match swap pq i j with
      | .ok pq1 => (.ok (), pq1)
      | .error e => (.error e, pq) := by
  unfold swap_exec swap
  simp only [exec_bind_apply, Exec.seq, read_heap, write_heap]
  cases h1 : heapGet pq i with
  | error f => simp only [error_bind]
  | ok a =>
    cases h2 : heapGet pq j with
    | error f => simp only [h2, ok_bind, error_bind]
    | ok b =>
      have h3 := heapSet_after_get pq pq i a b h1 rfl
      have h4 := heapSet_after_get pq { pq with heap := pq.heap.set i.toNat b } j b a h2 (by simp)
      simp only [h2, ok_bind, h3, h4]

theorem siftdown_exec_eq (fuel : Nat) :
    ∀ (pq : PrioQueue α) (i : Int),
      match siftdown fuel pq i with
      | .ok pq1 => siftdown_exec fuel i pq = (.ok (), pq1)
      | .error e => (siftdown_exec fuel i pq).1 = .error e := by
  induction fuel with
  | zero =>
    intro pq i
    unfold siftdown siftdown_exec
    simp only [exec_bind_apply, Exec.seq, engine]
    by_cases h : 2 * i ≤ pq.n
    · simp only [h, if_true]
    · simp only [h, if_false]
      rfl
  | succ fuel ih =>
    intro pq i
    unfold siftdown siftdown_exec
    simp only [exec_bind_apply, Exec.seq, engine]
    by_cases h : 2 * i ≤ pq.n
    · simp only [h, if_true, exec_bind_apply, Exec.seq, siftdown_child_exec, read_heap]
      cases h1 : siftdown_child pq i with
      | error f => simp only [h1, error_bind]
      | ok j =>
        cases h2 : heapGet pq i with
        | error f => simp only [h1, h2, ok_bind, error_bind]
        | ok x =>
          cases h3 : heapGet pq j with
          | error f => simp only [h1, h2, h3, ok_bind, error_bind]
          | ok y =>
            by_cases hc : call__cmp pq x y = true
            · simp only [h1, h2, h3, ok_bind, hc, if_true]
              rfl
            · have h5 := swap_exec_eq pq i j
              have hc : call__cmp pq x y = false := by simpa using hc
              cases h4 : swap pq i j with
              | error f =>
                rw [h4] at h5
                simp only [h1, h2, h3, ok_bind, hc, Bool.false_eq_true, if_false, exec_bind_apply,
                  Exec.seq, h5, h4, error_bind]
              | ok pq1 =>
                rw [h4] at h5
                simp only [h1, h2, h3, ok_bind, hc, Bool.false_eq_true, if_false, exec_bind_apply,
                  Exec.seq, h5, h4]
                exact ih pq1 j
    · simp only [h, if_false]
      rfl

theorem swap_write_n (pq : PrioQueue α) (i j k : Int) :
    swap { pq with n := k } i j =
      match swap pq i j with
      | .ok pq1 => .ok { pq1 with n := k }
      | .error e => .error e := by
  unfold swap
  have e1 : heapGet { pq with n := k } i = heapGet pq i := rfl
  have e2 : heapGet { pq with n := k } j = heapGet pq j := rfl
  rw [e1, e2]
  cases h1 : heapGet pq i with
  | error f => rfl
  | ok a =>
    cases h2 : heapGet pq j with
    | error f => rfl
    | ok b =>
      have h3 := heapSet_after_get pq pq i a b h1 rfl
      have h4 := heapSet_after_get pq { pq with heap := pq.heap.set i.toNat b } j b a h2 (by simp)
      have h5 := heapSet_after_get pq { pq with n := k } i a b h1 rfl
      have h6 := heapSet_after_get pq { pq with heap := pq.heap.set i.toNat b, n := k } j b a h2
        (by simp)
      simp only [ok_bind, h3, h4, h5, h6]

theorem delete_exec_empty (pq : PrioQueue α) (h : ¬ 0 < pq.n) :
    prioqueue_delete_exec pq = (.error .assertFailed, pq) := by
  unfold prioqueue_delete_exec
  simp only [exec_bind_apply, Exec.seq, assert, gt_iff_lt, h, decide_False, Bool.false_eq_true,
    if_false]

theorem peek_exec_empty (pq : PrioQueue α) (h : ¬ 0 < pq.n) :
    prioqueue_peek_exec pq = (.error .assertFailed, pq) := by
  unfold prioqueue_peek_exec
  simp only [exec_bind_apply, Exec.seq, assert, gt_iff_lt, h, decide_False, Bool.false_eq_true,
    if_false]

theorem peek_exec_eq (pq : PrioQueue α) :
    prioqueue_peek_exec pq =
      match prioqueue_peek pq with
      | .ok r => (.ok r.1, r.2)
      | .error e => (.error e, pq) := by
  by_cases h : 0 < pq.n
  · unfold prioqueue_peek_exec prioqueue_peek
    simp only [exec_bind_apply, Exec.seq, assert, gt_iff_lt, h, decide_True, if_true, read_heap]
    cases h1 : heapGet pq 1 with
    | error f => rfl
    | ok a => rfl
  · rw [peek_exec_empty pq h]
    unfold prioqueue_peek
    rw [if_neg h]

theorem delete_exec_eq (pq : PrioQueue α) :
    match prioqueue_delete pq with
    | .ok r => prioqueue_delete_exec pq = (.ok r.1, r.2)
    | .error e => (prioqueue_delete_exec pq).1 = .error e := by
  by_cases h : 0 < pq.n
  · unfold prioqueue_delete_exec prioqueue_delete
    simp only [exec_bind_apply, Exec.seq, assert, gt_iff_lt, h, decide_True, if_true, read_heap,
      engine, write_n, write_heap]
    cases h1 : heapGet pq 1 with
    | error f => simp only [h1, error_bind]
    | ok elem =>
      have hs := swap_exec_eq { pq with n := pq.n - 1 } 1 pq.n
      rw [swap_write_n] at hs
      cases h2 : swap pq 1 pq.n with
      | error f =>
        rw [h2] at hs
        simp only [h1, ok_bind, hs, h2, error_bind]
      | ok pq1 =>
        rw [h2] at hs
        have hn1 := (swap_fields pq pq1 1 pq.n h2).1
        simp only [h1, ok_bind, hs, h2, hn1]
        cases h3 : heapSet { pq1 with n := pq.n - 1 } (pq.n - 1 + 1) NULL with
        | error f => simp only [h3, error_bind]
        | ok pq3 =>
          have hn3 := (heapSet_fields _ pq3 _ _ h3).1
          have h4 := siftdown_exec_eq (pq.n - 1).toNat pq3 1
          simp only [h3, ok_bind, hn3]
          cases h5 : siftdown (pq.n - 1).toNat pq3 1 with
          | error f =>
            rw [h5] at h4
            simp only [h5, error_bind]
            have h4 : (siftdown_exec (pq.n - 1).toNat 1 pq3).1 = .error f := h4
            generalize siftdown_exec (pq.n - 1).toNat 1 pq3 = r at h4
            obtain ⟨a, b⟩ := r
            cases h4
            rfl
          | ok pq4 =>
            rw [h5] at h4
            have h4 : siftdown_exec (pq.n - 1).toNat 1 pq3 = (.ok (), pq4) := h4
            simp only [h5, h4, ok_bind]
            by_cases hc : pq4.n + 1 < Int.tdiv pq4.cap 2
            · simp only [hc, if_true, exec_bind_apply, Exec.seq, realloc_heap_exec]
              cases h6 : realloc_heap pq4 (Int.tdiv pq4.cap 2) with
              | error f => simp only [h6, error_bind]
              | ok pq5 =>
                simp only [h6, ok_bind]
                rfl
            · simp only [hc, if_false]
              rfl
  · rw [delete_exec_empty pq h]
    unfold prioqueue_delete
    rw [if_neg h]

end InPlace

/-! ## Concrete instances -/

section Samples

theorem prio_cmp_total : TotalPreorder prio_cmp :=
  ⟨fun x y => by unfold prio_cmp; omega, fun x y z => by unfold prio_cmp; omega⟩

theorem sample_valid : Valid sample_queue := by
  unfold Valid sample_queue; decide

theorem sample_heap_inv : heap_inv sample_queue := by
  intro i h2 h3
  have h3' : i ≤ 3 := h3
  have hi : i = 2 ∨ i = 3 := by omega
  rcases hi with rfl | rfl
  · exact ⟨10, 30, rfl, rfl, by show (10 : Int) - 30 ≤ 0; decide⟩
  · exact ⟨10, 20, rfl, rfl, by show (10 : Int) - 20 ≤ 0; decide⟩

end Samples

/-! ## The claims -/

section Claims

variable {α : Type} [Inhabited α]

/-- C1. The heap invariant is preserved by every mutation.  For a comparator
that is a consistent total preorder, in either order mode: from an allocated
state that satisfies the heap property, `prioqueue_insert` returns a state
that satisfies it, and so does `prioqueue_delete` when `n > 0`; the state
returned by `prioqueue_new` satisfies it; and so does every state reached from
it by a sequence of calls. -/
theorem heap_invariant_preserved (cmp : α → α → Int) (hc : TotalPreorder cmp) :
    (∀ pq : PrioQueue α, pq.cmp = cmp → Valid pq → heap_inv pq →
      (∀ e, ∃ pq1, prioqueue_insert pq e = .ok pq1 ∧ heap_inv pq1) ∧
      (0 < pq.n → ∃ e pq1, prioqueue_delete pq = .ok (e, pq1) ∧ heap_inv pq1)) ∧
    (∀ C order pq0, prioqueue_new C (some cmp) order = .ok pq0 → heap_inv pq0) ∧
    (∀ C order pq0 ops r, prioqueue_new C (some cmp) order = .ok pq0 →
      run pq0 ops = .ok r → heap_inv r.2) := by
  refine ⟨?_, ?_, ?_⟩
  · intro pq hcmp hv hinv
    have hok := heapOK_of_heap_inv pq hinv
    have hc' : TotalPreorder pq.cmp := by rw [hcmp]; exact hc
    constructor
    · intro e
      obtain ⟨pq1, h1, hv1, _, _, _, _, _, hk⟩ := insert_post pq hv e
      exact ⟨pq1, h1, heap_inv_of_good pq1 (Or.inl hv1) (hk hc' hok)⟩
    · intro h0
      obtain ⟨pq1, h1, hv1, _, _, _, _, _, hk⟩ := delete_post pq hv h0
      exact ⟨_, pq1, h1, heap_inv_of_good pq1 (Or.inl hv1) (hk hc' hok)⟩
  · intro C order pq0 h
    obtain ⟨rfl, _, _⟩ := new_post C cmp order pq0 h
    exact heap_inv_of_stuck _ rfl
  · intro C order pq0 ops r h hrun
    obtain ⟨rfl, _, hg⟩ := new_post C cmp order pq0 h
    obtain ⟨hg2, _, _, _, hk⟩ := run_post _ hg ops r hrun
    exact heap_inv_of_good r.2 hg2 (hk hc (newQ_heapOK C cmp order))

theorem heap_invariant_preserved_witness :
    (∃ pq1, prioqueue_insert sample_queue 5 = .ok pq1 ∧ heap_inv pq1) ∧
    (∃ e pq1, prioqueue_delete sample_queue = .ok (e, pq1) ∧ heap_inv pq1) :=
  ⟨((heap_invariant_preserved prio_cmp prio_cmp_total).1 sample_queue rfl sample_valid
      sample_heap_inv).1 5,
   ((heap_invariant_preserved prio_cmp prio_cmp_total).1 sample_queue rfl sample_valid
      sample_heap_inv).2 (by decide)⟩

/-- C2. Extraction order is sorted.  For an initial capacity of at least 2 and
a comparator that is a consistent total preorder, inserting any list of handles
into a fresh engine and deleting until it is empty returns a list that is
non-decreasing under the comparator in minimum order and non-increasing in
maximum order.  A list of strictly descending priorities in minimum order, or
of strictly ascending priorities in maximum order, comes back reversed, and the
priorities 50, 40, ..., 0, ..., 40, 50 come back as 0, 10, 10, ..., 50, 50. -/
theorem extraction_order_sorted (C : Int) (hC : 2 ≤ C) (cmp : α → α → Int)
    (hc : TotalPreorder cmp) :
    (∀ xs : List α, ∃ out, fill_then_drain C cmp PQMin xs = .ok out ∧
      out.Pairwise (fun x y => cmp x y ≤ 0)) ∧
    (∀ xs : List α, ∃ out, fill_then_drain C cmp PQMax xs = .ok out ∧
      out.Pairwise (fun x y => 0 ≤ cmp x y)) ∧
    (∀ xs : List α, xs.Pairwise (fun x y => cmp y x < 0) →
      fill_then_drain C cmp PQMin xs = .ok xs.reverse) ∧
    (∀ xs : List α, xs.Pairwise (fun x y => cmp x y < 0) →
      fill_then_drain C cmp PQMax xs = .ok xs.reverse) ∧
    fill_then_drain C prio_cmp PQMin [50, 40, 30, 20, 10, 0, 10, 20, 30, 40, 50]
      = .ok [0, 10, 10, 20, 20, 30, 30, 40, 40, 50, 50] := by
  have hmin : PQMin ≠ PQMax := by decide
  have hsortMin : ∀ xs : List α, ∃ out, fill_then_drain C cmp PQMin xs = .ok out ∧
      out.Perm xs ∧ out.Pairwise (fun x y => cmp x y ≤ 0) := by
    intro xs
    obtain ⟨out, h, hp, hs⟩ := fill_then_drain_post C hC cmp PQMin xs
    exact ⟨out, h, hp, (hs hc).imp (fun {x y} hr => (ranked_newQ_min C cmp PQMin hmin x y).1 hr)⟩
  have hsortMax : ∀ xs : List α, ∃ out, fill_then_drain C cmp PQMax xs = .ok out ∧
      out.Perm xs ∧ out.Pairwise (fun x y => 0 ≤ cmp x y) := by
    intro xs
    obtain ⟨out, h, hp, hs⟩ := fill_then_drain_post C hC cmp PQMax xs
    exact ⟨out, h, hp, (hs hc).imp (fun {x y} hr => (ranked_newQ_max C cmp x y).1 hr)⟩
  refine ⟨?_, ?_, ?_, ?_, ?_⟩
  · intro xs
    obtain ⟨out, h, _, hs⟩ := hsortMin xs
    exact ⟨out, h, hs⟩
  · intro xs
    obtain ⟨out, h, _, hs⟩ := hsortMax xs
    exact ⟨out, h, hs⟩
  · intro xs hxs
    obtain ⟨out, h, hp, hs⟩ := hsortMin xs
    rw [h, sorted_perm_unique cmp hc xs.reverse out (hp.trans (List.reverse_perm xs).symm) hs
      (List.pairwise_reverse.2 hxs)]
  · intro xs hxs
    obtain ⟨out, h, hp, hs⟩ := hsortMax xs
    have hflip : TotalPreorder (fun x y => cmp y x) :=
      ⟨fun x y => hc.sign_swap y x, fun x y z h1 h2 => hc.trans_le z y x h2 h1⟩
    have hs2 : out.Pairwise (fun x y => cmp y x ≤ 0) :=
      hs.imp (fun {x y} hr => (hc.ge_iff x y).1 hr)
    rw [h, sorted_perm_unique (fun x y => cmp y x) hflip xs.reverse out
      (hp.trans (List.reverse_perm xs).symm) hs2 (List.pairwise_reverse.2 hxs)]
  · obtain ⟨out, h, hp, hs⟩ := fill_then_drain_post C hC prio_cmp PQMin
      [50, 40, 30, 20, 10, 0, 10, 20, 30, 40, 50]
    have hs2 : out.Pairwise (fun x y => x ≤ y) :=
      (hs prio_cmp_total).imp (fun {x y} hr => by
        have := (ranked_newQ_min C prio_cmp PQMin hmin x y).1 hr
        unfold prio_cmp at this
        omega)
    have ht : ([0, 10, 10, 20, 20, 30, 30, 40, 40, 50, 50] : List Int).Pairwise
        (fun x y => x ≤ y) := by decide
    have hpt : out.Perm [0, 10, 10, 20, 20, 30, 30, 40, 40, 50, 50] :=
      hp.trans (by decide)
    rw [h, List.eq_of_perm_of_sorted hpt hs2 ht]

theorem extraction_order_sorted_witness :
    fill_then_drain 4 prio_cmp PQMin [30, 20, 10] = .ok [10, 20, 30] ∧
    fill_then_drain 4 prio_cmp PQMax [10, 20, 30] = .ok [30, 20, 10] ∧
    fill_then_drain 4 prio_cmp PQMin [50, 40, 30, 20, 10, 0, 10, 20, 30, 40, 50]
      = .ok [0, 10, 10, 20, 20, 30, 30, 40, 40, 50, 50] :=
  ⟨(extraction_order_sorted 4 (by decide) prio_cmp prio_cmp_total).2.2.1 [30, 20, 10]
      (by decide),
   (extraction_order_sorted 4 (by decide) prio_cmp prio_cmp_total).2.2.2.1 [10, 20, 30]
      (by decide),
   (extraction_order_sorted 4 (by decide) prio_cmp prio_cmp_total).2.2.2.2⟩

/-- C3. `prioqueue_delete` returns the top-priority element.  In an allocated
state with `n > 0` that satisfies the heap property, for a comparator that is
a consistent total preorder, the returned handle is `heap[1]` of the state
before the call, and it compares `≤ 0` against every handle in `heap[1..n]`
in minimum order and `≥ 0` in maximum order. -/
theorem delete_returns_top (pq : PrioQueue α) (hc : TotalPreorder pq.cmp) (hv : Valid pq)
    (hinv : heap_inv pq) (h0 : 0 < pq.n) :
    ∃ e pq1, prioqueue_delete pq = .ok (e, pq1) ∧ heapGet pq 1 = .ok e ∧
      ∀ i : Int, 1 ≤ i → i ≤ pq.n → ∃ x, heapGet pq i = .ok x ∧
        (pq.__cmp = .is_less_than → pq.cmp e x ≤ 0) ∧
        (pq.__cmp = .is_greater_than → 0 ≤ pq.cmp e x) := by
  obtain ⟨pq1, h1, _⟩ := delete_post pq hv h0
  have hn : pq.n < pq.heap.length := by obtain ⟨_, b, c⟩ := hv; omega
  have hok := heapOK_of_heap_inv pq hinv
  refine ⟨slot pq 1, pq1, h1, heapGet_ok_int pq 1 (by omega) (by simp; omega), ?_⟩
  intro i hi1 hin
  obtain ⟨k, rfl⟩ := Int.eq_ofNat_of_zero_le (by omega : (0 : Int) ≤ i)
  have hr := root_best pq hc hok k (by omega) hin
  refine ⟨slot pq k, heapGet_ok pq k (by omega), ?_, ?_⟩
  · intro hm; unfold ranked at hr; rw [hm] at hr; exact hr
  · intro hm; unfold ranked at hr; rw [hm] at hr; exact hr

theorem delete_returns_top_witness :
    ∃ e pq1, prioqueue_delete sample_queue = .ok (e, pq1) ∧ heapGet sample_queue 1 = .ok e ∧
      ∀ i : Int, 1 ≤ i → i ≤ sample_queue.n → ∃ x, heapGet sample_queue i = .ok x ∧
        (sample_queue.__cmp = .is_less_than → sample_queue.cmp e x ≤ 0) ∧
        (sample_queue.__cmp = .is_greater_than → 0 ≤ sample_queue.cmp e x) :=
  delete_returns_top sample_queue prio_cmp_total sample_valid sample_heap_inv (by decide)

/-- C4. The engine only reorders handles.  In an allocated state, the multiset
of `heap[1..n]` after `prioqueue_insert pq e` is the old multiset plus `e`, and
after `prioqueue_delete` (when `n > 0`) the old multiset is the new one plus
the returned handle.  Hence pairwise distinct handles inserted into a fresh
engine of initial capacity at least 2 are extracted pairwise distinct and as a
permutation of the inserted list, whatever the comparator. -/
theorem handles_preserved (pq : PrioQueue α) (hv : Valid pq) :
    (∀ e, ∃ pq1, prioqueue_insert pq e = .ok pq1 ∧
      Multiset.ofList (live pq1) = e ::ₘ Multiset.ofList (live pq)) ∧
    (0 < pq.n → ∃ e pq1, prioqueue_delete pq = .ok (e, pq1) ∧
      e ::ₘ Multiset.ofList (live pq1) = Multiset.ofList (live pq)) ∧
    (∀ (C : Int) (cmp : α → α → Int) (order : prioqueue_order) (xs : List α), 2 ≤ C →
      xs.Nodup → ∃ out, fill_then_drain C cmp order xs = .ok out ∧ out.Nodup ∧ out.Perm xs) := by
  refine ⟨?_, ?_, ?_⟩
  · intro e
    obtain ⟨pq1, h1, _, _, _, _, _, hp, _⟩ := insert_post pq hv e
    refine ⟨pq1, h1, ?_⟩
    rw [Multiset.cons_coe]
    exact Multiset.coe_eq_coe.2 (hp.trans (List.perm_append_singleton _ _))
  · intro h0
    obtain ⟨pq1, h1, _, _, _, _, _, hp, _⟩ := delete_post pq hv h0
    refine ⟨_, pq1, h1, ?_⟩
    rw [Multiset.cons_coe]
    exact Multiset.coe_eq_coe.2 hp
  · intro C cmp order xs hC hnd
    obtain ⟨out, h, hp, _⟩ := fill_then_drain_post C hC cmp order xs
    exact ⟨out, h, hp.nodup_iff.2 hnd, hp⟩

theorem handles_preserved_witness :
    (∃ pq1, prioqueue_insert sample_queue 5 = .ok pq1 ∧
      Multiset.ofList (live pq1) = 5 ::ₘ Multiset.ofList (live sample_queue)) ∧
    (∃ e pq1, prioqueue_delete sample_queue = .ok (e, pq1) ∧
      e ::ₘ Multiset.ofList (live pq1) = Multiset.ofList (live sample_queue)) ∧
    (∃ out, fill_then_drain 4 prio_cmp PQMin [3, 1, 2] = .ok out ∧ out.Nodup ∧
      out.Perm [3, 1, 2]) :=
  ⟨(handles_preserved sample_queue sample_valid).1 5,
   (handles_preserved sample_queue sample_valid).2.1 (by decide),
   (handles_preserved sample_queue sample_valid).2.2 4 prio_cmp PQMin [3, 1, 2] (by decide)
     (by decide)⟩

/-- C5. Count correctness.  After any sequence of calls that all return,
applied to a fresh engine, `prioqueue_size` is the number of inserts minus the
number of deletes.  In an allocated state `prioqueue_insert` returns with the
size increased by 1, and when `n > 0` `prioqueue_delete` returns with the size
decreased by 1 and `prioqueue_peek` returns with the size unchanged.
`prioqueue_is_empty` is non-zero exactly when `prioqueue_size` is 0. -/
theorem count_correct (C : Int) (cmp : α → α → Int) (order : prioqueue_order)
    (pq0 : PrioQueue α) (h : prioqueue_new C (some cmp) order = .ok pq0) :
    prioqueue_size pq0 = 0 ∧
    (∀ ops r, run pq0 ops = .ok r → prioqueue_size r.2 = inserts ops - deletes ops) ∧
    (∀ pq : PrioQueue α, Valid pq →
      (∀ e, ∃ pq1, prioqueue_insert pq e = .ok pq1 ∧
        prioqueue_size pq1 = prioqueue_size pq + 1) ∧
      (0 < pq.n →
        (∃ e pq1, prioqueue_delete pq = .ok (e, pq1) ∧
          prioqueue_size pq1 = prioqueue_size pq - 1) ∧
        (∃ e pq1, prioqueue_peek pq = .ok (e, pq1) ∧
          prioqueue_size pq1 = prioqueue_size pq))) ∧
    (∀ pq : PrioQueue α, prioqueue_is_empty pq ≠ 0 ↔ prioqueue_size pq = 0) := by
  obtain ⟨rfl, _, hg⟩ := new_post C cmp order pq0 h
  refine ⟨rfl, ?_, ?_, ?_⟩
  · intro ops r hrun
    obtain ⟨_, _, _, hn, _⟩ := run_post _ hg ops r hrun
    unfold prioqueue_size
    rw [hn]
    simp [newQ]
  · intro pq hv
    constructor
    · intro e
      obtain ⟨pq1, h1, _, hn, _⟩ := insert_post pq hv e
      exact ⟨pq1, h1, hn⟩
    · intro h0
      constructor
      · obtain ⟨pq1, h1, _, hn, _⟩ := delete_post pq hv h0
        exact ⟨_, pq1, h1, hn⟩
      · exact ⟨_, pq, peek_ok pq h0 (by obtain ⟨_, b, c⟩ := hv; omega), rfl⟩
  · intro pq
    exact is_empty_ne_zero pq

theorem count_correct_witness :
    ∃ r, run (newQ 4 prio_cmp PQMin) [.insert 5, .insert 3, .delete, .insert 9] = .ok r ∧
      prioqueue_size r.2 = 2 :=
  ⟨_, rfl, (count_correct 4 prio_cmp PQMin (newQ 4 prio_cmp PQMin) rfl).2.1
    [.insert 5, .insert 3, .delete, .insert 9] _ rfl⟩

/-- C6. Empty-queue signalling.  In every state with `n = 0` both
`prioqueue_delete` and `prioqueue_peek` fail on the assertion `n > 0`, and run
in place they leave the engine they were called on: the heap array, the count,
the capacity, the comparator and the bound predicate are all as before the
call.  In every allocated state with `n > 0` both return, and run in place
they return the same handle and leave the same engine as the functional
embedding. -/
theorem empty_queue_signalling (pq : PrioQueue α) :
    (pq.n = 0 →
      prioqueue_delete pq = .error .assertFailed ∧
      prioqueue_peek pq = .error .assertFailed ∧
      prioqueue_delete_exec pq = (.error .assertFailed, pq) ∧
      prioqueue_peek_exec pq = (.error .assertFailed, pq)) ∧
    (0 < pq.n → Valid pq →
      (∃ r, prioqueue_delete pq = .ok r ∧ prioqueue_delete_exec pq = (.ok r.1, r.2)) ∧
      (∃ r, prioqueue_peek pq = .ok r ∧ prioqueue_peek_exec pq = (.ok r.1, r.2))) := by
  constructor
  · intro h
    exact ⟨stuck_delete pq h, stuck_peek pq h, delete_exec_empty pq (by omega),
      peek_exec_empty pq (by omega)⟩
  · intro h0 hv
    obtain ⟨pq1, h1, _⟩ := delete_post pq hv h0
    have h2 := peek_ok pq h0 (by obtain ⟨_, b, c⟩ := hv; omega)
    have h3 := delete_exec_eq pq
    have h4 := peek_exec_eq pq
    rw [h1] at h3
    rw [h2] at h4
    exact ⟨⟨_, h1, h3⟩, ⟨_, h2, h4⟩⟩

theorem empty_queue_signalling_witness :
    (prioqueue_delete (newQ 4 prio_cmp PQMin) = .error .assertFailed ∧
      prioqueue_peek (newQ 4 prio_cmp PQMin) = .error .assertFailed ∧
      prioqueue_delete_exec (newQ 4 prio_cmp PQMin) =
        (.error .assertFailed, newQ 4 prio_cmp PQMin) ∧
      prioqueue_peek_exec (newQ 4 prio_cmp PQMin) =
        (.error .assertFailed, newQ 4 prio_cmp PQMin)) ∧
    ((∃ r, prioqueue_delete sample_queue = .ok r ∧
        prioqueue_delete_exec sample_queue = (.ok r.1, r.2)) ∧
      (∃ r, prioqueue_peek sample_queue = .ok r ∧
        prioqueue_peek_exec sample_queue = (.ok r.1, r.2))) :=
  ⟨(empty_queue_signalling (newQ 4 prio_cmp PQMin)).1 rfl,
   (empty_queue_signalling sample_queue).2 (by decide) sample_valid⟩

/-- C7. Peek agrees with the next extraction and does not mutate.  In an
allocated state with `n > 0`, `prioqueue_peek` returns `heap[1]` and leaves the
state as it was, and `prioqueue_delete` on the same state returns the same
handle. -/
theorem peek_agrees_with_delete (pq : PrioQueue α) (hv : Valid pq) (h0 : 0 < pq.n) :
    ∃ e, heapGet pq 1 = .ok e ∧ prioqueue_peek pq = .ok (e, pq) ∧
      ∃ pq1, prioqueue_delete pq = .ok (e, pq1) := by
  have h1 : 1 < pq.heap.length := by obtain ⟨_, b, c⟩ := hv; omega
  obtain ⟨pq1, hd, _⟩ := delete_post pq hv h0
  exact ⟨slot pq 1, heapGet_ok_int pq 1 (by omega) (by simpa using h1), peek_ok pq h0 h1, pq1, hd⟩

theorem peek_agrees_with_delete_witness :
    ∃ e, heapGet sample_queue 1 = .ok e ∧ prioqueue_peek sample_queue = .ok (e, sample_queue) ∧
      ∃ pq1, prioqueue_delete sample_queue = .ok (e, pq1) :=
  peek_agrees_with_delete sample_queue sample_valid (by decide)

/-- C8, counterexample.  With an initial capacity of 4, creating an engine,
inserting one handle and deleting it leaves the capacity 2, below the initial
capacity; with an initial capacity of 16 the same calls leave the capacity 8. -/
theorem capacity_drops_below_initial :
    (∃ pq0 r, prioqueue_new 4 (some prio_cmp) PQMin = .ok pq0 ∧
      run pq0 [.insert 7, .delete] = .ok r ∧ r.2.cap = 2 ∧ r.2.cap < 4) ∧
    (∃ pq0 r, prioqueue_new 16 (some prio_cmp) PQMin = .ok pq0 ∧
      run pq0 [.insert 7, .delete] = .ok r ∧ r.2.cap = 8 ∧ r.2.cap < 16) :=
  ⟨⟨newQ 4 prio_cmp PQMin,
    ([none, some 7],
      { heap := [0, 0], n := 0, cap := 2, cmp := prio_cmp, __cmp := .is_less_than }),
    rfl, rfl, rfl, by decide⟩,
   ⟨newQ 16 prio_cmp PQMin,
    ([none, some 7],
      { heap := [0, 0, 0, 0, 0, 0, 0, 0], n := 0, cap := 8, cmp := prio_cmp,
        __cmp := .is_less_than }),
    rfl, rfl, rfl, by decide⟩⟩

/-- C8, amended.  For an initial capacity of at least 2, after every sequence
of calls applied to a fresh engine the capacity is at least 2 and at least
`n + 2`.  The initial capacity is no lower bound: when it is at least 4, one
insert followed by one delete halves it. -/
theorem capacity_lower_bound (C : Int) (hC : 2 ≤ C) (cmp : α → α → Int)
    (order : prioqueue_order) (pq0 : PrioQueue α)
    (h : prioqueue_new C (some cmp) order = .ok pq0) :
    (∀ ops r, run pq0 ops = .ok r → 2 ≤ r.2.cap ∧ r.2.n + 2 ≤ r.2.cap) ∧
    (4 ≤ C → ∀ e, ∃ r, run pq0 [.insert e, .delete] = .ok r ∧
      r.2.cap = Int.tdiv C 2 ∧ r.2.cap < C) := by
  obtain ⟨rfl, _, _⟩ := new_post C cmp order pq0 h
  have hv0 := newQ_valid C cmp order hC
  constructor
  · intro ops r hrun
    obtain ⟨h0, _, hc⟩ := run_valid _ hv0 ops r hrun
    exact ⟨by omega, hc⟩
  · intro h4 e
    obtain ⟨pq1, h1, hv1, hn1, hcap1, _⟩ := insert_post (newQ C cmp order) hv0 e
    have hn1' : pq1.n = 1 := by rw [hn1]; rfl
    have hcap1' : pq1.cap = C := by
      rw [hcap1]
      show (if (0 : Int) + 2 = C then C * 2 else C) = C
      rw [if_neg (by omega)]
    obtain ⟨pq2, h2, _, _, hcap2, _⟩ := delete_post pq1 hv1 (by omega)
    have hdiv : Int.tdiv C 2 = C / 2 := Int.tdiv_eq_ediv (by omega) (by omega)
    have hcap2' : pq2.cap = C / 2 := by
      rw [hcap2, hcap1', hn1', hdiv, if_pos (by omega)]
    refine ⟨([none, some (slot pq1 1)], pq2), ?_, ?_, ?_⟩
    · exact run_cons_ok _ _ _ _ _ (step_insert_ok _ _ _ h1)
        (run_cons_ok _ _ [] _ ([], pq2) (step_delete_ok _ _ _ h2) rfl)
    · show pq2.cap = Int.tdiv C 2
      rw [hcap2', hdiv]
    · show pq2.cap < C
      rw [hcap2']
      omega

theorem capacity_lower_bound_witness :
    (∃ r, run (newQ 4 prio_cmp PQMin) [.insert 7, .delete, .insert 5] = .ok r ∧
      2 ≤ r.2.cap ∧ r.2.n + 2 ≤ r.2.cap) ∧
    (∃ r, run (newQ 4 prio_cmp PQMin) [.insert 7, .delete] = .ok r ∧
      r.2.cap = Int.tdiv 4 2 ∧ r.2.cap < 4) :=
  ⟨⟨_, rfl, (capacity_lower_bound 4 (by decide) prio_cmp PQMin (newQ 4 prio_cmp PQMin) rfl).1
      [.insert 7, .delete, .insert 5] _ rfl⟩,
   (capacity_lower_bound 4 (by decide) prio_cmp PQMin (newQ 4 prio_cmp PQMin) rfl).2
      (by decide) 7⟩

/-- C9, what the code does.  In every allocated state the new count `n + 1`
does not exceed the usable capacity `cap - 1`, so the stated policy would never
grow the array; yet `prioqueue_insert` returns with the capacity doubled
whenever `n + 2 = cap` (and unchanged otherwise), keeping the stored handles. -/
theorem insert_grows_before_full (pq : PrioQueue α) (hv : Valid pq) (e : α) :
    ¬ (pq.n + 1 > pq.cap - 1) ∧
    ∃ pq1, prioqueue_insert pq e = .ok pq1 ∧
      pq1.cap = (if pq.n + 2 = pq.cap then pq.cap * 2 else pq.cap) ∧
      (live pq1).Perm (live pq ++ [e]) := by
  obtain ⟨pq1, h1, _, _, hcap, _, _, hp, _⟩ := insert_post pq hv e
  exact ⟨by obtain ⟨_, _, c⟩ := hv; omega, pq1, h1, hcap, hp⟩

theorem insert_grows_before_full_witness :
    ∃ r, run (newQ 4 prio_cmp PQMin) [.insert 1, .insert 2] = .ok r ∧
      r.2.n = 2 ∧ r.2.cap = 4 ∧ ¬ (r.2.n + 1 > r.2.cap - 1) ∧
      ∃ pq1, prioqueue_insert r.2 3 = .ok pq1 ∧ pq1.cap = 8 ∧ (live pq1).Perm [1, 2, 3] :=
  ⟨([none, none],
    { heap := [0, 1, 2, 0], n := 2, cap := 4, cmp := prio_cmp, __cmp := .is_less_than }),
   rfl, rfl, rfl,
   insert_grows_before_full
     { heap := [0, 1, 2, 0], n := 2, cap := 4, cmp := prio_cmp, __cmp := .is_less_than }
     (by unfold Valid; decide) 3⟩

/-- C10. Single-element round trip on a fresh engine.  For an initial capacity
of at least 2, any comparator, any order value and any handle `e`: the engine
returned by `prioqueue_new` has count 0 and is empty; after
`prioqueue_insert` of `e` it is not empty, `prioqueue_peek` returns `e` and
leaves the state with size 1, and `prioqueue_delete` returns `e` and leaves
size 0 and an empty engine. -/
theorem single_element_round_trip (C : Int) (hC : 2 ≤ C) (cmp : α → α → Int)
    (order : prioqueue_order) (e : α) :
    ∃ pq0 pq1 pq2, prioqueue_new C (some cmp) order = .ok pq0 ∧
      pq0.n = 0 ∧ prioqueue_size pq0 = 0 ∧ prioqueue_is_empty pq0 = 1 ∧
      prioqueue_insert pq0 e = .ok pq1 ∧ prioqueue_is_empty pq1 = 0 ∧
      prioqueue_peek pq1 = .ok (e, pq1) ∧ prioqueue_size pq1 = 1 ∧
      prioqueue_delete pq1 = .ok (e, pq2) ∧ prioqueue_size pq2 = 0 ∧
      prioqueue_is_empty pq2 = 1 := by
  have hv0 := newQ_valid C cmp order hC
  obtain ⟨pq1, h1, hv1, hn1, _, _, _, hp1, _⟩ := insert_post (newQ C cmp order) hv0 e
  have hn1' : pq1.n = 1 := by rw [hn1]; rfl
  have hpos : 0 < pq1.n := by omega
  obtain ⟨pq2, h2, _, hn2, _⟩ := delete_post pq1 hv1 hpos
  have hn2' : pq2.n = 0 := by rw [hn2, hn1']; rfl
  have hlive : live pq1 = [e] := by
    rw [live_newQ] at hp1
    exact List.perm_singleton.1 (by simpa using hp1)
  have hslot : slot pq1 1 = e := by
    have := getD_live pq1 0 (by omega)
    rw [hlive] at this
    exact this.symm
  have hlen : 1 < pq1.heap.length := by obtain ⟨_, b, c⟩ := hv1; omega
  refine ⟨newQ C cmp order, pq1, pq2, ?_, rfl, rfl, rfl, h1, ?_, ?_, hn1', ?_, hn2', ?_⟩
  · rw [new_eq, if_pos (by omega)]
  · unfold prioqueue_is_empty; rw [if_neg (by omega)]
  · rw [peek_ok pq1 hpos hlen, hslot]
  · rw [h2, hslot]
  · unfold prioqueue_is_empty; rw [if_pos hn2']

theorem single_element_round_trip_witness :
    ∃ pq0 pq1 pq2, prioqueue_new 4 (some prio_cmp) PQMax = .ok pq0 ∧
      pq0.n = 0 ∧ prioqueue_size pq0 = 0 ∧ prioqueue_is_empty pq0 = 1 ∧
      prioqueue_insert pq0 7 = .ok pq1 ∧ prioqueue_is_empty pq1 = 0 ∧
      prioqueue_peek pq1 = .ok (7, pq1) ∧ prioqueue_size pq1 = 1 ∧
      prioqueue_delete pq1 = .ok (7, pq2) ∧ prioqueue_size pq2 = 0 ∧
      prioqueue_is_empty pq2 = 1 :=
  single_element_round_trip 4 (by decide) prio_cmp PQMax 7

/-- C11, the code at the failing input.  In an allocated state with at least
one stored handle, when the parent `heap[(n+1)/2]` of the new slot compares
equal to the inserted handle `e` (so the heap property already holds with `e`
in slot `n+1`), `prioqueue_insert` still swaps them: after the call slot
`n+1` holds the former parent. -/
theorem insert_swaps_equal_parent (pq : PrioQueue α) (hv : Valid pq) (h1 : 1 ≤ pq.n) (e p : α)
    (hp : heapGet pq (Int.tdiv (pq.n + 1) 2) = .ok p) (htie : pq.cmp p e = 0) :
    ∃ pq1, prioqueue_insert pq e = .ok pq1 ∧ heapGet pq1 (pq.n + 1) = .ok p := by
  have h0 := hv.1
  have hcast : Int.tdiv (pq.n + 1) 2 = (((pq.n + 1).toNat / 2 : Nat) : Int) := by
    rw [Int.tdiv_eq_ediv (by omega) (by omega)]; omega
  rw [hcast] at hp
  have hps := heapGet_eq_slot pq _ p hp
  rw [hps] at htie ⊢
  exact insert_tie pq hv h1 e htie

theorem insert_swaps_equal_parent_witness :
    (∃ r, run (newQ 4 kv_cmp PQMin) [.insert (1, 5), .insert (2, 5)] = .ok r ∧
      r.2.heap = [(0, 0), (2, 5), (1, 5), (0, 0)]) ∧
    ∃ pq1, prioqueue_insert
        { heap := [(0, 0), (1, 5), (0, 0), (0, 0)], n := 1, cap := 4, cmp := kv_cmp,
          __cmp := .is_less_than } (2, 5) = .ok pq1 ∧
      heapGet pq1 2 = .ok (1, 5) :=
  ⟨⟨_, rfl, rfl⟩,
   insert_swaps_equal_parent
    { heap := [(0, 0), (1, 5), (0, 0), (0, 0)], n := 1, cap := 4, cmp := kv_cmp,
      __cmp := .is_less_than }
    (by unfold Valid; decide) (by decide) (2, 5) (1, 5) rfl rfl⟩

/-- C12, counterexample.  On two handles that compare equal the predicate
bound by `prioqueue_new` returns false in both modes, although the comparator
result is both `≤ 0` and `≥ 0`. -/
theorem bound_predicate_false_on_tie :
    (∃ pq0, prioqueue_new 4 (some prio_cmp) PQMin = .ok pq0 ∧ call__cmp pq0 5 5 = false ∧
      prio_cmp 5 5 ≤ 0) ∧
    (∃ pq0, prioqueue_new 4 (some prio_cmp) PQMax = .ok pq0 ∧ call__cmp pq0 5 5 = false ∧
      0 ≤ prio_cmp 5 5) :=
  ⟨⟨newQ 4 prio_cmp PQMin, rfl, rfl, by decide⟩, ⟨newQ 4 prio_cmp PQMax, rfl, rfl, by decide⟩⟩

/-- C12, amended.  The predicate bound by `prioqueue_new` is strict: for an
engine created with `PQMax` it returns true exactly when `cmp x y > 0`, and for
an engine created with any other order value, `PQMin` included, it is the
`PQMin` predicate `is_less_than`, true exactly when `cmp x y < 0`. -/
theorem dispatch_binds_strict_predicate (C : Int) (cmp : α → α → Int) (order : prioqueue_order)
    (pq0 : PrioQueue α) (h : prioqueue_new C (some cmp) order = .ok pq0) :
    (order = PQMax → pq0.__cmp = .is_greater_than ∧
      ∀ x y, call__cmp pq0 x y = true ↔ 0 < cmp x y) ∧
    (order ≠ PQMax → pq0.__cmp = .is_less_than ∧
      ∀ x y, call__cmp pq0 x y = true ↔ cmp x y < 0) := by
  obtain ⟨rfl, _, _⟩ := new_post C cmp order pq0 h
  constructor
  · intro ho
    have hm : (newQ C cmp order).__cmp = .is_greater_than := by simp [newQ, ho]
    refine ⟨hm, fun x y => ?_⟩
    unfold call__cmp
    rw [hm]
    simp [is_greater_than, newQ]
  · intro ho
    have hm : (newQ C cmp order).__cmp = .is_less_than := by simp [newQ, ho]
    refine ⟨hm, fun x y => ?_⟩
    unfold call__cmp
    rw [hm]
    simp [is_less_than, newQ]

theorem dispatch_binds_strict_predicate_witness :
    ((newQ 4 prio_cmp PQMax).__cmp = .is_greater_than ∧
      ∀ x y, call__cmp (newQ 4 prio_cmp PQMax) x y = true ↔ 0 < prio_cmp x y) ∧
    ((newQ 4 prio_cmp 7).__cmp = .is_less_than ∧
      ∀ x y, call__cmp (newQ 4 prio_cmp 7) x y = true ↔ prio_cmp x y < 0) :=
  ⟨(dispatch_binds_strict_predicate 4 prio_cmp PQMax (newQ 4 prio_cmp PQMax) rfl).1 rfl,
   (dispatch_binds_strict_predicate 4 prio_cmp 7 (newQ 4 prio_cmp 7) rfl).2 (by decide)⟩

/-- C13. Sift-down child selection.  At an index `i ≥ 1` with `2i ≤ n`, the
child `j` that `siftdown` compares with `heap[i]` is the left child `2i` when it
is the only child, or when the bound predicate holds of the left and the right
child (`cmp left right < 0` in minimum order, `> 0` in maximum order), and the
right child `2i+1` otherwise, in particular when the two compare equal.  For a
consistent comparator the selected child is not worse-ranked than either
child. -/
theorem siftdown_child_selection (pq : PrioQueue α) (i : Int) (hi : 1 ≤ i)
    (h2 : 2 * i ≤ pq.n) (hn : pq.n < pq.heap.length) :
    ∃ j l, siftdown_child pq i = .ok j ∧ heapGet pq (2 * i) = .ok l ∧
      (2 * i = pq.n → j = 2 * i) ∧
      (2 * i < pq.n → ∃ r, heapGet pq (2 * i + 1) = .ok r ∧
        (j = if call__cmp pq l r then 2 * i else 2 * i + 1) ∧
        (pq.__cmp = .is_less_than → (j = 2 * i ↔ pq.cmp l r < 0)) ∧
        (pq.__cmp = .is_greater_than → (j = 2 * i ↔ 0 < pq.cmp l r)) ∧
        (pq.cmp l r = 0 → j = 2 * i + 1)) ∧
      (∀ fuel, ∃ x y, heapGet pq i = .ok x ∧ heapGet pq j = .ok y ∧
        siftdown (fuel + 1) pq i =
          if call__cmp pq x y then .ok pq
          else swap pq i j >>= fun pq1 => siftdown fuel pq1 j) ∧
      (TotalPreorder pq.cmp → ∀ c : Int, (c = 2 * i ∨ c = 2 * i + 1) → c ≤ pq.n →
        ∃ y z, heapGet pq j = .ok y ∧ heapGet pq c = .ok z ∧ ranked pq y z) := by
  obtain ⟨k, rfl⟩ := Int.eq_ofNat_of_zero_le (by omega : (0 : Int) ≤ i)
  have hk1 : 1 ≤ k := by omega
  obtain ⟨hjn, hj2, hji⟩ := childOf_bounds pq k h2
  have hjlen : childOf pq k < pq.heap.length := by omega
  have e1 : (2 : Int) * (k : Int) = ((2 * k : Nat) : Int) := by push_cast; ring
  have e2 : (2 : Int) * (k : Int) + 1 = ((2 * k + 1 : Nat) : Int) := by push_cast; ring
  have hcases := childOf_cases pq k
  refine ⟨(childOf pq k : Nat), slot pq (2 * k), siftdown_child_ok pq k hn, ?_, ?_, ?_, ?_, ?_⟩
  · rw [e1]; exact heapGet_ok pq _ (by omega)
  · intro heq
    rcases hcases with ⟨e, _⟩ | ⟨_, hlt, _⟩
    · rw [e]; push_cast; ring
    · omega
  · intro hlt
    refine ⟨slot pq (2 * k + 1), by rw [e2]; exact heapGet_ok pq _ (by omega), ?_, ?_, ?_, ?_⟩
    · rcases hcases with ⟨e, hc⟩ | ⟨e, _, hc⟩
      · rw [e, hc hlt, if_pos rfl]; push_cast; ring
      · rw [e, hc]; simp only [Bool.false_eq_true, if_false]; push_cast; ring
    · intro hm
      have hcall : call__cmp pq (slot pq (2 * k)) (slot pq (2 * k + 1)) =
          decide (pq.cmp (slot pq (2 * k)) (slot pq (2 * k + 1)) < 0) := by
        unfold call__cmp; rw [hm]; rfl
      rcases hcases with ⟨e, hc⟩ | ⟨e, _, hc⟩
      · rw [e]
        have := hc hlt
        rw [hcall, decide_eq_true_eq] at this
        constructor
        · intro _; exact this
        · intro _; push_cast; ring
      · rw [e]
        rw [hcall, decide_eq_false_iff_not] at hc
        constructor
        · intro h; push_cast at h; omega
        · intro h; exact absurd h hc
    · intro hm
      have hcall : call__cmp pq (slot pq (2 * k)) (slot pq (2 * k + 1)) =
          decide (pq.cmp (slot pq (2 * k)) (slot pq (2 * k + 1)) > 0) := by
        unfold call__cmp; rw [hm]; rfl
      rcases hcases with ⟨e, hc⟩ | ⟨e, _, hc⟩
      · rw [e]
        have := hc hlt
        rw [hcall, decide_eq_true_eq] at this
        constructor
        · intro _; exact this
        · intro _; push_cast; ring
      · rw [e]
        rw [hcall, decide_eq_false_iff_not] at hc
        constructor
        · intro h; push_cast at h; omega
        · intro h; exact absurd h hc
    · intro htie
      have hcall := call_false_of_tie pq _ _ htie
      rcases hcases with ⟨e, hc⟩ | ⟨e, _, _⟩
      · rw [hc hlt] at hcall; cases hcall
      · rw [e]; push_cast; ring
  · intro fuel
    refine ⟨slot pq k, slot pq (childOf pq k), heapGet_ok pq _ (by omega),
      heapGet_ok pq _ hjlen, ?_⟩
    rw [siftdown_step fuel pq k hn h2, swap_ok pq _ _ (by omega) hjlen, ok_bind]
  · intro hc c hcc hcn
    obtain ⟨d, rfl⟩ := Int.eq_ofNat_of_zero_le (by omega : (0 : Int) ≤ c)
    refine ⟨slot pq (childOf pq k), slot pq d, heapGet_ok pq _ hjlen,
      heapGet_ok pq _ (by omega), ?_⟩
    exact childOf_best pq hc k d (by omega) (by omega) hcn

theorem siftdown_child_selection_witness :
    ∃ j l, siftdown_child sample_queue 1 = .ok j ∧ heapGet sample_queue (2 * 1) = .ok l ∧
      ((2 : Int) * 1 = sample_queue.n → j = 2 * 1) ∧
      ((2 : Int) * 1 < sample_queue.n → ∃ r, heapGet sample_queue (2 * 1 + 1) = .ok r ∧
        (j = if call__cmp sample_queue l r then 2 * 1 else 2 * 1 + 1) ∧
        (sample_queue.__cmp = .is_less_than → (j = 2 * 1 ↔ sample_queue.cmp l r < 0)) ∧
        (sample_queue.__cmp = .is_greater_than → (j = 2 * 1 ↔ 0 < sample_queue.cmp l r)) ∧
        (sample_queue.cmp l r = 0 → j = 2 * 1 + 1)) ∧
      (∀ fuel, ∃ x y, heapGet sample_queue 1 = .ok x ∧ heapGet sample_queue j = .ok y ∧
        siftdown (fuel + 1) sample_queue 1 =
          if call__cmp sample_queue x y then .ok sample_queue
          else swap sample_queue 1 j >>= fun pq1 => siftdown fuel pq1 j) ∧
      (TotalPreorder sample_queue.cmp → ∀ c : Int, (c = 2 * 1 ∨ c = 2 * 1 + 1) →
        c ≤ sample_queue.n →
        ∃ y z, heapGet sample_queue j = .ok y ∧ heapGet sample_queue c = .ok z ∧
          ranked sample_queue y z) :=
  siftdown_child_selection sample_queue 1 (by decide) (by decide) (by decide)

/-- C14. Shrink policy of extract.  In an allocated state with `n > 0`,
`prioqueue_delete` returns with the new count `n - 1` and with capacity `cap/2`
when the new count plus one is below `cap/2`, and `cap` otherwise; the array
has as many slots as the new capacity and the remaining handles are the old
ones without the returned handle. -/
theorem shrink_policy (pq : PrioQueue α) (hv : Valid pq) (h0 : 0 < pq.n) :
    ∃ e pq1, prioqueue_delete pq = .ok (e, pq1) ∧ pq1.n = pq.n - 1 ∧
      pq1.cap = (if pq1.n + 1 < Int.tdiv pq.cap 2 then Int.tdiv pq.cap 2 else pq.cap) ∧
      Int.tdiv pq.cap 2 = pq.cap / 2 ∧
      (pq1.heap.length : Int) = pq1.cap ∧ ((live pq1).length : Int) = pq.n - 1 ∧
      (e :: live pq1).Perm (live pq) := by
  obtain ⟨pq1, h1, hv1, hn1, hcap1, _, _, hp, _⟩ := delete_post pq hv h0
  have hcappos : 2 ≤ pq.cap := by obtain ⟨a, _, c⟩ := hv; omega
  refine ⟨_, pq1, h1, hn1, ?_, Int.tdiv_eq_ediv (by omega) (by omega), hv1.2.1, ?_, hp⟩
  · rw [hcap1, hn1]; simp only [Int.sub_add_cancel]
  · rw [length_live pq1 (by obtain ⟨_, b, c⟩ := hv1; omega), hn1]
    omega

theorem shrink_policy_witness :
    ∃ e pq1, prioqueue_delete sample_queue = .ok (e, pq1) ∧ pq1.n = 3 - 1 ∧
      pq1.cap = (if pq1.n + 1 < Int.tdiv 8 2 then Int.tdiv 8 2 else 8) ∧
      Int.tdiv (8 : Int) 2 = 8 / 2 ∧
      (pq1.heap.length : Int) = pq1.cap ∧ ((live pq1).length : Int) = 3 - 1 ∧
      (e :: live pq1).Perm (live sample_queue) :=
  shrink_policy sample_queue sample_valid (by decide)

/-- C15. Array accesses stay in bounds.  For an initial capacity of at least
2, every state reached from `prioqueue_new` by a sequence of calls satisfies
`0 ≤ n`, `n + 2 ≤ cap` and has `cap` allocated slots; a sequence of calls
either returns or stops at the assertion `n > 0`, so no array access inside
`prioqueue_insert`, `siftup`, `siftdown` or `prioqueue_delete` falls outside
the array; in a reached state `prioqueue_insert` always returns and
`prioqueue_delete` returns when `n > 0`. -/
theorem accesses_in_bounds (C : Int) (hC : 2 ≤ C) (cmp : α → α → Int)
    (order : prioqueue_order) (pq0 : PrioQueue α)
    (h : prioqueue_new C (some cmp) order = .ok pq0) (ops : List (Op α)) :
    ((∃ r, run pq0 ops = .ok r) ∨ run pq0 ops = .error .assertFailed) ∧
    run pq0 ops ≠ .error .outOfBounds ∧
    (∀ r, run pq0 ops = .ok r →
      0 ≤ r.2.n ∧ r.2.n + 2 ≤ r.2.cap ∧ (r.2.heap.length : Int) = r.2.cap ∧
      (∀ e, ∃ q, prioqueue_insert r.2 e = .ok q) ∧
      (0 < r.2.n → ∃ x q, prioqueue_delete r.2 = .ok (x, q))) := by
  obtain ⟨rfl, _, _⟩ := new_post C cmp order pq0 h
  have hv0 := newQ_valid C cmp order hC
  have hout := run_outcome ops (newQ C cmp order) hv0
  refine ⟨hout, ?_, ?_⟩
  · rcases hout with ⟨r, hr⟩ | hr
    · rw [hr]; exact fun h => by cases h
    · rw [hr]; exact fun h => by cases h
  · intro r hr
    have hv := run_valid _ hv0 ops r hr
    refine ⟨hv.1, hv.2.2, hv.2.1, ?_, ?_⟩
    · intro e
      obtain ⟨q, hq, _⟩ := insert_post r.2 hv e
      exact ⟨q, hq⟩
    · intro hpos
      obtain ⟨q, hq, _⟩ := delete_post r.2 hv hpos
      exact ⟨_, q, hq⟩

theorem accesses_in_bounds_witness :
    ((∃ r, run (newQ 2 prio_cmp PQMin) [.insert 5, .insert 3, .delete, .delete] = .ok r) ∨
      run (newQ 2 prio_cmp PQMin) [.insert 5, .insert 3, .delete, .delete]
        = .error .assertFailed) ∧
    run (newQ 2 prio_cmp PQMin) [.insert 5, .insert 3, .delete, .delete]
      ≠ .error .outOfBounds ∧
    (∀ r, run (newQ 2 prio_cmp PQMin) [.insert 5, .insert 3, .delete, .delete] = .ok r →
      0 ≤ r.2.n ∧ r.2.n + 2 ≤ r.2.cap ∧ (r.2.heap.length : Int) = r.2.cap ∧
      (∀ e, ∃ q, prioqueue_insert r.2 e = .ok q) ∧
      (0 < r.2.n → ∃ x q, prioqueue_delete r.2 = .ok (x, q))) :=
  accesses_in_bounds 2 (by decide) prio_cmp PQMin (newQ 2 prio_cmp PQMin) rfl
    [.insert 5, .insert 3, .delete, .delete]

/-- C16. Reallocation thrash at the growth boundary.  In an allocated state
with `n + 2 = cap`, `prioqueue_insert` doubles the capacity and the
`prioqueue_delete` that follows halves it back, returning to a state with
`n + 2 = cap`; hence for any `k` handles the `2k` alternating insert and delete
calls all change the capacity. -/
theorem realloc_thrash (pq : PrioQueue α) (hv : Valid pq) (hg : pq.n + 2 = pq.cap) :
    (∀ e, ∃ pq1 pq2 x, prioqueue_insert pq e = .ok pq1 ∧ pq1.cap = 2 * pq.cap ∧
      prioqueue_delete pq1 = .ok (x, pq2) ∧ pq2.cap = pq.cap ∧ pq2.n + 2 = pq2.cap) ∧
    (∀ es : List α, (alternate es).length = 2 * es.length ∧
      ∃ q, realloc_count pq (alternate es) = .ok (2 * es.length, q) ∧ q.n + 2 = q.cap) := by
  constructor
  · intro e
    obtain ⟨pq1, pq2, x, h1, hc1, h2, hc2, hn2, _⟩ := thrash_round pq hv hg e
    exact ⟨pq1, pq2, x, h1, hc1, h2, hc2, by rw [hn2, hc2]; exact hg⟩
  · intro es
    constructor
    · induction es with
      | nil => rfl
      | cons e es ih =>
        show (alternate es).length + 1 + 1 = 2 * (es.length + 1)
        rw [ih]; ring
    · obtain ⟨q, hq, _, hn, hc⟩ := thrash_count es pq hv hg
      exact ⟨q, hq, by rw [hn, hc]; exact hg⟩

theorem realloc_thrash_witness :
    (∀ e, ∃ pq1 pq2 x, prioqueue_insert (newQ 2 prio_cmp PQMin) e = .ok pq1 ∧
      pq1.cap = 2 * 2 ∧ prioqueue_delete pq1 = .ok (x, pq2) ∧ pq2.cap = 2 ∧
      pq2.n + 2 = pq2.cap) ∧
    (∀ es : List Int, (alternate es).length = 2 * es.length ∧
      ∃ q, realloc_count (newQ 2 prio_cmp PQMin) (alternate es) = .ok (2 * es.length, q) ∧
        q.n + 2 = q.cap) :=
  realloc_thrash (newQ 2 prio_cmp PQMin) (by unfold Valid newQ; decide) rfl

/-- C17. Logarithmic number of reallocations for fill-then-drain.  For an
initial capacity `C ≥ 2`, any comparator, any order value and any list of
`N ≥ 1` handles, inserting the handles into a fresh engine and then deleting
`N` times returns, leaves the engine empty, and changes the capacity at most
`c * (1 + log2 N)` times, with the constant `c = 2 + log2 C`. -/
theorem realloc_count_logarithmic (C : Int) (hC : 2 ≤ C) (cmp : α → α → Int)
    (order : prioqueue_order) (pq0 : PrioQueue α)
    (h : prioqueue_new C (some cmp) order = .ok pq0) (xs : List α) (hxs : 1 ≤ xs.length) :
    ∃ k q, realloc_count pq0 (fill_drain_ops xs) = .ok (k, q) ∧ prioqueue_size q = 0 ∧
      k ≤ (2 + Nat.log 2 C.toNat) * (1 + Nat.log 2 xs.length) := by
  obtain ⟨rfl, _, _⟩ := new_post C cmp order pq0 h
  exact fill_drain_count C hC cmp order xs hxs

theorem realloc_count_logarithmic_witness :
    ∃ k q, realloc_count (newQ 4 prio_cmp PQMin) (fill_drain_ops [5, 3, 9, 1, 7]) = .ok (k, q) ∧
      prioqueue_size q = 0 ∧
      k ≤ (2 + Nat.log 2 (4 : Int).toNat) * (1 + Nat.log 2 [5, 3, 9, 1, (7 : Int)].length) :=
  realloc_count_logarithmic 4 (by decide) prio_cmp PQMin (newQ 4 prio_cmp PQMin) rfl
    [5, 3, 9, 1, 7] (by decide)

/-- C18. The two order modes are one algorithm with flipped polarity.  For
every comparator `cmp`, every initial capacity and every sequence of insert,
delete and peek calls, an engine created with `PQMax` and `cmp` and an engine
created with `PQMin` and the negated comparator start with the same array,
count and capacity, and after every call have returned the same handle and
hold the same array, count and capacity; if one faults so does the other, on
the same fault. -/
theorem order_modes_flip (C : Int) (cmp : α → α → Int) (ops : List (Op α)) :
    Except.map (fun q => (q.heap, q.n, q.cap)) (prioqueue_new C (some cmp) PQMax)
      = Except.map (fun q => (q.heap, q.n, q.cap))
          (prioqueue_new C (some (fun x y => - cmp x y)) PQMin) ∧
    Except.map (List.map observe) (prioqueue_new C (some cmp) PQMax >>= fun q => trace q ops)
      = Except.map (List.map observe)
          (prioqueue_new C (some (fun x y => - cmp x y)) PQMin >>= fun q => trace q ops) := by
  have hq : newQ C (fun x y => - cmp x y) PQMin
      = retag (fun x y => - cmp x y) .is_less_than (newQ C cmp PQMax) := rfl
  rw [new_eq, new_eq]
  by_cases h1 : 1 ≤ C
  · rw [if_pos h1, if_pos h1]
    refine ⟨rfl, ?_⟩
    rw [ok_bind, ok_bind, hq,
      trace_retag _ _ ops (newQ C cmp PQMax) (call_flip cmp _ rfl rfl)]
    cases trace (newQ C cmp PQMax) ops with
    | error f => rfl
    | ok t =>
      show Except.ok (List.map observe t) = Except.ok (List.map observe (List.map _ t))
      rw [List.map_map]
      rfl
  · rw [if_neg h1, if_neg h1]
    exact ⟨rfl, rfl⟩

/-- C19, counterexample.  Started at index 0 on an empty engine, the loop of
`siftdown` never ends: `2*0 ≤ n` holds, the selected child is index 0 itself,
the strict predicate fails on a handle against itself, and the swap leaves the
index at 0.  No amount of fuel lets it finish. -/
theorem siftdown_at_zero_never_returns :
    ¬ ∃ fuel : Nat, siftdown fuel (newQ 4 prio_cmp PQMin) 0 ≠ .error .outOfFuel :=
  fun ⟨fuel, h⟩ => h (siftdown_zero_loops fuel)

/-- C19, amended.  For every state and every comparator: `siftup` started at
any index `i` ends within `i - 1` iterations; `siftdown` started at an index
`i ≥ 1` ends within `n - i` iterations; so `prioqueue_insert` and
`prioqueue_delete`, which start them at `n` and at 1, never fail to terminate,
and in an allocated state they return (`prioqueue_delete` when `n > 0`). -/
theorem sift_loops_terminate (pq : PrioQueue α) :
    (∀ (i : Int) (fuel : Nat), i ≤ (fuel : Int) + 1 → siftup fuel pq i ≠ .error .outOfFuel) ∧
    (∀ (i : Int) (fuel : Nat), 1 ≤ i → pq.n ≤ (fuel : Int) + i →
      siftdown fuel pq i ≠ .error .outOfFuel) ∧
    (∀ e, prioqueue_insert pq e ≠ .error .outOfFuel) ∧
    prioqueue_delete pq ≠ .error .outOfFuel ∧
    (Valid pq → (∀ e, ∃ q, prioqueue_insert pq e = .ok q) ∧
      (0 < pq.n → ∃ r, prioqueue_delete pq = .ok r)) := by
  refine ⟨fun i fuel hi => siftup_terminates fuel pq i hi,
    fun i fuel hi hf => siftdown_terminates fuel pq i hi hf,
    fun e => insert_terminates pq e, delete_terminates pq, ?_⟩
  intro hv
  constructor
  · intro e
    obtain ⟨q, hq, _⟩ := insert_post pq hv e
    exact ⟨q, hq⟩
  · intro h0
    obtain ⟨q, hq, _⟩ := delete_post pq hv h0
    exact ⟨_, hq⟩

theorem sift_loops_terminate_witness :
    siftup 2 sample_queue 3 ≠ .error .outOfFuel ∧
    siftdown 2 sample_queue 1 ≠ .error .outOfFuel ∧
    prioqueue_insert sample_queue 5 ≠ .error .outOfFuel ∧
    prioqueue_delete sample_queue ≠ .error .outOfFuel ∧
    (∃ q, prioqueue_insert sample_queue 5 = .ok q) ∧
    (∃ r, prioqueue_delete sample_queue = .ok r) :=
  ⟨(sift_loops_terminate sample_queue).1 3 2 (by decide),
   (sift_loops_terminate sample_queue).2.1 1 2 (by decide) (by decide),
   (sift_loops_terminate sample_queue).2.2.1 5,
   (sift_loops_terminate sample_queue).2.2.2.1,
   ((sift_loops_terminate sample_queue).2.2.2.2 sample_valid).1 5,
   ((sift_loops_terminate sample_queue).2.2.2.2 sample_valid).2 (by decide)⟩

end Claims

end PrioQueueC
